import Mathlib

/-!
# RecordModel field types (`include/RM_Types.h`)

A shallow embedding of the field-type classes of RecordModel and proofs about
them.

* A record (`void *a`) is a list of bytes, `Mem`.  A field sits at byte
  `_offset` of the record; `element(a)` of an unsigned-integer field reads
  `sizeof(NT)` bytes there in host byte order (little-endian).
* A `uint8_t *` is a record together with a base index; `p[i]` is the byte at
  `base + i`.
* Machine integers are natural numbers reduced `% 2^w` at every assignment.
  Loop counters and lengths of C type `int` are taken exact (texts are shorter
  than `2^31` characters).
* A text token `[s, e)` is the list of its characters; `Char.toNat` is the
  value of the C `char`.
* Functions that return an error code and write through a pointer return the
  pair of the code and the new memory.
-/

namespace RecordModel

/-! ## Record memory -/

/-- One byte of memory. -/
abbrev Byte := Fin 256

/-- The bytes of a record, or of a raw field image. -/
abbrev Mem := List Byte

/-- Conversion to `uint8_t`: the value modulo `2^8`. -/
def Byte.ofNat (n : Nat) : Byte := ⟨n % 256, Nat.mod_lt n (by decide)⟩

/-- The read `p[i]` of a `uint8_t *p` that points at index `base`: the argument is `base + i`. -/
def Mem.byteAt (m : Mem) (i : Nat) : Nat := (m.getD i 0).val

/-- The write `p[i] = v` through a `uint8_t *p`: the argument is `base + i`. -/
def Mem.setByte (m : Mem) (i : Nat) (v : Nat) : Mem := m.set i (Byte.ofNat v)

/-- The `n` bytes starting at index `base`. -/
def Mem.read (m : Mem) (base n : Nat) : List Byte := (m.drop base).take n

/-- Overwrite the bytes starting at index `base` with `bs`. -/
def Mem.write (m : Mem) (base : Nat) (bs : List Byte) : Mem :=
  m.take base ++ bs ++ m.drop (base + bs.length)

/-- The library call `memset(p, c, n)` with `p` at index `base`. -/
def memset (m : Mem) (base : Nat) (c : Nat) (n : Nat) : Mem :=
  m.write base (List.replicate n (Byte.ofNat c))

/-- The library call `bzero(p, n)` with `p` at index `base`. -/
def bzero (m : Mem) (base : Nat) (n : Nat) : Mem := memset m base 0 n

/-- The library call `memcpy(dst, src, n)`, `dst` at index `dbase`, `src` at index `sbase`. -/
def memcpy (dst : Mem) (dbase : Nat) (src : Mem) (sbase : Nat) (n : Nat) : Mem :=
  dst.write dbase (src.read sbase n)

/-- The unsigned integer held by a run of bytes, least significant byte first. -/
def leDecode : List Byte → Nat
  | [] => 0
  | b :: bs => b.val + 256 * leDecode bs

/-- The `w` bytes of the unsigned integer `v % 2^(8w)`, least significant byte first. -/
def leEncode : Nat → Nat → List Byte
  | 0, _ => []
  | w + 1, v => Byte.ofNat v :: leEncode w (v / 256)

/-! ## Error codes -/

def RM_ERR_OK : Int := 0
def RM_ERR_INT_RANGE : Int := 1
def RM_ERR_INT_INV : Int := 2
def RM_ERR_HEX_INV_SIZE : Int := 10
def RM_ERR_HEX_INV_DIGIT : Int := 11
def RM_ERR_STR_TOO_LONG : Int := 20

/-! ## `RM_Conversion` -/

namespace RM_Conversion

/-- Body of the loop of `str_to_uint`; the state is `(v, err)`, `v` a `uint64_t`. -/
def str_to_uint_step (st : Nat × Int) (c : Char) : Nat × Int :=
  if '0'.toNat ≤ c.toNat ∧ c.toNat ≤ '9'.toNat then
    ((st.1 * 10 % 2 ^ 64 + (c.toNat - '0'.toNat)) % 2 ^ 64, st.2)
  else
    (st.1, RM_ERR_INT_INV)

/-- The function `str_to_uint(s, e, err)`: the returned value and `err`. -/
def str_to_uint (s : List Char) : Nat × Int :=
  s.foldl str_to_uint_step (0, RM_ERR_OK)

/-- Body of the first loop of `str_to_uint2`; the state is `(v, post_digits, err)`. -/
def str_to_uint2_step (st : Nat × Int × Int) (c : Char) : Nat × Int × Int :=
  if '0'.toNat ≤ c.toNat ∧ c.toNat ≤ '9'.toNat then
    ((st.1 * 10 % 2 ^ 64 + (c.toNat - '0'.toNat)) % 2 ^ 64,
      (if st.2.1 ≥ 0 then st.2.1 + 1 else st.2.1), st.2.2)
  else if c = '.' then
    if st.2.1 < 0 then (st.1, 0, st.2.2) else (st.1, st.2.1, RM_ERR_INT_INV)
  else
    (st.1, st.2.1, RM_ERR_INT_INV)

/-- The loop `for (; post_digits < precision; ++post_digits) v *= 10;` run for its
`k = precision - post_digits` iterations. -/
def scale_up : Nat → Nat → Nat
  | 0, v => v
  | k + 1, v => scale_up k (v * 10 % 2 ^ 64)

/-- The loop `for (; post_digits > precision; --post_digits) v /= 10;` run for its
`k = post_digits - precision` iterations. -/
def scale_down : Nat → Nat → Nat
  | 0, v => v
  | k + 1, v => scale_down k (v / 10)

/-- The function `str_to_uint2(s, e, precision, err)`: the returned value and `err`. -/
def str_to_uint2 (s : List Char) (precision : Int) : Nat × Int :=
  let st := s.foldl str_to_uint2_step (0, -1, RM_ERR_OK)
  let v := scale_up (precision - st.2.1).toNat st.1
  let post_digits := if st.2.1 < precision then precision else st.2.1
  let v := scale_down (post_digits - precision).toNat v
  (v, st.2.2)

end RM_Conversion

/-! ## `RM_UInt<NT, order>` and its subclasses -/

/-- The classes derived from `RM_UInt`. -/
inductive UIntKind
  | UINT8 | UINT16 | UINT32 | UINT64 | TIMESTAMP | TIMESTAMP_DESC
  deriving DecidableEq, Repr

/-- The template argument `NT` as `sizeof(NT)`. -/
def UIntKind.sizeofNT : UIntKind → Nat
  | .UINT8 => 1
  | .UINT16 => 2
  | .UINT32 => 4
  | .UINT64 => 8
  | .TIMESTAMP => 8
  | .TIMESTAMP_DESC => 8

/-- The template argument `order`: `true` is ascending, `false` descending. -/
def UIntKind.order : UIntKind → Bool
  | .TIMESTAMP_DESC => false
  | _ => true

/-- An object of a class derived from `RM_UInt`: its class, `_offset` and `_default`. -/
structure RM_UInt where
  kind : UIntKind
  _offset : Nat
  _default : Nat
  deriving Repr

namespace RM_UInt

def size (f : RM_UInt) : Nat := f.kind.sizeofNT

/-- The constant `std::numeric_limits<NT>::min()`. -/
def NT_min (_f : RM_UInt) : Nat := 0

/-- The constant `std::numeric_limits<NT>::max()`. -/
def NT_max (f : RM_UInt) : Nat := 2 ^ (8 * f.size) - 1

/-- The read `element(a)`. -/
def element (f : RM_UInt) (a : Mem) : Nat := leDecode (a.read f._offset f.size)

/-- The write `element(a) = (NT)v`. -/
def assign (f : RM_UInt) (a : Mem) (v : Nat) : Mem := a.write f._offset (leEncode f.size v)

/-- The read `*((const NT*)ptr)` of a raw field image. -/
def deref (f : RM_UInt) (ptr : Mem) : Nat := leDecode (ptr.read 0 f.size)

/-- The value `ULONG2NUM(element(a))` as the host integer. -/
def to_ruby (f : RM_UInt) (a : Mem) : Nat := f.element a

def _set_uint (f : RM_UInt) (a : Mem) (v : Nat) : Int × Mem :=
  if ¬ (v ≥ f.NT_min ∧ v ≤ f.NT_max) then (RM_ERR_INT_RANGE, a)
  else (RM_ERR_OK, f.assign a v)

def set_default (f : RM_UInt) (a : Mem) : Mem := f.assign a f._default

/-- The argument `v` is the `uint64_t` that `NUM2ULONG(val)` yields. -/
def set_from_ruby (f : RM_UInt) (a : Mem) (v : Nat) : Int × Mem := f._set_uint a v

/-- The virtual `set_from_string`: `RM_TIMESTAMP` and `RM_TIMESTAMP_DESC` override it. -/
def set_from_string (f : RM_UInt) (a : Mem) (s : List Char) : Int × Mem :=
  match f.kind with
  | .TIMESTAMP | .TIMESTAMP_DESC =>
    let r := RM_Conversion.str_to_uint2 s 3
    if r.2 ≠ 0 then (r.2, a) else f._set_uint a r.1
  | _ =>
    let r := RM_Conversion.str_to_uint s
    if r.2 ≠ 0 then (r.2, a) else f._set_uint a r.1

def set_from_memory (f : RM_UInt) (a : Mem) (ptr : Mem) : Mem := f.assign a (f.deref ptr)

def copy_to_memory (f : RM_UInt) (a : Mem) (ptr : Mem) : Mem :=
  ptr.write 0 (leEncode f.size (f.element a))

def set_min (f : RM_UInt) (a : Mem) : Mem :=
  f.assign a (if f.kind.order then f.NT_min else f.NT_max)

def set_max (f : RM_UInt) (a : Mem) : Mem :=
  f.assign a (if f.kind.order then f.NT_max else f.NT_min)

def add (f : RM_UInt) (a : Mem) (b : Mem) : Mem :=
  f.assign a ((f.element a + f.element b) % 2 ^ (8 * f.size))

def inc (f : RM_UInt) (a : Mem) : Mem :=
  if f.kind.order then f.assign a ((f.element a + 1) % 2 ^ (8 * f.size))
  else f.assign a ((f.element a + 2 ^ (8 * f.size) - 1) % 2 ^ (8 * f.size))

def copy (f : RM_UInt) (a : Mem) (b : Mem) : Mem := f.assign a (f.element b)

def betw (f : RM_UInt) (c l r : Nat) : Int :=
  if f.kind.order then
    if c < l then -1
    else if c > r then 1
    else 0
  else
    if c > l then -1
    else if c < r then 1
    else 0

def cmp (f : RM_UInt) (a b : Nat) : Int :=
  if f.kind.order then
    if a < b then -1
    else if a > b then 1
    else 0
  else
    if a > b then -1
    else if a < b then 1
    else 0

def between (f : RM_UInt) (c l r : Mem) : Int := f.betw (f.element c) (f.element l) (f.element r)

def memory_between (f : RM_UInt) (mem l r : Mem) : Int :=
  f.betw (f.deref mem) (f.element l) (f.element r)

def compare (f : RM_UInt) (a b : Mem) : Int := f.cmp (f.element a) (f.element b)

def compare_with_memory (f : RM_UInt) (a mem : Mem) : Int := f.cmp (f.element a) (f.deref mem)

end RM_UInt

/-- The objects `RM_UINT8(d)` to `RM_TIMESTAMP_DESC(d)` placed at byte `off` of the record. -/
def RM_UINT8 (off d : Nat) : RM_UInt := ⟨.UINT8, off, d⟩
def RM_UINT16 (off d : Nat) : RM_UInt := ⟨.UINT16, off, d⟩
def RM_UINT32 (off d : Nat) : RM_UInt := ⟨.UINT32, off, d⟩
def RM_UINT64 (off d : Nat) : RM_UInt := ⟨.UINT64, off, d⟩
def RM_TIMESTAMP (off d : Nat) : RM_UInt := ⟨.TIMESTAMP, off, d⟩
def RM_TIMESTAMP_DESC (off d : Nat) : RM_UInt := ⟨.TIMESTAMP_DESC, off, d⟩

/-! ## `RM_String` -/

/-- An object of a class derived from `RM_String`: `_offset` and `_size`. -/
structure RM_String where
  _offset : Nat
  _size : Nat
  deriving Repr

namespace RM_String

def size (f : RM_String) : Nat := f._size

def set_default (f : RM_String) (a : Mem) : Mem := bzero a f._offset f.size

def set_from_memory (f : RM_String) (a : Mem) (ptr : Mem) : Mem :=
  memcpy a f._offset ptr 0 f.size

def copy_to_memory (f : RM_String) (a : Mem) (ptr : Mem) : Mem :=
  memcpy ptr 0 a f._offset f.size

def set_min (f : RM_String) (a : Mem) : Mem := memset a f._offset 0 f.size

def set_max (f : RM_String) (a : Mem) : Mem := memset a f._offset 0xFF f.size

/-- The loop of `inc`; `str` points at index `base`, and the second argument is `i + 1`
(`0` when the loop condition `i >= 0` fails). -/
def inc_loop (base : Nat) : Nat → Mem → Mem
  | 0, m => m
  | i + 1, m =>
    if m.byteAt (base + i) < 0xFF then
      m.setByte (base + i) (m.byteAt (base + i) + 1)
    else
      inc_loop base i (m.setByte (base + i) 0)

def inc (f : RM_String) (a : Mem) : Mem := inc_loop f._offset f.size a

def copy (f : RM_String) (a : Mem) (b : Mem) : Mem :=
  memcpy a f._offset b f._offset f.size

/-- First loop of `between_pointers`, at index `k` with `n = size() - k` iterations to go:
`some (-1)` when it returns, `none` when it breaks or runs out. -/
def between_lower (c : Mem) (cb : Nat) (l : Mem) (lb : Nat) : Nat → Nat → Option Int
  | 0, _ => none
  | n + 1, k =>
    if c.byteAt (cb + k) < l.byteAt (lb + k) then some (-1)
    else if c.byteAt (cb + k) > l.byteAt (lb + k) then none
    else between_lower c cb l lb n (k + 1)

/-- Second loop of `between_pointers`: `some 1` when it returns, `none` otherwise. -/
def between_upper (c : Mem) (cb : Nat) (r : Mem) (rb : Nat) : Nat → Nat → Option Int
  | 0, _ => none
  | n + 1, k =>
    if c.byteAt (cb + k) > r.byteAt (rb + k) then some 1
    else if c.byteAt (cb + k) < r.byteAt (rb + k) then none
    else between_upper c cb r rb n (k + 1)

/-- The function `between_pointers(cp, lp, rp)`; each pointer is a memory and a base index. -/
def between_pointers (f : RM_String) (c : Mem) (cb : Nat) (l : Mem) (lb : Nat)
    (r : Mem) (rb : Nat) : Int :=
  match between_lower c cb l lb f.size 0 with
  | some v => v
  | none =>
    match between_upper c cb r rb f.size 0 with
    | some v => v
    | none => 0

def between (f : RM_String) (c l r : Mem) : Int :=
  f.between_pointers c f._offset l f._offset r f._offset

def memory_between (f : RM_String) (mem l r : Mem) : Int :=
  f.between_pointers mem 0 l f._offset r f._offset

/-- The loop of `compare_pointers`, at index `i` with `n = size() - i` iterations to go. -/
def compare_loop (a : Mem) (ab : Nat) (b : Mem) (bb : Nat) : Nat → Nat → Int
  | 0, _ => 0
  | n + 1, i =>
    if a.byteAt (ab + i) < b.byteAt (bb + i) then -1
    else if a.byteAt (ab + i) > b.byteAt (bb + i) then 1
    else compare_loop a ab b bb n (i + 1)

def compare_pointers (f : RM_String) (a : Mem) (ab : Nat) (b : Mem) (bb : Nat) : Int :=
  compare_loop a ab b bb f.size 0

def compare (f : RM_String) (a b : Mem) : Int := f.compare_pointers a f._offset b f._offset

def compare_with_memory (f : RM_String) (a mem : Mem) : Int :=
  f.compare_pointers a f._offset mem 0

end RM_String

/-! ## `RM_HEXSTR` -/

namespace RM_HEXSTR

def to_hex_digit (v : Nat) : Char :=
  if v ≤ 9 then Char.ofNat ('0'.toNat + v)
  else if v ≥ 10 ∧ v ≤ 15 then Char.ofNat ('A'.toNat + v - 10)
  else '#'

def from_hex_digit (c : Char) : Int :=
  if '0'.toNat ≤ c.toNat ∧ c.toNat ≤ '9'.toNat then (c.toNat : Int) - '0'.toNat
  else if 'a'.toNat ≤ c.toNat ∧ c.toNat ≤ 'f'.toNat then (c.toNat : Int) - 'a'.toNat + 10
  else if 'A'.toNat ≤ c.toNat ∧ c.toNat ≤ 'F'.toNat then (c.toNat : Int) - 'A'.toNat + 10
  else -1

/-- The loop of `parse_hexstring` over the characters `str[i], str[i+1], ...` still to read;
`v` points at index `vbase`. -/
def parse_hexstring_loop (vbase : Nat) (i_off : Int) : List Char → Int → Mem → Int × Mem
  | [], _, m => (RM_ERR_OK, m)
  | c :: cs, i, m =>
    if from_hex_digit c < 0 then (RM_ERR_HEX_INV_DIGIT, m)
    else
      parse_hexstring_loop vbase i_off cs (i + 1)
        (m.setByte (vbase + ((i + i_off).tdiv 2).toNat)
          ((m.byteAt (vbase + ((i + i_off).tdiv 2).toNat) <<< 4)
            ||| ((from_hex_digit c).toNat % 256)))

/-- The function `parse_hexstring(v, strlen, str)`: `str` is the list of the `strlen` characters. -/
def parse_hexstring (f : RM_String) (m : Mem) (vbase : Nat) (str : List Char) : Int × Mem :=
  if (str.length : Int) > 2 * (f.size : Int) then (RM_ERR_HEX_INV_SIZE, m)
  else parse_hexstring_loop vbase (2 * (f.size : Int) - str.length) str 0 (bzero m vbase f.size)

/-- The loop of `to_ruby`, at index `i` with `n = size() - i` iterations to go: the characters
appended to the string buffer. -/
def to_ruby_loop (a : Mem) (base : Nat) : Nat → Nat → List Char
  | 0, _ => []
  | n + 1, i =>
    to_hex_digit (a.byteAt (base + i) >>> 4) :: to_hex_digit (a.byteAt (base + i) &&& 0x0F)
      :: to_ruby_loop a base n (i + 1)

def to_ruby (f : RM_String) (a : Mem) : List Char := to_ruby_loop a f._offset f.size 0

def set_from_string (f : RM_String) (a : Mem) (s : List Char) : Int × Mem :=
  parse_hexstring f a f._offset s

end RM_HEXSTR

/-! ## `RM_STR` -/

namespace RM_STR

/-- The loop of `parse_string`, at index `i` with `n = size() - i` iterations to go; `v` points
at index `vbase`, and `str` is the list of the `strlen` characters. -/
def parse_string_loop (vbase : Nat) (str : List Char) : Nat → Nat → Mem → Mem
  | 0, _, m => m
  | n + 1, i, m =>
    parse_string_loop vbase str n (i + 1)
      (m.setByte (vbase + i) (if i < str.length then (str.getD i (Char.ofNat 0)).toNat else 0))

/-- The function `parse_string(v, strlen, str)`. -/
def parse_string (f : RM_String) (m : Mem) (vbase : Nat) (str : List Char) : Int × Mem :=
  if (str.length : Int) > (f.size : Int) then (RM_ERR_STR_TOO_LONG, m)
  else (RM_ERR_OK, parse_string_loop vbase str f.size 0 m)

/-- The bytes of the string `rb_str_new(element_ptr(a), size())`. -/
def to_ruby (f : RM_String) (a : Mem) : List Byte := a.read f._offset f.size

def set_from_string (f : RM_String) (a : Mem) (s : List Char) : Int × Mem :=
  parse_string f a f._offset s

end RM_STR

/-! ## The text parsers of string fields with their memory accesses -/

/-- An access of a text parser: the write `v[index] = ...` into the field, or the read
`str[index]` of the text. -/
inductive Access
  | write (index : Int)
  | read (index : Int)
  deriving DecidableEq, Repr

namespace RM_HEXSTR

/-- The loop of `parse_hexstring` as `parse_hexstring_loop`, with the accesses it makes in
order: every iteration reads `str[i]` and, when that is a hex digit, writes `v[(i+i_off)/2]`. -/
def parse_hexstring_loop_traced (vbase : Nat) (i_off : Int) :
    List Char → Int → Mem → (Int × Mem) × List Access
  | [], _, m => ((RM_ERR_OK, m), [])
  | c :: cs, i, m =>
    if from_hex_digit c < 0 then ((RM_ERR_HEX_INV_DIGIT, m), [Access.read i])
    else
      ((parse_hexstring_loop_traced vbase i_off cs (i + 1)
          (m.setByte (vbase + ((i + i_off).tdiv 2).toNat)
            ((m.byteAt (vbase + ((i + i_off).tdiv 2).toNat) <<< 4)
              ||| ((from_hex_digit c).toNat % 256)))).1,
        Access.read i :: Access.write ((i + i_off).tdiv 2)
          :: (parse_hexstring_loop_traced vbase i_off cs (i + 1)
              (m.setByte (vbase + ((i + i_off).tdiv 2).toNat)
                ((m.byteAt (vbase + ((i + i_off).tdiv 2).toNat) <<< 4)
                  ||| ((from_hex_digit c).toNat % 256)))).2)

/-- The function `parse_hexstring` as above, with its accesses: none when the text is too
long, else the `size()` bytes `bzero` writes and then those of the loop. -/
def parse_hexstring_traced (f : RM_String) (m : Mem) (vbase : Nat) (str : List Char) :
    (Int × Mem) × List Access :=
  if (str.length : Int) > 2 * (f.size : Int) then ((RM_ERR_HEX_INV_SIZE, m), [])
  else
    ((parse_hexstring_loop_traced vbase (2 * (f.size : Int) - str.length) str 0
        (bzero m vbase f.size)).1,
      (List.range f.size).map (fun (k : Nat) => Access.write (k : Int))
        ++ (parse_hexstring_loop_traced vbase (2 * (f.size : Int) - str.length) str 0
            (bzero m vbase f.size)).2)

end RM_HEXSTR

namespace RM_STR

/-- The loop of `parse_string` as `parse_string_loop`, with the accesses it makes in order:
iteration `i` reads `str[i]` when `i < strlen`, and writes `v[i]`. -/
def parse_string_loop_traced (vbase : Nat) (str : List Char) :
    Nat → Nat → Mem → Mem × List Access
  | 0, _, m => (m, [])
  | n + 1, i, m =>
    ((parse_string_loop_traced vbase str n (i + 1)
        (m.setByte (vbase + i)
          (if i < str.length then (str.getD i (Char.ofNat 0)).toNat else 0))).1,
      (if i < str.length then [Access.read (i : Int)] else [])
        ++ Access.write (i : Int)
          :: (parse_string_loop_traced vbase str n (i + 1)
              (m.setByte (vbase + i)
                (if i < str.length then (str.getD i (Char.ofNat 0)).toNat else 0))).2)

/-- The function `parse_string` as above, with its accesses: none when the text is too long. -/
def parse_string_traced (f : RM_String) (m : Mem) (vbase : Nat) (str : List Char) :
    (Int × Mem) × List Access :=
  if (str.length : Int) > (f.size : Int) then ((RM_ERR_STR_TOO_LONG, m), [])
  else
    ((RM_ERR_OK, (parse_string_loop_traced vbase str f.size 0 m).1),
      (parse_string_loop_traced vbase str f.size 0 m).2)

end RM_STR

/-! ## `RM_Type` -/

/-- An object behind an `RM_Type *`: an object of one of the classes embedded above. -/
inductive RM_Type
  | uint (f : RM_UInt)
  | str (f : RM_String)
  deriving Repr

namespace RM_Type

def offset : RM_Type → Nat
  | .uint f => f._offset
  | .str f => f._offset

/-- The virtual call `size()`. -/
def size : RM_Type → Nat
  | .uint f => f.size
  | .str f => f.size

/-- The virtual call `set_default(a)`. -/
def set_default : RM_Type → Mem → Mem
  | .uint f, a => f.set_default a
  | .str f, a => f.set_default a

end RM_Type

/-! ## `RecordModel_initialize` (`ext/RecordModel/RecordModel.cc`) -/

/-- Modelled from the spec: the macro `RecordModelOffset(desc)` of `RecordModel.h`, a header
that is not among the sources.  A descriptor packs `(offset:16, type:16)`, and
`RecordModel_initialize` writes the offset into the upper half. -/
def RecordModelOffset (desc : Nat) : Nat := (desc >>> 16) % 2 ^ 16

/-- Modelled from the spec: the macro `RecordModelType(desc)` of `RecordModel.h`, the lower
16 bits of a descriptor. -/
def RecordModelType (desc : Nat) : Nat := desc &&& 0xFFFF

set_option linter.dupNamespace false in
/-- Modelled from the spec: the members of `struct RecordModel` (declared in `RecordModel.h`)
that `RecordModel_initialize` writes.  `keys` and `values` are the two runs of `items`, each
with its closing `0x00` entry. -/
structure RecordModel where
  keys : List Nat
  values : List Nat
  keysize : Nat
  size : Nat
  deriving Repr, DecidableEq

/-- One of the two loops of `RecordModel_initialize` over the descriptors still to read:
`offset` is the `uint32_t` running offset and `out` the entries written so far.  The result is
`none` when the `assert` fails.  The macro `RecordModelTypeSize` of `RecordModel.h` is a
parameter. -/
def RecordModel_initialize_loop (RecordModelTypeSize : Nat → Nat) :
    List Nat → Nat → List Nat → Option (Nat × List Nat)
  | [], offset, out => some (offset, out)
  | desc :: rest, offset, out =>
    if RecordModelOffset desc = 0 ∨ RecordModelOffset desc = offset then
      RecordModel_initialize_loop RecordModelTypeSize rest
        ((offset + RecordModelTypeSize desc) % 2 ^ 32)
        (out ++ [((offset <<< 16) % 2 ^ 32 ||| RecordModelType desc) % 2 ^ 32])
    else none

/-- The function `RecordModel_initialize(self, keys, values)` on a fresh model: `keys` and
`values` are the descriptors `NUM2UINT` yields for the two arrays. -/
def RecordModel_initialize (RecordModelTypeSize : Nat → Nat) (keys values : List Nat) :
    Option RecordModel :=
  match RecordModel_initialize_loop RecordModelTypeSize keys 0 [] with
  | none => none
  | some (keysize, ks) =>
    match RecordModel_initialize_loop RecordModelTypeSize values keysize [] with
    | none => none
    | some (size, vs) => some ⟨ks ++ [0], vs ++ [0], keysize, size⟩

/-! ## Reference notions used in the statements -/

/-- A decimal digit character. -/
def isDecDigit (c : Char) : Bool := decide (48 ≤ c.toNat ∧ c.toNat ≤ 57)

/-- The number a string of decimal digits denotes (`0` for the empty string). -/
def decimalValue (ds : List Char) : Nat := ds.foldl (fun acc c => acc * 10 + (c.toNat - 48)) 0

/-- A hexadecimal digit character, of either case. -/
def isHexDigit (c : Char) : Bool :=
  decide ((48 ≤ c.toNat ∧ c.toNat ≤ 57) ∨ (97 ≤ c.toNat ∧ c.toNat ≤ 102)
    ∨ (65 ≤ c.toNat ∧ c.toNat ≤ 70))

/-- The value of a hexadecimal digit character. -/
def hexDigitValue (c : Char) : Nat := (RM_HEXSTR.from_hex_digit c).toNat

/-- The bytes a run of hex digits denotes, two digits a byte, most significant digit first. -/
def hexPairs : List Char → List Byte
  | c1 :: c2 :: cs => Byte.ofNat (hexDigitValue c1 * 16 + hexDigitValue c2) :: hexPairs cs
  | _ => []

/-- Three-way comparison of two numbers: `-1`, `0` or `1`. -/
def numCompare (x y : Nat) : Int := if x < y then -1 else if x > y then 1 else 0

/-- The unsigned integer held by a run of bytes, most significant byte first. -/
def beDecode (bs : List Byte) : Nat := leDecode bs.reverse

/-- The `n` bytes of the unsigned integer `v % 2^(8n)`, most significant byte first. -/
def beEncode (n v : Nat) : List Byte := (leEncode n v).reverse

/-- Unsigned byte-lexicographic three-way comparison of two byte strings of one length. -/
def lexCompare : List Byte → List Byte → Int
  | x :: xs, y :: ys =>
    if x.val < y.val then -1 else if x.val > y.val then 1 else lexCompare xs ys
  | _, _ => 0

/-- The fields of a list lie one after the other from byte `start` of the record on. -/
def laidOutFrom : List RM_Type → Nat → Bool
  | [], _ => true
  | f :: fs, start => decide (f.offset = start) && laidOutFrom fs (start + f.size)

/-- Calling `set_default` on every field of a list in turn. -/
def set_default_each (fs : List RM_Type) (a : Mem) : Mem :=
  fs.foldl (fun m f => f.set_default m) a

/-- The bytes of a text: every character converted to `uint8_t`. -/
def textBytes (t : List Char) : List Byte := t.map (fun c => Byte.ofNat c.toNat)

end RecordModel

namespace RecordModel

/-! ## Memory lemmas -/

theorem Byte.ofNat_val (n : Nat) : (Byte.ofNat n).val = n % 256 := rfl

theorem Byte.ofNat_val_of_lt {n : Nat} (h : n < 256) : (Byte.ofNat n).val = n := by
  rw [Byte.ofNat_val, Nat.mod_eq_of_lt h]

theorem Byte.ofNat_self (b : Byte) : Byte.ofNat b.val = b := by
  apply Fin.ext
  rw [Byte.ofNat_val, Nat.mod_eq_of_lt b.isLt]

theorem leEncode_length (w v : Nat) : (leEncode w v).length = w := by
  induction w generalizing v with
  | zero => rfl
  | succ w ih => simp [leEncode, ih]

theorem leDecode_leEncode (w v : Nat) : leDecode (leEncode w v) = v % 256 ^ w := by
  induction w generalizing v with
  | zero => simp [leEncode, leDecode, Nat.mod_one]
  | succ w ih =>
    simp only [leEncode, leDecode, ih, Byte.ofNat_val]
    rw [pow_succ', Nat.mod_mul]

theorem leDecode_lt (bs : List Byte) : leDecode bs < 256 ^ bs.length := by
  induction bs with
  | nil => simp [leDecode]
  | cons b bs ih =>
    simp only [leDecode, List.length_cons, pow_succ']
    have hb := b.isLt
    omega

theorem leEncode_leDecode (bs : List Byte) : leEncode bs.length (leDecode bs) = bs := by
  induction bs with
  | nil => rfl
  | cons b bs ih =>
    have hb := b.isLt
    have h1 : (b.val + 256 * leDecode bs) / 256 = leDecode bs := by omega
    have h2 : Byte.ofNat (b.val + 256 * leDecode bs) = b := by
      apply Fin.ext
      rw [Byte.ofNat_val]
      omega
    simp only [leDecode, List.length_cons, leEncode, h1, h2, ih]

theorem Mem.read_length (m : Mem) (base n : Nat) (h : base + n ≤ m.length) :
    (m.read base n).length = n := by
  simp only [Mem.read, List.length_take, List.length_drop]
  omega

theorem Mem.read_length_le (m : Mem) (base n : Nat) : (m.read base n).length ≤ n := by
  simp only [Mem.read, List.length_take]
  omega

theorem Mem.write_length (m : Mem) (base : Nat) (bs : List Byte)
    (h : base + bs.length ≤ m.length) : (m.write base bs).length = m.length := by
  simp only [Mem.write, List.length_append, List.length_take, List.length_drop]
  omega

theorem Mem.read_write (m : Mem) (base : Nat) (bs : List Byte)
    (h : base + bs.length ≤ m.length) : (m.write base bs).read base bs.length = bs := by
  have hlen : (m.take base).length = base := by
    rw [List.length_take]; omega
  simp only [Mem.read, Mem.write, List.append_assoc]
  rw [List.drop_append_of_le_length (by omega), List.drop_of_length_le (by omega)]
  simp

/-- Every record is the bytes before the field, the field, and the bytes after it. -/
theorem Mem.split (m : Mem) (base n : Nat) :
    m = m.take base ++ m.read base n ++ m.drop (base + n) := by
  simp only [Mem.read, List.append_assoc]
  rw [← List.drop_drop, List.take_append_drop, List.take_append_drop]

namespace RM_UInt

theorem size_pos (f : RM_UInt) : 0 < f.size := by
  cases f with
  | mk k o d => cases k <;> simp [size, UIntKind.sizeofNT]

theorem size_le (f : RM_UInt) : f.size ≤ 8 := by
  cases f with
  | mk k o d => cases k <;> simp [size, UIntKind.sizeofNT]

theorem pow_eq (f : RM_UInt) : 2 ^ (8 * f.size) = 256 ^ f.size := by
  rw [pow_mul]; rfl

theorem NT_max_lt (f : RM_UInt) : f.NT_max < 2 ^ (8 * f.size) := by
  have : 0 < 2 ^ (8 * f.size) := Nat.pow_pos (by decide)
  unfold NT_max
  omega

theorem element_lt (f : RM_UInt) (a : Mem) : f.element a < 2 ^ (8 * f.size) := by
  rw [pow_eq]
  have h1 := leDecode_lt (a.read f._offset f.size)
  have h2 := Mem.read_length_le a f._offset f.size
  exact lt_of_lt_of_le h1 (Nat.pow_le_pow_right (by decide) h2)

theorem element_le_max (f : RM_UInt) (a : Mem) : f.element a ≤ f.NT_max := by
  have := element_lt f a
  unfold NT_max
  omega

theorem element_assign (f : RM_UInt) (a : Mem) (v : Nat) (h : f._offset + f.size ≤ a.length) :
    f.element (f.assign a v) = v % 2 ^ (8 * f.size) := by
  unfold element assign
  have hl := leEncode_length f.size v
  have := Mem.read_write a f._offset (leEncode f.size v) (by omega)
  rw [hl] at this
  rw [this, leDecode_leEncode, pow_eq]

theorem element_assign_of_le (f : RM_UInt) (a : Mem) (v : Nat)
    (h : f._offset + f.size ≤ a.length) (hv : v ≤ f.NT_max) :
    f.element (f.assign a v) = v := by
  rw [element_assign f a v h]
  exact Nat.mod_eq_of_lt (lt_of_le_of_lt hv (NT_max_lt f))

theorem assign_length (f : RM_UInt) (a : Mem) (v : Nat) (h : f._offset + f.size ≤ a.length) :
    (f.assign a v).length = a.length := by
  unfold assign
  exact Mem.write_length a f._offset _ (by rw [leEncode_length]; exact h)

/-- Storing back the value a field holds changes no byte of the record. -/
theorem assign_element (f : RM_UInt) (a : Mem) (h : f._offset + f.size ≤ a.length) :
    f.assign a (f.element a) = a := by
  unfold assign element
  have hl := Mem.read_length a f._offset f.size h
  have h1 := leEncode_leDecode (a.read f._offset f.size)
  rw [hl] at h1
  rw [h1]
  unfold Mem.write
  rw [hl]
  exact (Mem.split a f._offset f.size).symm

end RM_UInt

end RecordModel

namespace RecordModel

/-! ## Decimal texts -/

theorem char_zero : '0'.toNat = 48 := rfl
theorem char_nine : '9'.toNat = 57 := rfl

theorem isDecDigit_iff (c : Char) : isDecDigit c = true ↔ 48 ≤ c.toNat ∧ c.toNat ≤ 57 := by
  simp [isDecDigit]

theorem foldl_decimal (ds : List Char) (x : Nat) :
    List.foldl (fun acc c => acc * 10 + (c.toNat - 48)) x ds
      = x * 10 ^ ds.length + decimalValue ds := by
  induction ds generalizing x with
  | nil => simp [decimalValue]
  | cons c ds ih =>
    simp only [decimalValue, List.foldl_cons, List.length_cons]
    rw [ih, ih (0 * 10 + (c.toNat - 48))]
    simp only [decimalValue]
    ring

theorem decimalValue_nil : decimalValue [] = 0 := rfl

theorem decimalValue_cons (c : Char) (ds : List Char) :
    decimalValue (c :: ds) = (c.toNat - 48) * 10 ^ ds.length + decimalValue ds := by
  have := foldl_decimal ds (0 * 10 + (c.toNat - 48))
  simp only [decimalValue, List.foldl_cons] at this ⊢
  rw [this]
  ring

theorem decimalValue_append (xs ys : List Char) :
    decimalValue (xs ++ ys) = decimalValue xs * 10 ^ ys.length + decimalValue ys := by
  unfold decimalValue
  rw [List.foldl_append, foldl_decimal]
  rfl

theorem decimalValue_lt (ds : List Char) (hd : ∀ c ∈ ds, isDecDigit c = true) :
    decimalValue ds < 10 ^ ds.length := by
  induction ds with
  | nil => simp [decimalValue]
  | cons c ds ih =>
    have hc := (isDecDigit_iff c).1 (hd c (List.mem_cons_self c ds))
    have ih := ih (fun x hx => hd x (List.mem_cons_of_mem c hx))
    rw [decimalValue_cons, List.length_cons, pow_succ]
    have h9 : c.toNat - 48 ≤ 9 := by omega
    nlinarith [Nat.mul_le_mul_right (10 ^ ds.length) h9]

theorem decimalValue_zeros (k : Nat) : decimalValue (List.replicate k '0') = 0 := by
  induction k with
  | zero => rfl
  | succ k ih => rw [List.replicate_succ, decimalValue_cons, ih]; simp [char_zero]

namespace RM_Conversion

theorem scale_up_eq (k v : Nat) (hv : v < 2 ^ 64) : scale_up k v = v * 10 ^ k % 2 ^ 64 := by
  induction k generalizing v with
  | zero => rw [scale_up, pow_zero, Nat.mul_one, Nat.mod_eq_of_lt hv]
  | succ k ih =>
    rw [scale_up, ih _ (Nat.mod_lt _ (by decide)), pow_succ', Nat.mod_mul_mod]
    ring_nf

theorem scale_down_eq (k v : Nat) : scale_down k v = v / 10 ^ k := by
  induction k generalizing v with
  | zero => simp [scale_down]
  | succ k ih => rw [scale_down, ih, pow_succ', Nat.div_div_eq_div_mul]

theorem str_to_uint2_step_digit (v : Nat) (pd err : Int) (c : Char) (hc : isDecDigit c = true) :
    str_to_uint2_step (v, pd, err) c
      = ((v * 10 + (c.toNat - 48)) % 2 ^ 64, (if pd ≥ 0 then pd + 1 else pd), err) := by
  have hc := (isDecDigit_iff c).1 hc
  simp only [str_to_uint2_step, char_zero, char_nine, hc, and_self, if_true]
  rw [Nat.mod_add_mod]

/-- The first loop of `str_to_uint2` over a run of digits. -/
theorem str_to_uint2_digits (ds : List Char) (hd : ∀ c ∈ ds, isDecDigit c = true)
    (v : Nat) (pd err : Int) (hv : v < 2 ^ 64) :
    ds.foldl str_to_uint2_step (v, pd, err)
      = ((v * 10 ^ ds.length + decimalValue ds) % 2 ^ 64,
          (if pd ≥ 0 then pd + ds.length else pd), err) := by
  induction ds generalizing v pd with
  | nil =>
    rw [List.foldl_nil, List.length_nil, pow_zero, Nat.mul_one, decimalValue_nil, Nat.add_zero,
      Nat.mod_eq_of_lt hv]
    split_ifs <;> simp
  | cons c ds ih =>
    have hc := hd c (List.mem_cons_self c ds)
    rw [List.foldl_cons, str_to_uint2_step_digit v pd err c hc,
      ih (fun x hx => hd x (List.mem_cons_of_mem c hx)) _ _ (Nat.mod_lt _ (by decide))]
    refine Prod.ext ?_ (Prod.ext ?_ rfl)
    · simp only [decimalValue_cons, List.length_cons]
      rw [Nat.add_mod, Nat.mod_mul_mod, ← Nat.add_mod]
      ring_nf
    · simp only [List.length_cons]
      split_ifs <;> first | rfl | (push_cast; omega)

end RM_Conversion

end RecordModel

namespace RecordModel

namespace RM_Conversion

theorem str_to_uint2_step_dot (v : Nat) (err : Int) :
    str_to_uint2_step (v, -1, err) '.' = (v, 0, err) := by
  have h : ¬ ('0'.toNat ≤ '.'.toNat ∧ '.'.toNat ≤ '9'.toNat) := by decide
  simp [str_to_uint2_step, h]

/-- The state of `str_to_uint2` after its first loop has read `I`, a point and `F`. -/
theorem str_to_uint2_loop_point (I F : List Char)
    (hI : ∀ c ∈ I, isDecDigit c = true) (hF : ∀ c ∈ F, isDecDigit c = true)
    (hv : decimalValue (I ++ F) < 2 ^ 64) :
    (I ++ '.' :: F).foldl str_to_uint2_step (0, -1, RM_ERR_OK)
      = (decimalValue (I ++ F), (F.length : Int), RM_ERR_OK) := by
  have hIv : decimalValue I < 2 ^ 64 := by
    have h10 : 1 ≤ 10 ^ F.length := Nat.one_le_pow _ _ (by decide)
    have := decimalValue_append I F
    have h2 : decimalValue I * 1 ≤ decimalValue I * 10 ^ F.length := Nat.mul_le_mul_left _ h10
    omega
  rw [List.foldl_append, List.foldl_cons, str_to_uint2_digits I hI 0 (-1) RM_ERR_OK (by decide)]
  have e1 : (0 * 10 ^ I.length + decimalValue I) % 2 ^ 64 = decimalValue I := by
    rw [Nat.zero_mul, Nat.zero_add, Nat.mod_eq_of_lt hIv]
  have e2 : (if (-1 : Int) ≥ 0 then (-1 : Int) + I.length else -1) = -1 := by simp
  rw [e1, e2, str_to_uint2_step_dot, str_to_uint2_digits F hF _ 0 RM_ERR_OK hIv,
    ← decimalValue_append, Nat.mod_eq_of_lt hv]
  simp

/-- The text `I.F` read by `str_to_uint2` with precision 3. -/
theorem str_to_uint2_point (I F : List Char)
    (hI : ∀ c ∈ I, isDecDigit c = true) (hF : ∀ c ∈ F, isDecDigit c = true)
    (hv : decimalValue (I ++ F) < 2 ^ 64)
    (hr : decimalValue I * 1000
        + decimalValue ((F ++ List.replicate (3 - F.length) '0').take 3) < 2 ^ 64) :
    str_to_uint2 (I ++ '.' :: F) 3
      = (decimalValue I * 1000
          + decimalValue ((F ++ List.replicate (3 - F.length) '0').take 3), RM_ERR_OK) := by
  have hvlt := hv
  unfold str_to_uint2
  simp only [str_to_uint2_loop_point I F hI hF hv]
  rw [decimalValue_append] at hvlt ⊢
  by_cases hlen : F.length < 3
  · -- fewer than three fractional digits: pad
    have k1 : ((3 : Int) - (F.length : Int)).toNat = 3 - F.length := by omega
    have k2 : (if (F.length : Int) < 3 then (3 : Int) else (F.length : Int)) = 3 := by
      rw [if_pos (by omega)]
    have htake : (F ++ List.replicate (3 - F.length) '0').take 3
        = F ++ List.replicate (3 - F.length) '0' := by
      apply List.take_of_length_le
      simp only [List.length_append, List.length_replicate]
      omega
    rw [htake, decimalValue_append, decimalValue_zeros, List.length_replicate] at hr ⊢
    have hpow : 10 ^ F.length * 10 ^ (3 - F.length) = 1000 := by
      rw [← pow_add]
      have : F.length + (3 - F.length) = 3 := by omega
      rw [this]; rfl
    have hval : (decimalValue I * 10 ^ F.length + decimalValue F) * 10 ^ (3 - F.length)
        = decimalValue I * 1000 + (decimalValue F * 10 ^ (3 - F.length) + 0) := by
      rw [← hpow]; ring
    rw [k1, k2, scale_up_eq _ _ hvlt, hval, Nat.mod_eq_of_lt hr]
    simp [scale_down]
  · -- three or more fractional digits: truncate
    have k1 : ((3 : Int) - (F.length : Int)).toNat = 0 := by omega
    have k2 : (if (F.length : Int) < 3 then (3 : Int) else (F.length : Int)) = F.length := by
      rw [if_neg (by omega)]
    have k3 : ((F.length : Int) - 3).toNat = F.length - 3 := by omega
    have k4 : 3 - F.length = 0 := by omega
    rw [k1, k2, k3, k4, scale_up, scale_down_eq]
    simp only [List.replicate_zero, List.append_nil]
    have hsplit : decimalValue F
        = decimalValue (F.take 3) * 10 ^ (F.length - 3) + decimalValue (F.drop 3) := by
      conv_lhs => rw [← List.take_append_drop 3 F]
      rw [decimalValue_append, List.length_drop]
    have hrest : decimalValue (F.drop 3) < 10 ^ (F.length - 3) := by
      have := decimalValue_lt (F.drop 3) (fun c hc => hF c (List.mem_of_mem_drop hc))
      rwa [List.length_drop] at this
    have hpow : 10 ^ F.length = 1000 * 10 ^ (F.length - 3) := by
      have : F.length = 3 + (F.length - 3) := by omega
      conv_lhs => rw [this, pow_add]
      rfl
    have hval : decimalValue I * 10 ^ F.length + decimalValue F
        = decimalValue (F.drop 3)
          + 10 ^ (F.length - 3) * (decimalValue I * 1000 + decimalValue (F.take 3)) := by
      rw [hsplit, hpow]; ring
    rw [hval, Nat.add_mul_div_left _ _ (Nat.pow_pos (by decide)), Nat.div_eq_of_lt hrest,
      Nat.zero_add]

end RM_Conversion

namespace RM_UInt

theorem set_from_string_timestamp (f : RM_UInt) (a : Mem) (s : List Char)
    (hk : f.kind = UIntKind.TIMESTAMP ∨ f.kind = UIntKind.TIMESTAMP_DESC) :
    f.set_from_string a s
      = if (RM_Conversion.str_to_uint2 s 3).2 ≠ 0 then ((RM_Conversion.str_to_uint2 s 3).2, a)
        else f._set_uint a (RM_Conversion.str_to_uint2 s 3).1 := by
  unfold set_from_string
  rcases hk with hk | hk <;> rw [hk]

theorem _set_uint_ok (f : RM_UInt) (a : Mem) (v : Nat) (hv : v ≤ f.NT_max) :
    f._set_uint a v = (RM_ERR_OK, f.assign a v) := by
  unfold _set_uint
  rw [if_neg]
  exact not_not.2 ⟨Nat.zero_le v, hv⟩

theorem _set_uint_range (f : RM_UInt) (a : Mem) (v : Nat) (hv : f.NT_max < v) :
    f._set_uint a v = (RM_ERR_INT_RANGE, a) := by
  unfold _set_uint
  rw [if_pos]
  intro h
  omega

theorem NT_max_timestamp (f : RM_UInt)
    (hk : f.kind = UIntKind.TIMESTAMP ∨ f.kind = UIntKind.TIMESTAMP_DESC) :
    f.NT_max = 2 ^ 64 - 1 := by
  unfold NT_max size
  rcases hk with hk | hk <;> rw [hk] <;> rfl

end RM_UInt

/-- C1: for both Timestamp variants and every text `I.F` of decimal digits around one point,
with the digits of `I` and `F` read as one number and the rescaled result below `2^64`,
`set_from_string` succeeds and the field then holds `value(I) * 1000 + T`, `T` being the first
three digits of `F` padded on the right with zeros: further digits are cut off, not rounded. -/
theorem timestamp_from_text_point (f : RM_UInt) (a : Mem) (I F : List Char)
    (hk : f.kind = UIntKind.TIMESTAMP ∨ f.kind = UIntKind.TIMESTAMP_DESC)
    (ha : f._offset + f.size ≤ a.length)
    (hI : ∀ c ∈ I, isDecDigit c = true) (hF : ∀ c ∈ F, isDecDigit c = true)
    (hv : decimalValue (I ++ F) < 2 ^ 64)
    (hr : decimalValue I * 1000
        + decimalValue ((F ++ List.replicate (3 - F.length) '0').take 3) < 2 ^ 64) :
    (f.set_from_string a (I ++ '.' :: F)).1 = RM_ERR_OK ∧
    f.element (f.set_from_string a (I ++ '.' :: F)).2
      = decimalValue I * 1000
        + decimalValue ((F ++ List.replicate (3 - F.length) '0').take 3) := by
  have hmax : decimalValue I * 1000
      + decimalValue ((F ++ List.replicate (3 - F.length) '0').take 3) ≤ f.NT_max := by
    rw [RM_UInt.NT_max_timestamp f hk]
    omega
  rw [RM_UInt.set_from_string_timestamp f a _ hk,
    RM_Conversion.str_to_uint2_point I F hI hF hv hr]
  simp only [RM_ERR_OK, ne_eq, not_true_eq_false, if_false]
  rw [RM_UInt._set_uint_ok f a _ hmax]
  exact ⟨rfl, RM_UInt.element_assign_of_le f a _ ha hmax⟩

/-- The texts `1700000000.5` and `1700000000.5001` both store `1700000000500`, the first in
an ascending and the second in a descending Timestamp field. -/
theorem timestamp_from_text_point_witness :
    (((RM_TIMESTAMP 0 0).set_from_string (List.replicate 8 0) "1700000000.5".toList).1
        = RM_ERR_OK ∧
      (RM_TIMESTAMP 0 0).element
        ((RM_TIMESTAMP 0 0).set_from_string (List.replicate 8 0) "1700000000.5".toList).2
        = 1700000000500) ∧
    (((RM_TIMESTAMP_DESC 2 0).set_from_string (List.replicate 12 7)
          "1700000000.5001".toList).1 = RM_ERR_OK ∧
      (RM_TIMESTAMP_DESC 2 0).element
        ((RM_TIMESTAMP_DESC 2 0).set_from_string (List.replicate 12 7)
          "1700000000.5001".toList).2 = 1700000000500) :=
  ⟨timestamp_from_text_point (RM_TIMESTAMP 0 0) (List.replicate 8 0)
      "1700000000".toList "5".toList (Or.inl rfl) (by decide) (by decide) (by decide)
      (by decide) (by decide),
    timestamp_from_text_point (RM_TIMESTAMP_DESC 2 0) (List.replicate 12 7)
      "1700000000".toList "5001".toList (Or.inr rfl) (by decide) (by decide) (by decide)
      (by decide) (by decide)⟩

end RecordModel

namespace RecordModel

namespace RM_Conversion

/-- A text of digits with no point: `post_digits` is still `-1` after the first loop, so the
second loop of `str_to_uint2` multiplies by ten `precision + 1` times. -/
theorem str_to_uint2_no_point (D : List Char) (hD : ∀ c ∈ D, isDecDigit c = true)
    (hv : decimalValue D * 10000 < 2 ^ 64) :
    str_to_uint2 D 3 = (decimalValue D * 10000, RM_ERR_OK) := by
  have hD64 : decimalValue D < 2 ^ 64 := by omega
  unfold str_to_uint2
  simp only [str_to_uint2_digits D hD 0 (-1) RM_ERR_OK (by decide)]
  have e1 : (0 * 10 ^ D.length + decimalValue D) % 2 ^ 64 = decimalValue D := by
    rw [Nat.zero_mul, Nat.zero_add, Nat.mod_eq_of_lt hD64]
  have e2 : (if (-1 : Int) ≥ 0 then (-1 : Int) + D.length else -1) = -1 := by simp
  have e3 : ((3 : Int) - (-1)).toNat = 4 := by decide
  have e4 : (if (-1 : Int) < 3 then (3 : Int) else -1) = 3 := by decide
  have e5 : ((3 : Int) - 3).toNat = 0 := by decide
  have e6 : decimalValue D * 10 ^ 4 = decimalValue D * 10000 := by norm_num
  rw [e1, e2, e3, e4, e5, scale_up_eq _ _ hD64, e6, Nat.mod_eq_of_lt hv, scale_down]

end RM_Conversion

/-- For both Timestamp variants, a non-empty text of digits with no point stores
`value(D) * 10000`, ten times what the same digits followed by a point store. -/
theorem timestamp_from_text_no_point (f : RM_UInt) (a : Mem) (D : List Char)
    (hk : f.kind = UIntKind.TIMESTAMP ∨ f.kind = UIntKind.TIMESTAMP_DESC)
    (ha : f._offset + f.size ≤ a.length)
    (hD : ∀ c ∈ D, isDecDigit c = true) (hv : decimalValue D * 10000 < 2 ^ 64) :
    (f.set_from_string a D).1 = RM_ERR_OK ∧
    f.element (f.set_from_string a D).2 = decimalValue D * 10000 := by
  have hmax : decimalValue D * 10000 ≤ f.NT_max := by
    rw [RM_UInt.NT_max_timestamp f hk]
    omega
  rw [RM_UInt.set_from_string_timestamp f a _ hk, RM_Conversion.str_to_uint2_no_point D hD hv]
  simp only [RM_ERR_OK, ne_eq, not_true_eq_false, if_false]
  rw [RM_UInt._set_uint_ok f a _ hmax]
  exact ⟨rfl, RM_UInt.element_assign_of_le f a _ ha hmax⟩

/-- C2 (the code at the failing input): the text `5` makes both Timestamp variants store
`50000`, not `5000`, while the texts `5.` and `5.000` store `5000`. -/
theorem timestamp_from_text_digits_only_stores_x10000 :
    ((RM_TIMESTAMP 0 0).set_from_string (List.replicate 8 0) "5".toList).1 = RM_ERR_OK ∧
    (RM_TIMESTAMP 0 0).element
      ((RM_TIMESTAMP 0 0).set_from_string (List.replicate 8 0) "5".toList).2 = 50000 ∧
    (RM_TIMESTAMP_DESC 0 0).element
      ((RM_TIMESTAMP_DESC 0 0).set_from_string (List.replicate 8 0) "5".toList).2 = 50000 ∧
    (RM_TIMESTAMP 0 0).element
      ((RM_TIMESTAMP 0 0).set_from_string (List.replicate 8 0) "5.".toList).2 = 5000 ∧
    (RM_TIMESTAMP 0 0).element
      ((RM_TIMESTAMP 0 0).set_from_string (List.replicate 8 0) "5.000".toList).2 = 5000 := by
  decide

end RecordModel

namespace RecordModel

/-! ## Bytes as big-endian numbers -/

theorem leDecode_append (u v : List Byte) :
    leDecode (u ++ v) = leDecode u + 256 ^ u.length * leDecode v := by
  induction u with
  | nil => simp [leDecode]
  | cons b u ih =>
    show leDecode (b :: (u ++ v)) = _
    simp only [leDecode, ih, List.length_cons, pow_succ']
    ring

theorem beDecode_nil : beDecode [] = 0 := rfl

theorem beDecode_cons (x : Byte) (s : List Byte) :
    beDecode (x :: s) = x.val * 256 ^ s.length + beDecode s := by
  simp only [beDecode, List.reverse_cons, leDecode_append, leDecode, List.length_reverse]
  ring

theorem beDecode_snoc (s : List Byte) (x : Byte) :
    beDecode (s ++ [x]) = beDecode s * 256 + x.val := by
  simp only [beDecode, List.reverse_append, List.reverse_cons, List.reverse_nil, List.nil_append,
    List.cons_append, leDecode]
  ring

theorem beDecode_lt (s : List Byte) : beDecode s < 256 ^ s.length := by
  have := leDecode_lt s.reverse
  rwa [List.length_reverse] at this

theorem beEncode_length (n v : Nat) : (beEncode n v).length = n := by
  rw [beEncode, List.length_reverse, leEncode_length]

theorem beDecode_beEncode (n v : Nat) : beDecode (beEncode n v) = v % 256 ^ n := by
  rw [beDecode, beEncode, List.reverse_reverse, leDecode_leEncode]

theorem beEncode_beDecode (s : List Byte) : beEncode s.length (beDecode s) = s := by
  have := leEncode_leDecode s.reverse
  rw [List.length_reverse] at this
  rw [beEncode, beDecode, this, List.reverse_reverse]

theorem beEncode_succ (n v : Nat) :
    beEncode (n + 1) v = beEncode n (v / 256) ++ [Byte.ofNat v] := by
  simp [beEncode, leEncode]

theorem beDecode_injective (s t : List Byte) (hlen : s.length = t.length)
    (h : beDecode s = beDecode t) : s = t := by
  rw [← beEncode_beDecode s, ← beEncode_beDecode t, hlen, h]

theorem beDecode_zeros (n : Nat) : beDecode (List.replicate n (Byte.ofNat 0)) = 0 := by
  induction n with
  | zero => rfl
  | succ n ih =>
    have hv : (Byte.ofNat 0).val = 0 := rfl
    rw [List.replicate_succ, beDecode_cons, ih, hv, Nat.zero_mul]

theorem beDecode_ones (n : Nat) : beDecode (List.replicate n (Byte.ofNat 0xFF)) = 256 ^ n - 1 := by
  induction n with
  | zero => rfl
  | succ n ih =>
    have hp : 0 < 256 ^ n := Nat.pow_pos (by decide)
    have hv : (Byte.ofNat 0xFF).val = 255 := rfl
    rw [List.replicate_succ, beDecode_cons, ih, List.length_replicate, hv, pow_succ]
    omega

/-! ## Indexed access to a record -/

theorem Mem.byteAt_mid (l : Mem) (x : Byte) (r : Mem) :
    Mem.byteAt (l ++ x :: r) l.length = x.val := by
  induction l with
  | nil => rfl
  | cons a l ih => simpa [Mem.byteAt] using ih

theorem Mem.setByte_mid (l : Mem) (x : Byte) (r : Mem) (v : Nat) :
    Mem.setByte (l ++ x :: r) l.length v = l ++ Byte.ofNat v :: r := by
  induction l with
  | nil => rfl
  | cons a l ih =>
    simp only [Mem.setByte] at ih
    simp [Mem.setByte, ih]

theorem Mem.read_frame (pre s post : Mem) : Mem.read (pre ++ s ++ post) pre.length s.length = s := by
  simp [Mem.read]

theorem Mem.read_succ (m : Mem) (base n : Nat) (h : base < m.length) :
    m.read base (n + 1) = m.getD base 0 :: m.read (base + 1) n := by
  unfold Mem.read
  rw [List.drop_eq_getElem_cons h, List.take_succ_cons, List.getD_eq_getElem m 0 h]

theorem Mem.byteAt_eq (m : Mem) (i : Nat) : m.byteAt i = (m.getD i 0).val := rfl

namespace RM_String

/-- The carry loop of `inc` adds one to the big-endian number in the field, modulo `256^n`,
and leaves the bytes around the field alone. -/
theorem inc_loop_frame (s : Mem) : ∀ (pre post : Mem),
    inc_loop pre.length s.length (pre ++ s ++ post)
      = pre ++ beEncode s.length (beDecode s + 1) ++ post := by
  induction s using List.reverseRecOn with
  | nil =>
    intro pre post
    simp [inc_loop, beEncode, leEncode]
  | append_singleton s x ih =>
    intro pre post
    have hx := x.isLt
    have hm : pre ++ (s ++ [x]) ++ post = (pre ++ s) ++ x :: post := by simp
    have hi : pre.length + s.length = (pre ++ s).length := by simp
    rw [List.length_append, List.length_singleton, inc_loop, hm, hi, Mem.byteAt_mid,
      Mem.setByte_mid, Mem.setByte_mid, beDecode_snoc, beEncode_succ]
    by_cases hlt : x.val < 0xFF
    · rw [if_pos hlt]
      have h1 : (beDecode s * 256 + x.val + 1) / 256 = beDecode s := by omega
      have h2 : Byte.ofNat (beDecode s * 256 + x.val + 1) = Byte.ofNat (x.val + 1) := by
        apply Fin.ext
        simp only [Byte.ofNat_val]
        omega
      rw [h1, h2, beEncode_beDecode]
      simp
    · rw [if_neg hlt]
      have h1 : (beDecode s * 256 + x.val + 1) / 256 = beDecode s + 1 := by omega
      have h2 : Byte.ofNat (beDecode s * 256 + x.val + 1) = Byte.ofNat 0 := by
        apply Fin.ext
        simp only [Byte.ofNat_val]
        omega
      rw [h1, h2, ih pre (Byte.ofNat 0 :: post)]
      simp

/-- The record after `inc`: the field holds its old big-endian number plus one modulo `256^n`. -/
theorem inc_eq (f : RM_String) (a : Mem) (ha : f._offset + f.size ≤ a.length) :
    f.inc a = a.take f._offset
      ++ beEncode f.size (beDecode (a.read f._offset f.size) + 1)
      ++ a.drop (f._offset + f.size) := by
  have hl1 : (a.take f._offset).length = f._offset := by
    rw [List.length_take]; omega
  have hl2 := Mem.read_length a f._offset f.size ha
  have h := inc_loop_frame (a.read f._offset f.size) (a.take f._offset)
    (a.drop (f._offset + f.size))
  rw [hl1, hl2, ← Mem.split a f._offset f.size] at h
  exact h

theorem read_inc (f : RM_String) (a : Mem) (ha : f._offset + f.size ≤ a.length) :
    (f.inc a).read f._offset f.size
      = beEncode f.size (beDecode (a.read f._offset f.size) + 1) := by
  have hl1 : (a.take f._offset).length = f._offset := by
    rw [List.length_take]; omega
  have h := Mem.read_frame (a.take f._offset)
    (beEncode f.size (beDecode (a.read f._offset f.size) + 1)) (a.drop (f._offset + f.size))
  rw [hl1, beEncode_length] at h
  rw [inc_eq f a ha, h]

theorem inc_length (f : RM_String) (a : Mem) (ha : f._offset + f.size ≤ a.length) :
    (f.inc a).length = a.length := by
  rw [inc_eq f a ha]
  simp only [List.length_append, List.length_take, List.length_drop, beEncode_length]
  omega

theorem numCompare_cons (x y S T P : Nat) (hS : S < P) (hT : T < P) :
    numCompare (x * P + S) (y * P + T)
      = if x < y then -1 else if x > y then 1 else numCompare S T := by
  unfold numCompare
  by_cases h1 : x < y
  · have : x * P + P ≤ y * P := by
      have := Nat.mul_le_mul_right P (Nat.succ_le_of_lt h1)
      rwa [Nat.succ_mul] at this
    rw [if_pos h1, if_pos (by omega)]
  · by_cases h2 : x > y
    · have : y * P + P ≤ x * P := by
        have := Nat.mul_le_mul_right P (Nat.succ_le_of_lt h2)
        rwa [Nat.succ_mul] at this
      rw [if_neg h1, if_pos h2, if_neg (by omega), if_pos (by omega)]
    · have hxy : x = y := by omega
      subst hxy
      rw [if_neg h1, if_neg h2]
      by_cases h3 : S < T
      · rw [if_pos h3, if_pos (by omega)]
      · by_cases h4 : S > T
        · rw [if_neg h3, if_pos h4, if_neg (by omega), if_pos (by omega)]
        · rw [if_neg h3, if_neg h4, if_neg (by omega), if_neg (by omega)]

/-- The loop of `compare_pointers` compares the big-endian numbers in the bytes it scans. -/
theorem compare_loop_eq (a : Mem) (ab : Nat) (b : Mem) (bb : Nat) (n : Nat) : ∀ (i : Nat),
    ab + i + n ≤ a.length → bb + i + n ≤ b.length →
    compare_loop a ab b bb n i
      = numCompare (beDecode (a.read (ab + i) n)) (beDecode (b.read (bb + i) n)) := by
  induction n with
  | zero =>
    intro i _ _
    simp [compare_loop, Mem.read, beDecode, leDecode, numCompare]
  | succ n ih =>
    intro i ha hb
    have hla := Mem.read_length a (ab + i + 1) n (by omega)
    have hlb := Mem.read_length b (bb + i + 1) n (by omega)
    have hSa := beDecode_lt (a.read (ab + i + 1) n)
    have hSb := beDecode_lt (b.read (bb + i + 1) n)
    rw [hla] at hSa
    rw [hlb] at hSb
    rw [compare_loop, Mem.read_succ a (ab + i) n (by omega), Mem.read_succ b (bb + i) n (by omega),
      beDecode_cons, beDecode_cons, hla, hlb, numCompare_cons _ _ _ _ _ hSa hSb,
      ih (i + 1) (by omega) (by omega)]
    rfl

theorem compare_eq (f : RM_String) (a b : Mem) (ha : f._offset + f.size ≤ a.length)
    (hb : f._offset + f.size ≤ b.length) :
    f.compare a b
      = numCompare (beDecode (a.read f._offset f.size)) (beDecode (b.read f._offset f.size)) := by
  unfold compare compare_pointers
  exact compare_loop_eq a f._offset b f._offset f.size 0 (by omega) (by omega)

end RM_String

end RecordModel

namespace RecordModel

namespace RM_UInt

theorem cmp_ascending (f : RM_UInt) (h : f.kind.order = true) (x y : Nat) :
    f.cmp x y = numCompare x y := by
  unfold cmp numCompare
  rw [if_pos h]

theorem cmp_descending (f : RM_UInt) (h : f.kind.order = false) (x y : Nat) :
    f.cmp x y = - numCompare x y := by
  unfold cmp numCompare
  rw [if_neg (by simp [h])]
  split_ifs <;> first | rfl | omega

theorem order_false_iff (f : RM_UInt) : f.kind.order = false ↔ f.kind = UIntKind.TIMESTAMP_DESC := by
  cases f with
  | mk k o d => cases k <;> simp [UIntKind.order]

theorem element_inc (f : RM_UInt) (a : Mem) (ha : f._offset + f.size ≤ a.length) :
    f.element (f.inc a)
      = if f.kind.order then (f.element a + 1) % 2 ^ (8 * f.size)
        else (f.element a + 2 ^ (8 * f.size) - 1) % 2 ^ (8 * f.size) := by
  unfold inc
  by_cases h : f.kind.order = true
  · rw [if_pos h, if_pos h, element_assign f a _ ha, Nat.mod_mod]
  · rw [if_neg h, if_neg h, element_assign f a _ ha, Nat.mod_mod]

end RM_UInt

theorem numCompare_succ (x : Nat) : numCompare (x + 1) x = 1 := by
  unfold numCompare
  rw [if_neg (by omega), if_pos (by omega)]

theorem numCompare_self (x : Nat) : numCompare x x = 0 := by
  unfold numCompare
  rw [if_neg (by omega), if_neg (by omega)]

/-- A string field that is not all `0xFF` holds a big-endian number below `256^n - 1`. -/
theorem beDecode_lt_ones (s : List Byte) (n : Nat) (hlen : s.length = n)
    (hs : s ≠ List.replicate n (Byte.ofNat 0xFF)) : beDecode s + 1 < 256 ^ n := by
  have h1 := beDecode_lt s
  rw [hlen] at h1
  by_contra hcon
  have heq : beDecode s = beDecode (List.replicate n (Byte.ofNat 0xFF)) := by
    rw [beDecode_ones]
    omega
  exact hs (beDecode_injective s _ (by rw [hlen, List.length_replicate]) heq)

/-- C3: after `inc`, `compare(incremented, original)` returns `1` for every unsigned-integer
variant whose value is not saturated (ascending: below the type maximum; descending: above 0)
and for every string field whose bytes are not all `0xFF` (so of width at least 1). -/
theorem inc_then_compare_is_one :
    (∀ (f : RM_UInt) (a : Mem), f._offset + f.size ≤ a.length →
      (if f.kind.order then f.element a < f.NT_max else 0 < f.element a) →
      f.compare (f.inc a) a = 1) ∧
    (∀ (f : RM_String) (a : Mem), f._offset + f.size ≤ a.length →
      a.read f._offset f.size ≠ List.replicate f.size (Byte.ofNat 0xFF) →
      f.compare (f.inc a) a = 1) := by
  constructor
  · intro f a ha hx
    have hlt := RM_UInt.element_lt f a
    have hmax : f.NT_max = 2 ^ (8 * f.size) - 1 := rfl
    unfold RM_UInt.compare
    rw [RM_UInt.element_inc f a ha]
    by_cases h : f.kind.order = true
    · rw [if_pos h] at hx ⊢
      rw [RM_UInt.cmp_ascending f h, Nat.mod_eq_of_lt (by omega), numCompare_succ]
    · rw [if_neg h] at hx ⊢
      have h2 : f.kind.order = false := by simpa using h
      have e : (f.element a + 2 ^ (8 * f.size) - 1) % 2 ^ (8 * f.size) = f.element a - 1 := by
        have : f.element a + 2 ^ (8 * f.size) - 1 = (f.element a - 1) + 2 ^ (8 * f.size) := by
          omega
        rw [this, Nat.add_mod_right, Nat.mod_eq_of_lt (by omega)]
      rw [RM_UInt.cmp_descending f h2, e]
      have : numCompare (f.element a - 1) (f.element a) = -1 := by
        unfold numCompare
        rw [if_pos (by omega)]
      rw [this]
      rfl
  · intro f a ha hx
    have hlen := Mem.read_length a f._offset f.size ha
    have hlt := beDecode_lt_ones _ _ hlen hx
    rw [RM_String.compare_eq f _ a (by rw [RM_String.inc_length f a ha]; exact ha) ha,
      RM_String.read_inc f a ha, beDecode_beEncode, Nat.mod_eq_of_lt hlt, numCompare_succ]

/-- A `UInt16` holding 513, a descending Timestamp holding 0x0100, and the string `01 FF`
in a field of width 2 are each followed in sort order by their increment. -/
theorem inc_then_compare_is_one_witness :
    (RM_UINT16 1 0).compare ((RM_UINT16 1 0).inc [9, 1, 2, 9]) [9, 1, 2, 9] = 1 ∧
    (RM_TIMESTAMP_DESC 0 0).compare ((RM_TIMESTAMP_DESC 0 0).inc [0, 1, 0, 0, 0, 0, 0, 0])
      [0, 1, 0, 0, 0, 0, 0, 0] = 1 ∧
    RM_String.compare ⟨1, 2⟩ (RM_String.inc ⟨1, 2⟩ [9, 1, 255, 9]) [9, 1, 255, 9] = 1 :=
  ⟨inc_then_compare_is_one.1 (RM_UINT16 1 0) [9, 1, 2, 9] (by decide) (by decide),
    inc_then_compare_is_one.1 (RM_TIMESTAMP_DESC 0 0) [0, 1, 0, 0, 0, 0, 0, 0] (by decide)
      (by decide),
    inc_then_compare_is_one.2 ⟨1, 2⟩ [9, 1, 255, 9] (by decide) (by decide)⟩

end RecordModel

namespace RecordModel

/-- C4 (as stated, refuted): `inc` on a `UInt8` holding 255 and on a two-byte string holding
`FF FF` changes the slot, and `compare(after, before)` is not `0`. -/
theorem inc_at_saturation_is_not_a_no_op :
    (RM_UINT8 0 0).inc [255] ≠ [255] ∧
    (RM_UINT8 0 0).compare ((RM_UINT8 0 0).inc [255]) [255] ≠ 0 ∧
    RM_String.inc ⟨0, 2⟩ [255, 255] ≠ [255, 255] ∧
    RM_String.compare ⟨0, 2⟩ (RM_String.inc ⟨0, 2⟩ [255, 255]) [255, 255] ≠ 0 := by
  decide

/-- C4 (amended): at saturation `inc` wraps around. An ascending unsigned-integer field holding
the type maximum holds 0 afterwards, a string field of width at least 1 whose bytes are all
`0xFF` holds all `0x00` afterwards, and `compare(after, before)` returns `-1` in both cases. -/
theorem inc_at_saturation_wraps :
    (∀ (f : RM_UInt) (a : Mem), f._offset + f.size ≤ a.length → f.kind.order = true →
      f.element a = f.NT_max →
      f.element (f.inc a) = 0 ∧ f.compare (f.inc a) a = -1) ∧
    (∀ (f : RM_String) (a : Mem), 1 ≤ f.size → f._offset + f.size ≤ a.length →
      a.read f._offset f.size = List.replicate f.size (Byte.ofNat 0xFF) →
      (f.inc a).read f._offset f.size = List.replicate f.size (Byte.ofNat 0) ∧
      f.compare (f.inc a) a = -1) := by
  constructor
  · intro f a ha ho hx
    have hpos : 1 < 2 ^ (8 * f.size) := by
      have := RM_UInt.size_pos f
      exact Nat.one_lt_two_pow (by omega)
    have hmax : f.NT_max = 2 ^ (8 * f.size) - 1 := rfl
    have h0 : f.element (f.inc a) = 0 := by
      rw [RM_UInt.element_inc f a ha, if_pos ho, hx, hmax]
      have : 2 ^ (8 * f.size) - 1 + 1 = 2 ^ (8 * f.size) := by omega
      rw [this, Nat.mod_self]
    refine ⟨h0, ?_⟩
    unfold RM_UInt.compare
    rw [h0, RM_UInt.cmp_ascending f ho, hx, hmax]
    unfold numCompare
    rw [if_pos (by omega)]
  · intro f a hn ha hx
    have hpos : 1 < 256 ^ f.size := Nat.one_lt_pow (by omega) (by decide)
    have hread : (f.inc a).read f._offset f.size = List.replicate f.size (Byte.ofNat 0) := by
      rw [RM_String.read_inc f a ha, hx, beDecode_ones]
      apply beDecode_injective
      · rw [beEncode_length, List.length_replicate]
      · have : 256 ^ f.size - 1 + 1 = 256 ^ f.size := by omega
        rw [beDecode_beEncode, beDecode_zeros, this, Nat.mod_self]
    refine ⟨hread, ?_⟩
    rw [RM_String.compare_eq f _ a (by rw [RM_String.inc_length f a ha]; exact ha) ha,
      hread, hx, beDecode_zeros, beDecode_ones]
    unfold numCompare
    rw [if_pos (by omega)]

/-- A `UInt16` field holding `0xFFFF` and a two-byte string field holding `FF FF` wrap to zero. -/
theorem inc_at_saturation_wraps_witness :
    ((RM_UINT16 1 0).element ((RM_UINT16 1 0).inc [9, 255, 255, 9]) = 0 ∧
      (RM_UINT16 1 0).compare ((RM_UINT16 1 0).inc [9, 255, 255, 9]) [9, 255, 255, 9] = -1) ∧
    ((RM_String.inc ⟨1, 2⟩ [9, 255, 255, 9]).read 1 2 = [0, 0] ∧
      RM_String.compare ⟨1, 2⟩ (RM_String.inc ⟨1, 2⟩ [9, 255, 255, 9]) [9, 255, 255, 9] = -1) :=
  ⟨inc_at_saturation_wraps.1 (RM_UINT16 1 0) [9, 255, 255, 9] (by decide) rfl (by decide),
    inc_at_saturation_wraps.2 ⟨1, 2⟩ [9, 255, 255, 9] (by decide) (by decide) (by decide)⟩

/-- C5: for every unsigned-integer variant and all records `v`, `lo`, `hi`, `between` returns
`-1` exactly when `compare(v, lo) = -1`, returns `1` exactly when `compare(v, lo)` is not `-1`
and `compare(v, hi) = 1`, and returns `0` otherwise; so it returns `0` whenever
`lo <= v <= hi` in sort order.  In the descending variant `v` sorts before `lo` exactly when
it is numerically greater. -/
theorem uint_between_by_compare (f : RM_UInt) (v lo hi : Mem) :
    (f.between v lo hi = -1 ↔ f.compare v lo = -1) ∧
    (f.between v lo hi = 1 ↔ f.compare v lo ≠ -1 ∧ f.compare v hi = 1) ∧
    (f.between v lo hi = 0 ↔ ¬ (f.compare v lo = -1) ∧ ¬ (f.compare v hi = 1)) ∧
    (f.compare lo v ≤ 0 ∧ f.compare v hi ≤ 0 → f.between v lo hi = 0) ∧
    (f.kind.order = true → (f.compare v lo = -1 ↔ f.element v < f.element lo)) ∧
    (f.kind.order = false → (f.compare v lo = -1 ↔ f.element v > f.element lo)) := by
  unfold RM_UInt.between RM_UInt.compare RM_UInt.betw RM_UInt.cmp
  generalize f.element v = x
  generalize f.element lo = l
  generalize f.element hi = r
  cases f.kind.order
  · simp only [Bool.false_eq_true, if_false]
    refine ⟨?_, ?_, ?_, ?_, ?_, ?_⟩ <;> split_ifs <;> simp <;> omega
  · simp only [if_true]
    refine ⟨?_, ?_, ?_, ?_, ?_, ?_⟩ <;> split_ifs <;> simp <;> omega

end RecordModel

namespace RecordModel

/-- C6: for every ascending unsigned-integer variant `compare(a, b)` is `-1`, `0` or `1` as the
value stored in `a` is less than, equal to or greater than the one in `b`; it is antisymmetric,
zero exactly on equal values, and transitive.  For the descending Timestamp variant it is the
negation of that numeric comparison. -/
theorem uint_compare_is_numeric_order (f : RM_UInt) (a b c : Mem) :
    (f.kind.order = true →
      f.compare a b = numCompare (f.element a) (f.element b) ∧
      (f.compare a b = -1 ↔ f.element a < f.element b) ∧
      (f.compare a b = 0 ↔ f.element a = f.element b) ∧
      (f.compare a b = 1 ↔ f.element a > f.element b) ∧
      f.compare a b = - f.compare b a ∧
      (f.compare a b = -1 → f.compare b c = -1 → f.compare a c = -1) ∧
      (f.compare a b ≤ 0 → f.compare b c ≤ 0 → f.compare a c ≤ 0)) ∧
    (f.kind = UIntKind.TIMESTAMP_DESC →
      f.compare a b = - numCompare (f.element a) (f.element b)) := by
  constructor
  · intro ho
    unfold RM_UInt.compare
    simp only [RM_UInt.cmp_ascending f ho]
    unfold numCompare
    generalize f.element a = x
    generalize f.element b = y
    generalize f.element c = z
    refine ⟨trivial, ?_, ?_, ?_, ?_, ?_, ?_⟩ <;> split_ifs <;> simp <;> omega
  · intro hk
    unfold RM_UInt.compare
    exact RM_UInt.cmp_descending f ((RM_UInt.order_false_iff f).2 hk) _ _

/-- An ascending `UInt32` field holding 5 and 7, and a descending Timestamp holding 1 and 2. -/
theorem uint_compare_is_numeric_order_witness :
    (RM_UINT32 0 0).compare [5, 0, 0, 0] [7, 0, 0, 0] = -1 ∧
    (RM_TIMESTAMP_DESC 0 0).compare [1, 0, 0, 0, 0, 0, 0, 0] [2, 0, 0, 0, 0, 0, 0, 0] = 1 :=
  ⟨((uint_compare_is_numeric_order (RM_UINT32 0 0) [5, 0, 0, 0] [7, 0, 0, 0] []).1 rfl).1,
    (uint_compare_is_numeric_order (RM_TIMESTAMP_DESC 0 0) [1, 0, 0, 0, 0, 0, 0, 0]
      [2, 0, 0, 0, 0, 0, 0, 0] []).2 rfl⟩

namespace RM_String

theorem read_memset (f : RM_String) (a : Mem) (c : Nat) (ha : f._offset + f.size ≤ a.length) :
    (memset a f._offset c f.size).read f._offset f.size
      = List.replicate f.size (Byte.ofNat c) := by
  have h := Mem.read_write a f._offset (List.replicate f.size (Byte.ofNat c))
    (by rw [List.length_replicate]; exact ha)
  rw [List.length_replicate] at h
  exact h

theorem memset_length (f : RM_String) (a : Mem) (c : Nat) (ha : f._offset + f.size ≤ a.length) :
    (memset a f._offset c f.size).length = a.length :=
  Mem.write_length a f._offset _ (by rw [List.length_replicate]; exact ha)

end RM_String

/-- C7: `set_min` and `set_max` write the extrema of the sort order.  For every
unsigned-integer variant and every string variant, the slot after `set_min` compares `<= 0`
and the slot after `set_max` compares `>= 0` against every slot value `x`.  An ascending
integer gets `0` and `2^w - 1`, the descending Timestamp gets `2^64 - 1` and `0`, a string
gets all `0x00` and all `0xFF`. -/
theorem set_min_max_are_extrema :
    (∀ (f : RM_UInt) (a x : Mem), f._offset + f.size ≤ a.length →
      f.compare (f.set_min a) x ≤ 0 ∧ f.compare (f.set_max a) x ≥ 0 ∧
      (f.kind.order = true →
        f.element (f.set_min a) = 0 ∧ f.element (f.set_max a) = 2 ^ (8 * f.size) - 1) ∧
      (f.kind = UIntKind.TIMESTAMP_DESC →
        f.element (f.set_min a) = 2 ^ 64 - 1 ∧ f.element (f.set_max a) = 0)) ∧
    (∀ (f : RM_String) (a x : Mem), f._offset + f.size ≤ a.length →
      f._offset + f.size ≤ x.length →
      f.compare (f.set_min a) x ≤ 0 ∧ f.compare (f.set_max a) x ≥ 0 ∧
      (f.set_min a).read f._offset f.size = List.replicate f.size (Byte.ofNat 0) ∧
      (f.set_max a).read f._offset f.size = List.replicate f.size (Byte.ofNat 0xFF)) := by
  constructor
  · intro f a x ha
    have hx := RM_UInt.element_lt f x
    have hmax : f.NT_max = 2 ^ (8 * f.size) - 1 := rfl
    have hmin : f.NT_min = 0 := rfl
    have hpos : 0 < 2 ^ (8 * f.size) := Nat.pow_pos (by decide)
    have e0 : f.element (f.assign a 0) = 0 :=
      RM_UInt.element_assign_of_le f a 0 ha (Nat.zero_le _)
    have e1 : f.element (f.assign a (2 ^ (8 * f.size) - 1)) = 2 ^ (8 * f.size) - 1 :=
      RM_UInt.element_assign_of_le f a _ ha (le_refl _)
    unfold RM_UInt.compare RM_UInt.set_min RM_UInt.set_max
    rw [hmax, hmin]
    by_cases ho : f.kind.order = true
    · have hk : f.kind ≠ UIntKind.TIMESTAMP_DESC := by
        intro hk
        rw [(RM_UInt.order_false_iff f).2 hk] at ho
        exact Bool.false_ne_true ho
      simp only [ho, if_true, e0, e1, RM_UInt.cmp_ascending f ho, numCompare]
      refine ⟨?_, ?_, fun _ => ⟨trivial, trivial⟩, fun h => absurd h hk⟩ <;> split_ifs <;> omega
    · have ho2 : f.kind.order = false := by simpa using ho
      have hk := (RM_UInt.order_false_iff f).1 ho2
      have hs : 8 * f.size = 64 := by
        unfold RM_UInt.size
        rw [hk]
        rfl
      simp only [ho2, Bool.false_eq_true, if_false, e0, e1, RM_UInt.cmp_descending f ho2,
        numCompare]
      refine ⟨?_, ?_, fun h => absurd h (by simp), fun _ => ⟨by rw [hs], trivial⟩⟩
        <;> split_ifs <;> omega
  · intro f a x ha hxl
    have hxlt := beDecode_lt (x.read f._offset f.size)
    rw [Mem.read_length x f._offset f.size hxl] at hxlt
    have r0 := RM_String.read_memset f a 0 ha
    have r1 := RM_String.read_memset f a 0xFF ha
    unfold RM_String.set_min RM_String.set_max
    rw [RM_String.compare_eq f _ x (by rw [RM_String.memset_length f a 0 ha]; exact ha) hxl,
      RM_String.compare_eq f _ x (by rw [RM_String.memset_length f a 0xFF ha]; exact ha) hxl,
      r0, r1, beDecode_zeros, beDecode_ones]
    unfold numCompare
    refine ⟨?_, ?_, rfl, rfl⟩ <;> split_ifs <;> omega

/-- A `UInt16` field, a descending Timestamp field and a string field of width 2. -/
theorem set_min_max_are_extrema_witness :
    ((RM_UINT16 1 0).element ((RM_UINT16 1 0).set_min [9, 3, 4, 9]) = 0 ∧
      (RM_UINT16 1 0).element ((RM_UINT16 1 0).set_max [9, 3, 4, 9]) = 65535) ∧
    ((RM_TIMESTAMP_DESC 0 0).element ((RM_TIMESTAMP_DESC 0 0).set_min (List.replicate 8 7))
        = 18446744073709551615 ∧
      (RM_TIMESTAMP_DESC 0 0).element ((RM_TIMESTAMP_DESC 0 0).set_max (List.replicate 8 7))
        = 0) ∧
    (RM_String.compare ⟨1, 2⟩ (RM_String.set_min ⟨1, 2⟩ [9, 3, 4, 9]) [9, 0, 0, 9] ≤ 0 ∧
      RM_String.compare ⟨1, 2⟩ (RM_String.set_max ⟨1, 2⟩ [9, 3, 4, 9]) [9, 255, 255, 9] ≥ 0) :=
  ⟨(set_min_max_are_extrema.1 (RM_UINT16 1 0) [9, 3, 4, 9] [] (by decide)).2.2.1 rfl,
    (set_min_max_are_extrema.1 (RM_TIMESTAMP_DESC 0 0) (List.replicate 8 7) []
      (by decide)).2.2.2 rfl,
    ⟨(set_min_max_are_extrema.2 ⟨1, 2⟩ [9, 3, 4, 9] [9, 0, 0, 9] (by decide) (by decide)).1,
      (set_min_max_are_extrema.2 ⟨1, 2⟩ [9, 3, 4, 9] [9, 255, 255, 9] (by decide)
        (by decide)).2.1⟩⟩

/-- C8: for every unsigned-integer variant and every 64-bit unsigned value `v` handed to
`set_from_ruby`: when `v <= 2^(8w) - 1` the call succeeds and `to_ruby` then returns `v`;
when `v > 2^(8w) - 1` the call returns `RM_ERR_INT_RANGE` and no byte of the record changes. -/
theorem uint_from_external_round_trip (f : RM_UInt) (a : Mem) (v : Nat)
    (ha : f._offset + f.size ≤ a.length) (_hv : v < 2 ^ 64) :
    (v ≤ 2 ^ (8 * f.size) - 1 →
      (f.set_from_ruby a v).1 = RM_ERR_OK ∧ f.to_ruby (f.set_from_ruby a v).2 = v) ∧
    (v > 2 ^ (8 * f.size) - 1 → f.set_from_ruby a v = (RM_ERR_INT_RANGE, a)) := by
  unfold RM_UInt.set_from_ruby RM_UInt.to_ruby
  constructor
  · intro h
    rw [RM_UInt._set_uint_ok f a v h]
    exact ⟨rfl, RM_UInt.element_assign_of_le f a v ha h⟩
  · intro h
    exact RM_UInt._set_uint_range f a v h

/-- A `UInt16` field takes 65535 and gives it back, and refuses 65536. -/
theorem uint_from_external_round_trip_witness :
    ((RM_UINT16 1 0).set_from_ruby [9, 3, 4, 9] 65535).1 = RM_ERR_OK ∧
    (RM_UINT16 1 0).to_ruby ((RM_UINT16 1 0).set_from_ruby [9, 3, 4, 9] 65535).2 = 65535 ∧
    (RM_UINT16 1 0).set_from_ruby [9, 3, 4, 9] 65536 = (RM_ERR_INT_RANGE, [9, 3, 4, 9]) :=
  ⟨((uint_from_external_round_trip (RM_UINT16 1 0) [9, 3, 4, 9] 65535 (by decide)
      (by decide)).1 (by decide)).1,
    ((uint_from_external_round_trip (RM_UINT16 1 0) [9, 3, 4, 9] 65535 (by decide)
      (by decide)).1 (by decide)).2,
    (uint_from_external_round_trip (RM_UINT16 1 0) [9, 3, 4, 9] 65536 (by decide)
      (by decide)).2 (by decide)⟩

end RecordModel

namespace RecordModel

/-! ## Hexadecimal texts -/

theorem char_lower_a : 'a'.toNat = 97 := rfl
theorem char_lower_f : 'f'.toNat = 102 := rfl
theorem char_upper_a : 'A'.toNat = 65 := rfl
theorem char_upper_f : 'F'.toNat = 70 := rfl

theorem isHexDigit_iff (c : Char) :
    isHexDigit c = true ↔ (48 ≤ c.toNat ∧ c.toNat ≤ 57) ∨ (97 ≤ c.toNat ∧ c.toNat ≤ 102)
      ∨ (65 ≤ c.toNat ∧ c.toNat ≤ 70) := by
  simp [isHexDigit]

namespace RM_HEXSTR

theorem from_hex_digit_neg_iff (c : Char) : from_hex_digit c < 0 ↔ isHexDigit c = false := by
  rw [← Bool.not_eq_true, isHexDigit_iff]
  unfold from_hex_digit
  simp only [char_zero, char_nine, char_lower_a, char_lower_f, char_upper_a, char_upper_f]
  split_ifs <;> omega

theorem from_hex_digit_of_hex (c : Char) (hc : isHexDigit c = true) :
    from_hex_digit c = (hexDigitValue c : Int) ∧ hexDigitValue c < 16 := by
  rw [isHexDigit_iff] at hc
  unfold hexDigitValue from_hex_digit
  simp only [char_zero, char_nine, char_lower_a, char_lower_f, char_upper_a, char_upper_f]
  split_ifs <;> omega

/-- The error code of the loop of `parse_hexstring`. -/
theorem parse_hexstring_loop_code (vbase : Nat) (i_off : Int) (cs : List Char) :
    ∀ (i : Int) (m : Mem),
      (parse_hexstring_loop vbase i_off cs i m).1
        = if ∀ c ∈ cs, isHexDigit c = true then RM_ERR_OK else RM_ERR_HEX_INV_DIGIT := by
  induction cs with
  | nil =>
    intro i m
    simp [parse_hexstring_loop]
  | cons c cs ih =>
    intro i m
    unfold parse_hexstring_loop
    by_cases hc : isHexDigit c = true
    · have hn : ¬ from_hex_digit c < 0 := by
        rw [from_hex_digit_neg_iff, hc]
        simp
      rw [if_neg hn, ih]
      simp [hc]
    · have hn : from_hex_digit c < 0 := by
        rw [from_hex_digit_neg_iff]
        simpa using hc
      rw [if_pos hn]
      simp [hc]

end RM_HEXSTR

/-- C10: for HexString(n) and every text, `set_from_string` returns `RM_ERR_HEX_INV_SIZE`
exactly when the text is longer than `2n` characters; for a text of length at most `2n` it
returns `RM_ERR_HEX_INV_DIGIT` exactly when some character is not a hex digit, and otherwise
it returns `RM_ERR_OK`. -/
theorem hex_from_text_error_codes (f : RM_String) (a : Mem) (s : List Char) :
    ((RM_HEXSTR.set_from_string f a s).1 = RM_ERR_HEX_INV_SIZE ↔ s.length > 2 * f.size) ∧
    (s.length ≤ 2 * f.size →
      ((RM_HEXSTR.set_from_string f a s).1 = RM_ERR_HEX_INV_DIGIT
        ↔ ∃ c ∈ s, isHexDigit c = false)) ∧
    (s.length ≤ 2 * f.size → (∀ c ∈ s, isHexDigit c = true) →
      (RM_HEXSTR.set_from_string f a s).1 = RM_ERR_OK) := by
  unfold RM_HEXSTR.set_from_string RM_HEXSTR.parse_hexstring
  by_cases hlen : s.length > 2 * f.size
  · have hl : (s.length : Int) > 2 * (f.size : Int) := by omega
    rw [if_pos hl]
    exact ⟨⟨fun _ => hlen, fun _ => rfl⟩, fun h => absurd h (by omega),
      fun h => absurd h (by omega)⟩
  · have hl : ¬ (s.length : Int) > 2 * (f.size : Int) := by omega
    rw [if_neg hl, RM_HEXSTR.parse_hexstring_loop_code]
    by_cases hall : ∀ c ∈ s, isHexDigit c = true
    · rw [if_pos hall]
      refine ⟨⟨fun h => absurd h (by decide), fun h => absurd h hlen⟩, fun _ => ?_, fun _ _ => rfl⟩
      constructor
      · intro h
        exact absurd h (by decide)
      · rintro ⟨c, hc, hfalse⟩
        rw [hall c hc] at hfalse
        exact absurd hfalse (by decide)
    · rw [if_neg hall]
      refine ⟨⟨fun h => absurd h (by decide), fun h => absurd h hlen⟩, fun _ => ?_,
        fun _ h => absurd h hall⟩
      constructor
      · intro _
        by_contra hne
        apply hall
        intro c hc
        by_contra hcf
        exact hne ⟨c, hc, by simpa using hcf⟩
      · intro _
        rfl

end RecordModel

namespace RecordModel

/-- Three texts for a HexString of width 2: too long, a bad digit, and a good one. -/
theorem hex_from_text_error_codes_witness :
    (RM_HEXSTR.set_from_string ⟨1, 2⟩ [9, 3, 4, 9] "abcde".toList).1 = RM_ERR_HEX_INV_SIZE ∧
    (RM_HEXSTR.set_from_string ⟨1, 2⟩ [9, 3, 4, 9] "abg".toList).1 = RM_ERR_HEX_INV_DIGIT ∧
    (RM_HEXSTR.set_from_string ⟨1, 2⟩ [9, 3, 4, 9] "abc".toList).1 = RM_ERR_OK :=
  ⟨(hex_from_text_error_codes ⟨1, 2⟩ [9, 3, 4, 9] "abcde".toList).1.2 (by decide),
    ((hex_from_text_error_codes ⟨1, 2⟩ [9, 3, 4, 9] "abg".toList).2.1 (by decide)).2
      ⟨'g', by decide, by decide⟩,
    (hex_from_text_error_codes ⟨1, 2⟩ [9, 3, 4, 9] "abc".toList).2.2 (by decide) (by decide)⟩

end RecordModel

namespace RecordModel

namespace RM_HEXSTR

theorem hexDigitValue_lt (c : Char) (hc : isHexDigit c = true) : hexDigitValue c < 16 :=
  (from_hex_digit_of_hex c hc).2

theorem nibble_or (x d : Nat) (hd : d < 16) :
    (x <<< 4) ||| (d % 256) = x * 16 + d := by
  have h16 : (16 : Nat) = 2 ^ 4 := rfl
  rw [Nat.mod_eq_of_lt (by omega), Nat.shiftLeft_eq, Nat.mul_comm, ← h16]
  rw [h16, ← Nat.mul_add_lt_is_or (by omega) x]

theorem hexPairs_length (k : Nat) : ∀ (cs : List Char), cs.length = 2 * k →
    (hexPairs cs).length = k := by
  induction k with
  | zero =>
    intro cs h
    have : cs = [] := List.length_eq_zero.1 (by omega)
    subst this
    rfl
  | succ k ih =>
    intro cs h
    match cs, h with
    | c1 :: c2 :: cs, h =>
      simp only [List.length_cons] at h
      simp only [hexPairs, List.length_cons, ih cs (by omega)]

/-- The loop of `parse_hexstring` over an even number of hex digits, started on a byte
boundary with zero bytes ahead: it writes one byte for every two digits. -/
theorem parse_hexstring_loop_pairs (vbase : Nat) (i_off : Int) (post : Mem) :
    ∀ (k : Nat) (cs : List Char) (pre : Mem) (i : Int) (p : Nat),
      cs.length = 2 * k → (∀ c ∈ cs, isHexDigit c = true) →
      i + i_off = 2 * (p : Int) → pre.length = vbase + p →
      parse_hexstring_loop vbase i_off cs i (pre ++ List.replicate k (Byte.ofNat 0) ++ post)
        = (RM_ERR_OK, pre ++ hexPairs cs ++ post) := by
  intro k
  induction k with
  | zero =>
    intro cs pre i p hlen _ _ _
    have : cs = [] := List.length_eq_zero.1 (by omega)
    subst this
    simp [parse_hexstring_loop, hexPairs]
  | succ k ih =>
    intro cs pre i p hlen hhex hi hpre
    match cs, hlen, hhex with
    | c1 :: c2 :: cs, hlen, hhex =>
      have hc1 : isHexDigit c1 = true := hhex c1 (by simp)
      have hc2 : isHexDigit c2 = true := hhex c2 (by simp)
      have hcs : ∀ c ∈ cs, isHexDigit c = true := fun c hc => hhex c (by simp [hc])
      have hn1 : ¬ from_hex_digit c1 < 0 := by
        rw [from_hex_digit_neg_iff, hc1]; simp
      have hn2 : ¬ from_hex_digit c2 < 0 := by
        rw [from_hex_digit_neg_iff, hc2]; simp
      have hd1 := hexDigitValue_lt c1 hc1
      have hd2 := hexDigitValue_lt c2 hc2
      have hv1 : (from_hex_digit c1).toNat = hexDigitValue c1 := rfl
      have hv2 : (from_hex_digit c2).toNat = hexDigitValue c2 := rfl
      have hidx1 : vbase + ((i + i_off).tdiv 2).toNat = pre.length := by
        rw [Int.tdiv_eq_ediv (by omega) (by omega)]
        omega
      have hidx2 : vbase + ((i + 1 + i_off).tdiv 2).toNat = pre.length := by
        rw [Int.tdiv_eq_ediv (by omega) (by omega)]
        omega
      have hm : pre ++ List.replicate (k + 1) (Byte.ofNat 0) ++ post
          = pre ++ Byte.ofNat 0 :: (List.replicate k (Byte.ofNat 0) ++ post) := by
        simp [List.replicate_succ]
      have hb0 : (Byte.ofNat 0).val = 0 := rfl
      have hb1 : (Byte.ofNat (hexDigitValue c1)).val = hexDigitValue c1 :=
        Byte.ofNat_val_of_lt (by omega)
      have e1 : (0 <<< 4) ||| (hexDigitValue c1 % 256) = hexDigitValue c1 := by
        rw [nibble_or 0 _ hd1]; omega
      have e2 : (hexDigitValue c1 <<< 4) ||| (hexDigitValue c2 % 256)
          = hexDigitValue c1 * 16 + hexDigitValue c2 := nibble_or _ _ hd2
      have hlen2 : cs.length = 2 * k := by
        simp only [List.length_cons] at hlen
        omega
      have hm2 : pre ++ Byte.ofNat (hexDigitValue c1 * 16 + hexDigitValue c2)
            :: (List.replicate k (Byte.ofNat 0) ++ post)
          = (pre ++ [Byte.ofNat (hexDigitValue c1 * 16 + hexDigitValue c2)])
            ++ List.replicate k (Byte.ofNat 0) ++ post := by
        simp
      rw [parse_hexstring_loop, if_neg hn1, hidx1, hm, Mem.byteAt_mid, Mem.setByte_mid, hb0, hv1,
        e1, parse_hexstring_loop, if_neg hn2, hidx2, Mem.byteAt_mid, Mem.setByte_mid, hb1, hv2,
        e2, hm2, ih cs _ (i + 1 + 1) (p + 1) hlen2 hcs (by push_cast; omega)
          (by rw [List.length_append, List.length_singleton]; omega)]
      simp [hexPairs]

theorem bzero_eq (a : Mem) (base n : Nat) :
    bzero a base n = a.take base ++ List.replicate n (Byte.ofNat 0) ++ a.drop (base + n) := by
  simp [bzero, memset, Mem.write]

/-- The record after `parse_hexstring` on a valid text: zero bytes, then one byte for every
two digits of the text, which is first extended by a `0` digit when its length is odd. -/
theorem parse_hexstring_eq (f : RM_String) (a : Mem) (h : List Char)
    (ha : f._offset + f.size ≤ a.length) (hlen : h.length ≤ 2 * f.size)
    (hhex : ∀ c ∈ h, isHexDigit c = true) :
    parse_hexstring f a f._offset h
      = (RM_ERR_OK, a.take f._offset
          ++ (List.replicate (f.size - (h.length + 1) / 2) (Byte.ofNat 0)
            ++ hexPairs (if h.length % 2 = 1 then '0' :: h else h))
          ++ a.drop (f._offset + f.size)) := by
  have hl : ¬ (h.length : Int) > 2 * (f.size : Int) := by omega
  have htake : (a.take f._offset).length = f._offset := by
    rw [List.length_take]; omega
  unfold parse_hexstring
  rw [if_neg hl, bzero_eq]
  by_cases hodd : h.length % 2 = 1
  · -- odd length: the first digit alone fills the low half of its byte
    rw [if_pos hodd]
    match h, hlen, hhex, hodd with
    | c :: cs, hlen, hhex, hodd =>
      simp only [List.length_cons] at hlen hodd ⊢
      have hc : isHexDigit c = true := hhex c (by simp)
      have hcs : ∀ x ∈ cs, isHexDigit x = true := fun x hx => hhex x (by simp [hx])
      have hn : ¬ from_hex_digit c < 0 := by
        rw [from_hex_digit_neg_iff, hc]; simp
      have hd := hexDigitValue_lt c hc
      have hv : (from_hex_digit c).toNat = hexDigitValue c := rfl
      obtain ⟨k, hk⟩ : ∃ k, cs.length = 2 * k := ⟨cs.length / 2, by omega⟩
      obtain ⟨p, hp⟩ : ∃ p, f.size = p + 1 + k := ⟨f.size - 1 - k, by omega⟩
      have hp2 : f.size - (cs.length + 1 + 1) / 2 = p := by omega
      have hidx : f._offset + (((0 : Int) + (2 * (f.size : Int) - ((cs.length + 1 : Nat) : Int))).tdiv 2).toNat
          = (a.take f._offset ++ List.replicate p (Byte.ofNat 0)).length := by
        rw [Int.tdiv_eq_ediv (by omega) (by omega), List.length_append, List.length_replicate,
          htake]
        omega
      have hm : a.take f._offset ++ List.replicate f.size (Byte.ofNat 0)
            ++ a.drop (f._offset + f.size)
          = (a.take f._offset ++ List.replicate p (Byte.ofNat 0)) ++ Byte.ofNat 0
            :: (List.replicate k (Byte.ofNat 0) ++ a.drop (f._offset + f.size)) := by
        rw [hp, List.replicate_add, List.replicate_add]
        simp
      have hb0 : (Byte.ofNat 0).val = 0 := rfl
      have e1 : (0 <<< 4) ||| (hexDigitValue c % 256) = hexDigitValue c := by
        rw [nibble_or 0 _ hd]; omega
      have hm2 : (a.take f._offset ++ List.replicate p (Byte.ofNat 0))
            ++ Byte.ofNat (hexDigitValue c)
              :: (List.replicate k (Byte.ofNat 0) ++ a.drop (f._offset + f.size))
          = (a.take f._offset ++ List.replicate p (Byte.ofNat 0) ++ [Byte.ofNat (hexDigitValue c)])
            ++ List.replicate k (Byte.ofNat 0) ++ a.drop (f._offset + f.size) := by
        simp
      have hz : hexDigitValue '0' = 0 := by decide
      rw [parse_hexstring_loop, if_neg hn, hidx, hm, Mem.byteAt_mid, Mem.setByte_mid, hb0, hv, e1,
        hm2, parse_hexstring_loop_pairs f._offset _ _ k cs _ (0 + 1) (p + 1) hk hcs
          (by push_cast; omega)
          (by simp only [List.length_append, List.length_replicate, List.length_singleton, htake]
              omega),
        hp2]
      simp [hexPairs, hz]
  · -- even length
    rw [if_neg hodd]
    obtain ⟨k, hk⟩ : ∃ k, h.length = 2 * k := ⟨h.length / 2, by omega⟩
    obtain ⟨p, hp⟩ : ∃ p, f.size = p + k := ⟨f.size - k, by omega⟩
    have hp2 : f.size - (h.length + 1) / 2 = p := by omega
    have hm : a.take f._offset ++ List.replicate f.size (Byte.ofNat 0)
          ++ a.drop (f._offset + f.size)
        = (a.take f._offset ++ List.replicate p (Byte.ofNat 0))
          ++ List.replicate k (Byte.ofNat 0) ++ a.drop (f._offset + f.size) := by
      rw [hp, List.replicate_add]
      simp
    rw [hm, parse_hexstring_loop_pairs f._offset _ _ k h _ 0 p hk hhex (by omega)
        (by simp only [List.length_append, List.length_replicate, htake]), hp2]
    simp

end RM_HEXSTR

end RecordModel

namespace RecordModel

namespace RM_HEXSTR

/-- Printing the value of a hex digit gives the digit in upper case. -/
theorem to_hex_digit_value (c : Char) (hc : isHexDigit c = true) :
    to_hex_digit (hexDigitValue c) = c.toUpper := by
  rw [isHexDigit_iff] at hc
  have hcn := Char.ofNat_toNat c
  generalize c.toNat = n at hc hcn
  subst hcn
  rcases hc with h | h | h <;> obtain ⟨h1, h2⟩ := h <;> interval_cases n <;> decide

/-- The two characters `to_ruby` appends for the byte `b`. -/
theorem print_zero_byte :
    [to_hex_digit ((Byte.ofNat 0).val >>> 4), to_hex_digit ((Byte.ofNat 0).val &&& 0x0F)]
      = ['0', '0'] := by
  decide

theorem print_pair_byte (c1 c2 : Char) (h1 : isHexDigit c1 = true) (h2 : isHexDigit c2 = true) :
    [to_hex_digit ((Byte.ofNat (hexDigitValue c1 * 16 + hexDigitValue c2)).val >>> 4),
      to_hex_digit ((Byte.ofNat (hexDigitValue c1 * 16 + hexDigitValue c2)).val &&& 0x0F)]
      = [c1.toUpper, c2.toUpper] := by
  have hd1 := hexDigitValue_lt c1 h1
  have hd2 := hexDigitValue_lt c2 h2
  have hF : (0x0F : Nat) = 2 ^ 4 - 1 := rfl
  rw [Byte.ofNat_val_of_lt (by omega), Nat.shiftRight_eq_div_pow, hF,
    Nat.and_pow_two_sub_one_eq_mod]
  have e1 : (hexDigitValue c1 * 16 + hexDigitValue c2) / 2 ^ 4 = hexDigitValue c1 := by omega
  have e2 : (hexDigitValue c1 * 16 + hexDigitValue c2) % 2 ^ 4 = hexDigitValue c2 := by omega
  rw [e1, e2, to_hex_digit_value c1 h1, to_hex_digit_value c2 h2]

/-- The loop of `to_ruby` prints the bytes of the field in order, two characters each. -/
theorem to_ruby_loop_frame (post : Mem) (base : Nat) : ∀ (bs pre : Mem) (i : Nat),
    pre.length = base + i →
    to_ruby_loop (pre ++ bs ++ post) base bs.length i
      = bs.flatMap (fun b => [to_hex_digit (b.val >>> 4), to_hex_digit (b.val &&& 0x0F)]) := by
  intro bs
  induction bs with
  | nil =>
    intro pre i _
    simp [to_ruby_loop]
  | cons b bs ih =>
    intro pre i hpre
    have hm : pre ++ b :: bs ++ post = pre ++ b :: (bs ++ post) := by simp
    have hm2 : pre ++ b :: (bs ++ post) = (pre ++ [b]) ++ bs ++ post := by simp
    rw [List.length_cons, to_ruby_loop, ← hpre, hm, Mem.byteAt_mid, hm2,
      ih (pre ++ [b]) (i + 1) (by rw [List.length_append, List.length_singleton]; omega)]
    simp

theorem print_zero_bytes (p : Nat) :
    (List.replicate p (Byte.ofNat 0)).flatMap
        (fun b => [to_hex_digit (b.val >>> 4), to_hex_digit (b.val &&& 0x0F)])
      = List.replicate (2 * p) '0' := by
  induction p with
  | zero => rfl
  | succ p ih =>
    have h2 : 2 * (p + 1) = (2 * p + 1) + 1 := by omega
    rw [List.replicate_succ, List.flatMap_cons, ih, print_zero_byte, h2, List.replicate_succ,
      List.replicate_succ]
    rfl

theorem print_hexPairs (k : Nat) : ∀ (cs : List Char), cs.length = 2 * k →
    (∀ c ∈ cs, isHexDigit c = true) →
    (hexPairs cs).flatMap (fun b => [to_hex_digit (b.val >>> 4), to_hex_digit (b.val &&& 0x0F)])
      = cs.map Char.toUpper := by
  induction k with
  | zero =>
    intro cs hlen _
    have : cs = [] := List.length_eq_zero.1 (by omega)
    subst this
    rfl
  | succ k ih =>
    intro cs hlen hhex
    match cs, hlen, hhex with
    | c1 :: c2 :: cs, hlen, hhex =>
      have hc1 : isHexDigit c1 = true := hhex c1 (by simp)
      have hc2 : isHexDigit c2 = true := hhex c2 (by simp)
      have hcs : ∀ c ∈ cs, isHexDigit c = true := fun c hc => hhex c (by simp [hc])
      have hlen2 : cs.length = 2 * k := by
        simp only [List.length_cons] at hlen
        omega
      rw [hexPairs, List.flatMap_cons, print_pair_byte c1 c2 hc1 hc2, ih cs hlen2 hcs]
      rfl

end RM_HEXSTR

/-- C9: for HexString(n) and every text `h` of at most `2n` hex digits (either case, odd
lengths and the empty text included), `set_from_string` succeeds and `to_ruby` then returns
the `2n` characters of `h` in upper case, padded on the left with `0` characters. -/
theorem hex_text_round_trip (f : RM_String) (a : Mem) (h : List Char)
    (ha : f._offset + f.size ≤ a.length) (hlen : h.length ≤ 2 * f.size)
    (hhex : ∀ c ∈ h, isHexDigit c = true) :
    (RM_HEXSTR.set_from_string f a h).1 = RM_ERR_OK ∧
    RM_HEXSTR.to_ruby f (RM_HEXSTR.set_from_string f a h).2
      = List.replicate (2 * f.size - h.length) '0' ++ h.map Char.toUpper ∧
    (RM_HEXSTR.to_ruby f (RM_HEXSTR.set_from_string f a h).2).length = 2 * f.size := by
  have htake : (a.take f._offset).length = f._offset + 0 := by
    rw [List.length_take]; omega
  have key : RM_HEXSTR.to_ruby f (RM_HEXSTR.set_from_string f a h).2
      = List.replicate (2 * f.size - h.length) '0' ++ h.map Char.toUpper := by
    unfold RM_HEXSTR.set_from_string RM_HEXSTR.to_ruby
    rw [RM_HEXSTR.parse_hexstring_eq f a h ha hlen hhex]
    by_cases hodd : h.length % 2 = 1
    · obtain ⟨k, hk⟩ : ∃ k, ('0' :: h).length = 2 * k :=
        ⟨(h.length + 1) / 2, by rw [List.length_cons]; omega⟩
      have hk2 : h.length + 1 = 2 * k := by rw [← hk, List.length_cons]
      have hhex2 : ∀ c ∈ '0' :: h, isHexDigit c = true := by
        intro c hc
        rcases List.mem_cons.1 hc with rfl | hc
        · decide
        · exact hhex c hc
      have hsz : f.size = (List.replicate (f.size - (h.length + 1) / 2) (Byte.ofNat 0)
          ++ hexPairs ('0' :: h)).length := by
        rw [List.length_append, List.length_replicate, RM_HEXSTR.hexPairs_length k _ hk]
        omega
      have hcount : 2 * f.size - h.length = 2 * (f.size - (h.length + 1) / 2) + 1 := by omega
      simp only [if_pos hodd]
      conv_lhs => arg 3; rw [hsz]
      rw [RM_HEXSTR.to_ruby_loop_frame _ _ _ _ 0 htake, List.flatMap_append,
        RM_HEXSTR.print_zero_bytes, RM_HEXSTR.print_hexPairs k _ hk hhex2, hcount,
        List.replicate_succ', List.map_cons]
      simp
    · obtain ⟨k, hk⟩ : ∃ k, h.length = 2 * k := ⟨h.length / 2, by omega⟩
      have hsz : f.size = (List.replicate (f.size - (h.length + 1) / 2) (Byte.ofNat 0)
          ++ hexPairs h).length := by
        rw [List.length_append, List.length_replicate, RM_HEXSTR.hexPairs_length k _ hk]
        omega
      have hcount : 2 * f.size - h.length = 2 * (f.size - (h.length + 1) / 2) := by omega
      simp only [if_neg hodd]
      conv_lhs => arg 3; rw [hsz]
      rw [RM_HEXSTR.to_ruby_loop_frame _ _ _ _ 0 htake, List.flatMap_append,
        RM_HEXSTR.print_zero_bytes, RM_HEXSTR.print_hexPairs k _ hk hhex, hcount]
  refine ⟨?_, key, ?_⟩
  · unfold RM_HEXSTR.set_from_string
    rw [RM_HEXSTR.parse_hexstring_eq f a h ha hlen hhex]
  · rw [key, List.length_append, List.length_replicate, List.length_map]
    omega

/-- The texts `abc` (odd length), `aBc9` and the empty text in a HexString of width 2. -/
theorem hex_text_round_trip_witness :
    RM_HEXSTR.to_ruby ⟨1, 2⟩ (RM_HEXSTR.set_from_string ⟨1, 2⟩ [9, 3, 4, 9] "abc".toList).2
      = "0ABC".toList ∧
    RM_HEXSTR.to_ruby ⟨1, 2⟩ (RM_HEXSTR.set_from_string ⟨1, 2⟩ [9, 3, 4, 9] "aBc9".toList).2
      = "ABC9".toList ∧
    RM_HEXSTR.to_ruby ⟨1, 2⟩ (RM_HEXSTR.set_from_string ⟨1, 2⟩ [9, 3, 4, 9] []).2
      = "0000".toList :=
  ⟨(hex_text_round_trip ⟨1, 2⟩ [9, 3, 4, 9] "abc".toList (by decide) (by decide)
      (by decide)).2.1,
    (hex_text_round_trip ⟨1, 2⟩ [9, 3, 4, 9] "aBc9".toList (by decide) (by decide)
      (by decide)).2.1,
    (hex_text_round_trip ⟨1, 2⟩ [9, 3, 4, 9] [] (by decide) (by decide) (by decide)).2.1⟩

end RecordModel

namespace RecordModel

/-! ## Fixed strings -/

namespace RM_STR

/-- The loop of `parse_string` from index `i` on: it writes the characters `str[i], ...` that
exist and zero bytes after them, and leaves the bytes around the field alone. -/
theorem parse_string_loop_frame (vbase : Nat) (str : List Char) (post : Mem) :
    ∀ (n i : Nat) (pre s : Mem), pre.length = vbase + i → s.length = n →
      parse_string_loop vbase str n i (pre ++ s ++ post)
        = pre ++ (textBytes ((str.drop i).take n)
            ++ List.replicate (n - (str.length - i)) (Byte.ofNat 0)) ++ post := by
  intro n
  induction n with
  | zero =>
    intro i pre s _ hs
    have : s = [] := List.length_eq_zero.1 hs
    subst this
    simp [parse_string_loop, textBytes]
  | succ n ih =>
    intro i pre s hpre hs
    match s, hs with
    | x :: s, hs =>
      have hs2 : s.length = n := by
        simp only [List.length_cons] at hs
        omega
      have hm : pre ++ x :: s ++ post = pre ++ x :: (s ++ post) := by simp
      rw [parse_string_loop, ← hpre, hm, Mem.setByte_mid]
      by_cases hi : i < str.length
      · have hm2 : pre ++ Byte.ofNat (if i < str.length then (str.getD i (Char.ofNat 0)).toNat else 0)
              :: (s ++ post)
            = (pre ++ [Byte.ofNat (str.getD i (Char.ofNat 0)).toNat]) ++ s ++ post := by
          rw [if_pos hi]; simp
        have hcount : n + 1 - (str.length - i) = n - (str.length - (i + 1)) := by omega
        rw [hm2, ih (i + 1) _ s (by rw [List.length_append, List.length_singleton]; omega) hs2,
          List.drop_eq_getElem_cons hi, List.take_succ_cons, hcount,
          List.getD_eq_getElem str _ hi]
        simp [textBytes]
      · have hm2 : pre ++ Byte.ofNat (if i < str.length then (str.getD i (Char.ofNat 0)).toNat else 0)
              :: (s ++ post)
            = (pre ++ [Byte.ofNat 0]) ++ s ++ post := by
          rw [if_neg hi]; simp
        have hd1 : str.drop i = [] := List.drop_of_length_le (by omega)
        have hd2 : str.drop (i + 1) = [] := List.drop_of_length_le (by omega)
        have hc1 : n + 1 - (str.length - i) = n + 1 := by omega
        have hc2 : n - (str.length - (i + 1)) = n := by omega
        rw [hm2, ih (i + 1) _ s (by rw [List.length_append, List.length_singleton]; omega) hs2,
          hd1, hd2, hc1, hc2, List.replicate_succ]
        simp [textBytes]

/-- The record after `parse_string` on a text that fits. -/
theorem parse_string_eq (f : RM_String) (a : Mem) (t : List Char)
    (ha : f._offset + f.size ≤ a.length) (ht : t.length ≤ f.size) :
    parse_string f a f._offset t
      = (RM_ERR_OK, a.take f._offset
          ++ (textBytes t ++ List.replicate (f.size - t.length) (Byte.ofNat 0))
          ++ a.drop (f._offset + f.size)) := by
  have hl : ¬ (t.length : Int) > (f.size : Int) := by omega
  have htake : (a.take f._offset).length = f._offset + 0 := by
    rw [List.length_take]; omega
  have hread := Mem.read_length a f._offset f.size ha
  unfold parse_string
  rw [if_neg hl]
  conv_lhs => rw [Mem.split a f._offset f.size]
  rw [parse_string_loop_frame f._offset t _ f.size 0 _ _ htake hread, List.drop_zero,
    List.take_of_length_le ht, Nat.sub_zero]

end RM_STR

/-- C11: for FixedString(n) and every text `t`: when `length(t) <= n`, `set_from_string`
succeeds, the slot then holds the bytes of `t` followed by `n - length(t)` zero bytes, and
`to_ruby` returns exactly those `n` bytes; when `length(t) > n` it returns
`RM_ERR_STR_TOO_LONG` and changes no byte of the record. -/
theorem fixed_string_from_text (f : RM_String) (a : Mem) (t : List Char)
    (ha : f._offset + f.size ≤ a.length) :
    (t.length ≤ f.size →
      (RM_STR.set_from_string f a t).1 = RM_ERR_OK ∧
      (RM_STR.set_from_string f a t).2.read f._offset f.size
        = textBytes t ++ List.replicate (f.size - t.length) (Byte.ofNat 0) ∧
      RM_STR.to_ruby f (RM_STR.set_from_string f a t).2
        = textBytes t ++ List.replicate (f.size - t.length) (Byte.ofNat 0) ∧
      (RM_STR.to_ruby f (RM_STR.set_from_string f a t).2).length = f.size) ∧
    (t.length > f.size → RM_STR.set_from_string f a t = (RM_ERR_STR_TOO_LONG, a)) := by
  constructor
  · intro ht
    have htake : (a.take f._offset).length = f._offset := by
      rw [List.length_take]; omega
    have hlen : (textBytes t ++ List.replicate (f.size - t.length) (Byte.ofNat 0)).length
        = f.size := by
      simp only [textBytes, List.length_append, List.length_map, List.length_replicate]
      omega
    have hread : (RM_STR.set_from_string f a t).2.read f._offset f.size
        = textBytes t ++ List.replicate (f.size - t.length) (Byte.ofNat 0) := by
      unfold RM_STR.set_from_string
      rw [RM_STR.parse_string_eq f a t ha ht]
      have h := Mem.read_frame (a.take f._offset)
        (textBytes t ++ List.replicate (f.size - t.length) (Byte.ofNat 0))
        (a.drop (f._offset + f.size))
      rw [htake, hlen] at h
      exact h
    refine ⟨?_, hread, ?_, ?_⟩
    · unfold RM_STR.set_from_string
      rw [RM_STR.parse_string_eq f a t ha ht]
    · unfold RM_STR.to_ruby
      exact hread
    · unfold RM_STR.to_ruby
      rw [hread, hlen]
  · intro ht
    have hl : (t.length : Int) > (f.size : Int) := by omega
    unfold RM_STR.set_from_string RM_STR.parse_string
    rw [if_pos hl]

/-- The texts `ab` and `abcd` handed to a FixedString of width 3 at byte 1 of a record. -/
theorem fixed_string_from_text_witness :
    (RM_STR.set_from_string ⟨1, 3⟩ [9, 9, 9, 9, 9] "ab".toList).2.read 1 3 = [97, 98, 0] ∧
    RM_STR.set_from_string ⟨1, 3⟩ [9, 9, 9, 9, 9] "abcd".toList
      = (RM_ERR_STR_TOO_LONG, [9, 9, 9, 9, 9]) :=
  ⟨((fixed_string_from_text ⟨1, 3⟩ [9, 9, 9, 9, 9] "ab".toList (by decide)).1
      (by decide)).2.1,
    (fixed_string_from_text ⟨1, 3⟩ [9, 9, 9, 9, 9] "abcd".toList (by decide)).2 (by decide)⟩

end RecordModel

namespace RecordModel

/-! ## Schema layout -/

/-- The descriptor entry written for a field at `offset` holds that offset and the field's
type, as long as the offset fits 16 bits. -/
theorem descriptor_entry (offset desc : Nat) (ho : offset < 2 ^ 16) :
    RecordModelOffset (((offset <<< 16) % 2 ^ 32 ||| RecordModelType desc) % 2 ^ 32) = offset ∧
    RecordModelType (((offset <<< 16) % 2 ^ 32 ||| RecordModelType desc) % 2 ^ 32)
      = RecordModelType desc := by
  have hF : (0xFFFF : Nat) = 2 ^ 16 - 1 := rfl
  have ht : RecordModelType desc = desc % 2 ^ 16 := by
    unfold RecordModelType
    rw [hF, Nat.and_pow_two_sub_one_eq_mod]
  have htlt : desc % 2 ^ 16 < 2 ^ 16 := Nat.mod_lt _ (by decide)
  have hsh : (offset <<< 16) % 2 ^ 32 = 2 ^ 16 * offset := by
    rw [Nat.shiftLeft_eq, Nat.mul_comm]
    apply Nat.mod_eq_of_lt
    omega
  have hor : 2 ^ 16 * offset ||| desc % 2 ^ 16 = 2 ^ 16 * offset + desc % 2 ^ 16 :=
    (Nat.mul_add_lt_is_or htlt offset).symm
  have hlt : 2 ^ 16 * offset + desc % 2 ^ 16 < 2 ^ 32 := by omega
  rw [ht, hsh, hor, Nat.mod_eq_of_lt hlt]
  constructor
  · unfold RecordModelOffset
    rw [Nat.shiftRight_eq_div_pow]
    omega
  · unfold RecordModelType
    rw [hF, Nat.and_pow_two_sub_one_eq_mod]
    omega

/-- One loop of `RecordModel_initialize` over field types with no asserted offset: it ends at
the start offset plus the widths, and appends one entry a field, each holding the sum of the
widths before it. -/
theorem initialize_loop_layout (ts : Nat → Nat) (ds : List Nat) :
    ∀ (offset : Nat) (out : List Nat),
      (∀ d ∈ ds, RecordModelOffset d = 0) → offset + (ds.map ts).sum < 2 ^ 16 →
      ∃ es : List Nat,
        RecordModel_initialize_loop ts ds offset out = some (offset + (ds.map ts).sum, out ++ es) ∧
        es.length = ds.length ∧
        ∀ i, i < ds.length →
          RecordModelOffset (es.getD i 0) = offset + ((ds.take i).map ts).sum ∧
          RecordModelType (es.getD i 0) = RecordModelType (ds.getD i 0) := by
  induction ds with
  | nil =>
    intro offset out _ _
    exact ⟨[], by simp [RecordModel_initialize_loop], rfl, fun i hi => absurd hi (by simp)⟩
  | cons d ds ih =>
    intro offset out hauto hsum
    simp only [List.map_cons, List.sum_cons] at hsum
    have hd : RecordModelOffset d = 0 := hauto d (List.mem_cons_self d ds)
    have hnext : (offset + ts d) % 2 ^ 32 = offset + ts d := Nat.mod_eq_of_lt (by omega)
    obtain ⟨es, hrun, hlen, hes⟩ := ih (offset + ts d)
      (out ++ [((offset <<< 16) % 2 ^ 32 ||| RecordModelType d) % 2 ^ 32])
      (fun x hx => hauto x (List.mem_cons_of_mem d hx)) (by omega)
    refine ⟨((offset <<< 16) % 2 ^ 32 ||| RecordModelType d) % 2 ^ 32 :: es, ?_, ?_, ?_⟩
    · rw [RecordModel_initialize_loop, if_pos (Or.inl hd), hnext, hrun]
      simp only [List.map_cons, List.sum_cons, List.append_assoc, List.singleton_append,
        Nat.add_assoc]
    · simp only [List.length_cons, hlen]
    · intro i hi
      cases i with
      | zero =>
        have := descriptor_entry offset d (by omega)
        simpa using this
      | succ i =>
        have hi2 : i < ds.length := by
          simp only [List.length_cons] at hi
          omega
        have := hes i hi2
        simp only [List.getD_cons_succ, List.take_succ_cons, List.map_cons, List.sum_cons]
        rw [this.1, this.2]
        exact ⟨by omega, rfl⟩

/-- C12: `RecordModel_initialize` lays the fields out one after the other.  For all lists of
key and value field types (descriptors with no asserted offset) of total width below `2^16`
it returns a model in which the `i`-th key entry holds the sum of the widths of the keys
before it, `keysize` is the sum of the key widths, the `j`-th value entry holds `keysize` plus
the widths of the values before it, and `size` is `keysize` plus the value widths. -/
theorem schema_layout_is_contiguous (ts : Nat → Nat) (keys values : List Nat)
    (hkeys : ∀ d ∈ keys, RecordModelOffset d = 0)
    (hvalues : ∀ d ∈ values, RecordModelOffset d = 0)
    (htotal : (keys.map ts).sum + (values.map ts).sum < 2 ^ 16) :
    ∃ m : RecordModel,
      RecordModel_initialize ts keys values = some m ∧
      m.keysize = (keys.map ts).sum ∧
      m.size = (keys.map ts).sum + (values.map ts).sum ∧
      m.keys.length = keys.length + 1 ∧ m.values.length = values.length + 1 ∧
      (∀ i, i < keys.length →
        RecordModelOffset (m.keys.getD i 0) = ((keys.take i).map ts).sum ∧
        RecordModelType (m.keys.getD i 0) = RecordModelType (keys.getD i 0)) ∧
      (∀ j, j < values.length →
        RecordModelOffset (m.values.getD j 0)
          = (keys.map ts).sum + ((values.take j).map ts).sum ∧
        RecordModelType (m.values.getD j 0) = RecordModelType (values.getD j 0)) := by
  obtain ⟨ks, hk, hklen, hks⟩ := initialize_loop_layout ts keys 0 [] hkeys (by omega)
  obtain ⟨vs, hv, hvlen, hvs⟩ :=
    initialize_loop_layout ts values (0 + (keys.map ts).sum) [] hvalues (by omega)
  simp only [Nat.zero_add, List.nil_append] at hk hv hks hvs
  refine ⟨⟨ks ++ [0], vs ++ [0], (keys.map ts).sum, (keys.map ts).sum + (values.map ts).sum⟩,
    ?_, rfl, rfl, ?_, ?_, ?_, ?_⟩
  · unfold RecordModel_initialize
    rw [hk]
    simp only [hv]
  · simp [hklen]
  · simp [hvlen]
  · intro i hi
    have h := hks i hi
    rw [List.getD_append _ _ _ _ (by omega)]
    exact h
  · intro j hj
    have h := hvs j hj
    rw [List.getD_append _ _ _ _ (by omega)]
    exact h

/-- Keys `[UInt32, UInt64]` and values `[Double]`, with type codes 1, 2 and 3 of widths 4, 8
and 8: `keysize` is 12, `size` is 20, the key offsets are 0 and 4, the value offset is 12. -/
theorem schema_layout_is_contiguous_witness :
    RecordModel_initialize (fun d => if d = 1 then 4 else 8) [1, 2] [3]
      = some ⟨[1, 4 * 65536 + 2, 0], [12 * 65536 + 3, 0], 12, 20⟩ ∧
    ∃ m : RecordModel,
      RecordModel_initialize (fun d => if d = 1 then 4 else 8) [1, 2] [3] = some m ∧
      m.keysize = 12 ∧ m.size = 20 ∧
      RecordModelOffset (m.keys.getD 0 0) = 0 ∧ RecordModelOffset (m.keys.getD 1 0) = 4 ∧
      RecordModelOffset (m.values.getD 0 0) = 12 := by
  refine ⟨by decide, ?_⟩
  obtain ⟨m, hm, hks, hs, _, _, hk, hv⟩ :=
    schema_layout_is_contiguous (fun d => if d = 1 then 4 else 8) [1, 2] [3]
      (by decide) (by decide) (by decide)
  exact ⟨m, hm, hks, hs, (hk 0 (by decide)).1, (hk 1 (by decide)).1, (hv 0 (by decide)).1⟩

end RecordModel

namespace RecordModel

/-! ## Raw interchange -/

theorem Mem.take_write (m : Mem) (base : Nat) (bs : List Byte) (h : base ≤ m.length) :
    (m.write base bs).take base = m.take base := by
  have hlen : (m.take base).length = base := by
    rw [List.length_take]; omega
  unfold Mem.write
  rw [List.append_assoc, List.take_append_of_le_length (by omega), List.take_of_length_le
    (by omega)]

theorem Mem.drop_write (m : Mem) (base : Nat) (bs : List Byte) (h : base ≤ m.length) :
    (m.write base bs).drop (base + bs.length) = m.drop (base + bs.length) := by
  have hlen : (m.take base ++ bs).length = base + bs.length := by
    rw [List.length_append, List.length_take]; omega
  unfold Mem.write
  rw [← hlen, List.drop_left]

/-- Writing into a buffer the bytes read at a field, and the field of another record from that
buffer, copies the field and nothing else. -/
theorem Mem.write_through_buffer (a b ptr : Mem) (off n : Nat)
    (ha : off + n ≤ a.length) (hb : off + n ≤ b.length) (hp : n ≤ ptr.length) :
    (ptr.write 0 (a.read off n)).read 0 n = a.read off n ∧
    (b.write off ((ptr.write 0 (a.read off n)).read 0 n)).read off n = a.read off n ∧
    (b.write off ((ptr.write 0 (a.read off n)).read 0 n)).take off = b.take off ∧
    (b.write off ((ptr.write 0 (a.read off n)).read 0 n)).drop (off + n) = b.drop (off + n) ∧
    (b.write off ((ptr.write 0 (a.read off n)).read 0 n)).length = b.length := by
  have hl := Mem.read_length a off n ha
  have h1 : (ptr.write 0 (a.read off n)).read 0 n = a.read off n := by
    have := Mem.read_write ptr 0 (a.read off n) (by omega)
    rwa [hl] at this
  rw [h1]
  refine ⟨rfl, ?_, Mem.take_write b off _ (by omega), ?_, Mem.write_length b off _ (by omega)⟩
  · have := Mem.read_write b off (a.read off n) (by omega)
    rwa [hl] at this
  · have := Mem.drop_write b off (a.read off n) (by omega)
    rwa [hl] at this

namespace RM_UInt

theorem copy_to_memory_eq (f : RM_UInt) (a ptr : Mem) (ha : f._offset + f.size ≤ a.length) :
    f.copy_to_memory a ptr = ptr.write 0 (a.read f._offset f.size) := by
  have hl := Mem.read_length a f._offset f.size ha
  have h := leEncode_leDecode (a.read f._offset f.size)
  rw [hl] at h
  unfold copy_to_memory element
  rw [h]

theorem set_from_memory_eq (f : RM_UInt) (a ptr : Mem) (hp : f.size ≤ ptr.length) :
    f.set_from_memory a ptr = a.write f._offset (ptr.read 0 f.size) := by
  have hl := Mem.read_length ptr 0 f.size (by omega)
  have h := leEncode_leDecode (ptr.read 0 f.size)
  rw [hl] at h
  unfold set_from_memory assign deref
  rw [h]

theorem cmp_self (f : RM_UInt) (x : Nat) : f.cmp x x = 0 := by
  unfold cmp
  split_ifs <;> first | rfl | omega

theorem compare_of_read_eq (f : RM_UInt) (a b : Mem)
    (h : a.read f._offset f.size = b.read f._offset f.size) : f.compare a b = 0 := by
  unfold compare element
  rw [h, cmp_self]

end RM_UInt

namespace RM_String

theorem compare_of_read_eq_str (f : RM_String) (a b : Mem) (ha : f._offset + f.size ≤ a.length)
    (hb : f._offset + f.size ≤ b.length)
    (h : a.read f._offset f.size = b.read f._offset f.size) : f.compare a b = 0 := by
  rw [compare_eq f a b ha hb, h, numCompare_self]

end RM_String

/-- C13: raw interchange copies exactly `size()` bytes, for every unsigned-integer and every
string variant.  `copy_to_memory` of a slot into a buffer followed by `set_from_memory` of
that buffer into a second record makes the target slot byte-identical to the source slot (so
`compare` returns `0`) and leaves the bytes of the target outside the field unchanged; and
`set_from_memory` of any `size()` bytes followed by `copy_to_memory` gives those bytes back. -/
theorem raw_interchange_round_trip :
    (∀ (f : RM_UInt) (a b ptr raw : Mem), f._offset + f.size ≤ a.length →
      f._offset + f.size ≤ b.length → f.size ≤ ptr.length → raw.length = f.size →
      (f.copy_to_memory a ptr).read 0 f.size = a.read f._offset f.size ∧
      (f.copy_to_memory a ptr).drop f.size = ptr.drop f.size ∧
      (f.set_from_memory b (f.copy_to_memory a ptr)).read f._offset f.size
        = a.read f._offset f.size ∧
      f.compare (f.set_from_memory b (f.copy_to_memory a ptr)) a = 0 ∧
      (f.set_from_memory b (f.copy_to_memory a ptr)).take f._offset = b.take f._offset ∧
      (f.set_from_memory b (f.copy_to_memory a ptr)).drop (f._offset + f.size)
        = b.drop (f._offset + f.size) ∧
      (f.set_from_memory b (f.copy_to_memory a ptr)).length = b.length ∧
      (f.copy_to_memory (f.set_from_memory a raw) ptr).read 0 f.size = raw) ∧
    (∀ (f : RM_String) (a b ptr raw : Mem), f._offset + f.size ≤ a.length →
      f._offset + f.size ≤ b.length → f.size ≤ ptr.length → raw.length = f.size →
      (f.copy_to_memory a ptr).read 0 f.size = a.read f._offset f.size ∧
      (f.copy_to_memory a ptr).drop f.size = ptr.drop f.size ∧
      (f.set_from_memory b (f.copy_to_memory a ptr)).read f._offset f.size
        = a.read f._offset f.size ∧
      f.compare (f.set_from_memory b (f.copy_to_memory a ptr)) a = 0 ∧
      (f.set_from_memory b (f.copy_to_memory a ptr)).take f._offset = b.take f._offset ∧
      (f.set_from_memory b (f.copy_to_memory a ptr)).drop (f._offset + f.size)
        = b.drop (f._offset + f.size) ∧
      (f.set_from_memory b (f.copy_to_memory a ptr)).length = b.length ∧
      (f.copy_to_memory (f.set_from_memory a raw) ptr).read 0 f.size = raw) := by
  constructor
  · intro f a b ptr raw ha hb hp hraw
    have hla := Mem.read_length a f._offset f.size ha
    have hbuf : (f.copy_to_memory a ptr).length = ptr.length := by
      rw [RM_UInt.copy_to_memory_eq f a ptr ha]
      exact Mem.write_length ptr 0 _ (by omega)
    obtain ⟨h1, h2, h3, h4, h5⟩ :=
      Mem.write_through_buffer a b ptr f._offset f.size ha hb hp
    have hdrop : (f.copy_to_memory a ptr).drop f.size = ptr.drop f.size := by
      have := Mem.drop_write ptr 0 (a.read f._offset f.size) (Nat.zero_le _)
      rw [hla, Nat.zero_add] at this
      rw [RM_UInt.copy_to_memory_eq f a ptr ha]
      exact this
    have hback : (f.copy_to_memory (f.set_from_memory a raw) ptr).read 0 f.size = raw := by
      have hw : (a.write f._offset raw).length = a.length :=
        Mem.write_length a f._offset raw (by omega)
      have hr : (a.write f._offset raw).read f._offset f.size = raw := by
        have := Mem.read_write a f._offset raw (by omega)
        rwa [hraw] at this
      have hr0 : raw.read 0 f.size = raw := by
        unfold Mem.read
        rw [List.drop_zero, List.take_of_length_le (by omega)]
      rw [RM_UInt.set_from_memory_eq f a raw (by omega), hr0,
        RM_UInt.copy_to_memory_eq f _ ptr (by omega), hr]
      have := Mem.read_write ptr 0 raw (by omega)
      rwa [hraw] at this
    rw [RM_UInt.set_from_memory_eq f b _ (by omega), RM_UInt.copy_to_memory_eq f a ptr ha]
    refine ⟨h1, ?_, h2, ?_, h3, h4, h5, hback⟩
    · rw [← RM_UInt.copy_to_memory_eq f a ptr ha]
      exact hdrop
    · exact RM_UInt.compare_of_read_eq f _ a h2
  · intro f a b ptr raw ha hb hp hraw
    have hla := Mem.read_length a f._offset f.size ha
    obtain ⟨h1, h2, h3, h4, h5⟩ :=
      Mem.write_through_buffer a b ptr f._offset f.size ha hb hp
    have hdrop : (ptr.write 0 (a.read f._offset f.size)).drop f.size = ptr.drop f.size := by
      have := Mem.drop_write ptr 0 (a.read f._offset f.size) (Nat.zero_le _)
      rwa [hla, Nat.zero_add] at this
    have hr0 : raw.read 0 f.size = raw := by
      unfold Mem.read
      rw [List.drop_zero, List.take_of_length_le (by omega)]
    have hback : ((a.write f._offset (raw.read 0 f.size)).read f._offset f.size) = raw := by
      rw [hr0]
      have := Mem.read_write a f._offset raw (by omega)
      rwa [hraw] at this
    unfold RM_String.copy_to_memory RM_String.set_from_memory memcpy
    refine ⟨h1, hdrop, h2, ?_, h3, h4, h5, ?_⟩
    · exact RM_String.compare_of_read_eq_str f _ a (by rw [h5]; exact hb) ha h2
    · rw [hback]
      have := Mem.read_write ptr 0 raw (by omega)
      rwa [hraw] at this

/-- A `UInt16` field and a string field of width 2, both at byte 1 of a four-byte record,
copied through a two-byte buffer. -/
theorem raw_interchange_round_trip_witness :
    (RM_UINT16 1 0).set_from_memory [5, 6, 7, 8] ((RM_UINT16 1 0).copy_to_memory [9, 1, 2, 9] [0, 0])
      = [5, 1, 2, 8] ∧
    ((RM_UINT16 1 0).set_from_memory [5, 6, 7, 8]
        ((RM_UINT16 1 0).copy_to_memory [9, 1, 2, 9] [0, 0])).read 1 2 = [1, 2] ∧
    (RM_String.set_from_memory ⟨1, 2⟩ [5, 6, 7, 8]
        (RM_String.copy_to_memory ⟨1, 2⟩ [9, 1, 2, 9] [0, 0])).read 1 2 = [1, 2] ∧
    (RM_String.copy_to_memory ⟨1, 2⟩ (RM_String.set_from_memory ⟨1, 2⟩ [9, 1, 2, 9] [3, 4])
        [0, 0]).read 0 2 = [3, 4] :=
  ⟨by decide,
    (raw_interchange_round_trip.1 (RM_UINT16 1 0) [9, 1, 2, 9] [5, 6, 7, 8] [0, 0] [3, 4]
      (by decide) (by decide) (by decide) (by decide)).2.2.1,
    (raw_interchange_round_trip.2 ⟨1, 2⟩ [9, 1, 2, 9] [5, 6, 7, 8] [0, 0] [3, 4]
      (by decide) (by decide) (by decide) (by decide)).2.2.1,
    (raw_interchange_round_trip.2 ⟨1, 2⟩ [9, 1, 2, 9] [5, 6, 7, 8] [0, 0] [3, 4]
      (by decide) (by decide) (by decide) (by decide)).2.2.2.2.2.2.2⟩

end RecordModel

namespace RecordModel

/-! ## Comparison against raw operands, and `between` on strings -/

theorem lt_cons_iff (x y S T P : Nat) (hS : S < P) (hT : T < P) :
    x * P + S < y * P + T ↔ x < y ∨ (x = y ∧ S < T) := by
  constructor
  · intro h
    by_cases h1 : x < y
    · exact Or.inl h1
    · by_cases h2 : y < x
      · have : y * P + P ≤ x * P := by
          have := Nat.mul_le_mul_right P (Nat.succ_le_of_lt h2)
          rwa [Nat.succ_mul] at this
        omega
      · have hxy : x = y := by omega
        subst hxy
        exact Or.inr ⟨rfl, by omega⟩
  · rintro (h | ⟨h, h'⟩)
    · have : x * P + P ≤ y * P := by
        have := Nat.mul_le_mul_right P (Nat.succ_le_of_lt h)
        rwa [Nat.succ_mul] at this
      omega
    · subst h
      omega

namespace RM_String

/-- The first loop of `between_pointers` returns `-1` exactly when the bytes it scans in `c`
are a smaller big-endian number than those in `l`. -/
theorem between_lower_eq (c : Mem) (cb : Nat) (l : Mem) (lb : Nat) (n : Nat) : ∀ (k : Nat),
    cb + k + n ≤ c.length → lb + k + n ≤ l.length →
    between_lower c cb l lb n k
      = if beDecode (c.read (cb + k) n) < beDecode (l.read (lb + k) n) then some (-1)
        else none := by
  induction n with
  | zero =>
    intro k _ _
    simp [between_lower, Mem.read, beDecode, leDecode]
  | succ n ih =>
    intro k hc hl
    have hlc := Mem.read_length c (cb + k + 1) n (by omega)
    have hll := Mem.read_length l (lb + k + 1) n (by omega)
    have hSc := beDecode_lt (c.read (cb + k + 1) n)
    have hSl := beDecode_lt (l.read (lb + k + 1) n)
    rw [hlc] at hSc
    rw [hll] at hSl
    rw [between_lower, Mem.read_succ c (cb + k) n (by omega), Mem.read_succ l (lb + k) n (by omega),
      beDecode_cons, beDecode_cons, hlc, hll, ih (k + 1) (by omega) (by omega)]
    simp only [Mem.byteAt_eq, lt_cons_iff _ _ _ _ _ hSc hSl]
    have e1 : cb + (k + 1) = cb + k + 1 := rfl
    have e2 : lb + (k + 1) = lb + k + 1 := rfl
    rw [e1, e2]
    split_ifs <;> first | rfl | omega

/-- The second loop of `between_pointers` returns `1` exactly when the bytes it scans in `c`
are a greater big-endian number than those in `r`. -/
theorem between_upper_eq (c : Mem) (cb : Nat) (r : Mem) (rb : Nat) (n : Nat) : ∀ (k : Nat),
    cb + k + n ≤ c.length → rb + k + n ≤ r.length →
    between_upper c cb r rb n k
      = if beDecode (r.read (rb + k) n) < beDecode (c.read (cb + k) n) then some 1
        else none := by
  induction n with
  | zero =>
    intro k _ _
    simp [between_upper, Mem.read, beDecode, leDecode]
  | succ n ih =>
    intro k hc hr
    have hlc := Mem.read_length c (cb + k + 1) n (by omega)
    have hlr := Mem.read_length r (rb + k + 1) n (by omega)
    have hSc := beDecode_lt (c.read (cb + k + 1) n)
    have hSr := beDecode_lt (r.read (rb + k + 1) n)
    rw [hlc] at hSc
    rw [hlr] at hSr
    rw [between_upper, Mem.read_succ c (cb + k) n (by omega), Mem.read_succ r (rb + k) n (by omega),
      beDecode_cons, beDecode_cons, hlc, hlr, ih (k + 1) (by omega) (by omega)]
    simp only [Mem.byteAt_eq, lt_cons_iff _ _ _ _ _ hSr hSc]
    have e1 : cb + (k + 1) = cb + k + 1 := rfl
    have e2 : rb + (k + 1) = rb + k + 1 := rfl
    rw [e1, e2]
    split_ifs <;> first | rfl | omega

/-- The function `between_pointers` on the big-endian numbers `C`, `L`, `R` its three pointers
point at: `-1` when `C < L`, else `1` when `C > R`, else `0`. -/
theorem between_pointers_eq (f : RM_String) (c : Mem) (cb : Nat) (l : Mem) (lb : Nat)
    (r : Mem) (rb : Nat) (hc : cb + f.size ≤ c.length) (hl : lb + f.size ≤ l.length)
    (hr : rb + f.size ≤ r.length) :
    f.between_pointers c cb l lb r rb
      = if beDecode (c.read cb f.size) < beDecode (l.read lb f.size) then -1
        else if beDecode (r.read rb f.size) < beDecode (c.read cb f.size) then 1
        else 0 := by
  unfold between_pointers
  rw [between_lower_eq c cb l lb f.size 0 (by omega) (by omega),
    between_upper_eq c cb r rb f.size 0 (by omega) (by omega)]
  simp only [Nat.add_zero]
  split_ifs <;> rfl

theorem compare_pointers_eq (f : RM_String) (a : Mem) (ab : Nat) (b : Mem) (bb : Nat)
    (ha : ab + f.size ≤ a.length) (hb : bb + f.size ≤ b.length) :
    f.compare_pointers a ab b bb
      = numCompare (beDecode (a.read ab f.size)) (beDecode (b.read bb f.size)) := by
  unfold compare_pointers
  exact compare_loop_eq a ab b bb f.size 0 (by omega) (by omega)

end RM_String

/-- C14: the raw-operand overloads agree with the slot-operand operations, for every
unsigned-integer and every string variant.  When `m` is the raw image of the slot of `b`
that `copy_to_memory` produced, `compare_with_memory(a, m) = compare(a, b)`; when `m` is the
raw image of the slot of `c`, `memory_between(m, l, r) = between(c, l, r)`. -/
theorem raw_operand_overloads_agree :
    (∀ (f : RM_UInt) (a b c l r ptr : Mem), f._offset + f.size ≤ b.length →
      f._offset + f.size ≤ c.length → f.size ≤ ptr.length →
      f.compare_with_memory a (f.copy_to_memory b ptr) = f.compare a b ∧
      f.memory_between (f.copy_to_memory c ptr) l r = f.between c l r) ∧
    (∀ (f : RM_String) (a b c l r ptr : Mem), f._offset + f.size ≤ a.length →
      f._offset + f.size ≤ b.length → f._offset + f.size ≤ c.length →
      f._offset + f.size ≤ l.length → f._offset + f.size ≤ r.length → f.size ≤ ptr.length →
      f.compare_with_memory a (f.copy_to_memory b ptr) = f.compare a b ∧
      f.memory_between (f.copy_to_memory c ptr) l r = f.between c l r) := by
  constructor
  · intro f a b c l r ptr hb hc hp
    have hderef : ∀ x : Mem, f._offset + f.size ≤ x.length →
        f.deref (f.copy_to_memory x ptr) = f.element x := by
      intro x hx
      have hl := Mem.read_length x f._offset f.size hx
      have := Mem.read_write ptr 0 (x.read f._offset f.size) (by omega)
      rw [hl] at this
      unfold RM_UInt.deref
      rw [RM_UInt.copy_to_memory_eq f x ptr hx, this]
      rfl
    unfold RM_UInt.compare_with_memory RM_UInt.memory_between RM_UInt.compare RM_UInt.between
    rw [hderef b hb, hderef c hc]
    exact ⟨rfl, rfl⟩
  · intro f a b c l r ptr ha hb hc hl hr hp
    have himg : ∀ x : Mem, f._offset + f.size ≤ x.length →
        (f.copy_to_memory x ptr).read 0 f.size = x.read f._offset f.size ∧
        0 + f.size ≤ (f.copy_to_memory x ptr).length := by
      intro x hx
      have hlx := Mem.read_length x f._offset f.size hx
      have h1 := Mem.read_write ptr 0 (x.read f._offset f.size) (by omega)
      have h2 := Mem.write_length ptr 0 (x.read f._offset f.size) (by omega)
      rw [hlx] at h1
      unfold RM_String.copy_to_memory memcpy
      exact ⟨h1, by omega⟩
    unfold RM_String.compare_with_memory RM_String.memory_between RM_String.compare
      RM_String.between
    rw [RM_String.compare_pointers_eq f a _ _ 0 ha (himg b hb).2,
      RM_String.compare_pointers_eq f a _ b _ ha hb,
      RM_String.between_pointers_eq f _ 0 l _ r _ (himg c hc).2 hl hr,
      RM_String.between_pointers_eq f c _ l _ r _ hc hl hr, (himg b hb).1, (himg c hc).1]
    exact ⟨rfl, rfl⟩

/-- A `UInt16` field and a string field of width 2 at byte 1, compared against the raw image
of another record's slot. -/
theorem raw_operand_overloads_agree_witness :
    ((RM_UINT16 1 0).compare_with_memory [9, 1, 2, 9] ((RM_UINT16 1 0).copy_to_memory
        [9, 3, 2, 9] [0, 0]) = (RM_UINT16 1 0).compare [9, 1, 2, 9] [9, 3, 2, 9] ∧
      (RM_UINT16 1 0).memory_between ((RM_UINT16 1 0).copy_to_memory [9, 3, 2, 9] [0, 0])
        [9, 1, 2, 9] [9, 5, 2, 9]
        = (RM_UINT16 1 0).between [9, 3, 2, 9] [9, 1, 2, 9] [9, 5, 2, 9]) ∧
    (RM_String.compare_with_memory ⟨1, 2⟩ [9, 1, 2, 9] (RM_String.copy_to_memory ⟨1, 2⟩
        [9, 3, 2, 9] [0, 0]) = RM_String.compare ⟨1, 2⟩ [9, 1, 2, 9] [9, 3, 2, 9] ∧
      RM_String.memory_between ⟨1, 2⟩ (RM_String.copy_to_memory ⟨1, 2⟩ [9, 3, 2, 9] [0, 0])
        [9, 1, 2, 9] [9, 5, 2, 9]
        = RM_String.between ⟨1, 2⟩ [9, 3, 2, 9] [9, 1, 2, 9] [9, 5, 2, 9]) :=
  ⟨raw_operand_overloads_agree.1 (RM_UINT16 1 0) [9, 1, 2, 9] [9, 3, 2, 9] [9, 3, 2, 9]
      [9, 1, 2, 9] [9, 5, 2, 9] [0, 0] (by decide) (by decide) (by decide),
    raw_operand_overloads_agree.2 ⟨1, 2⟩ [9, 1, 2, 9] [9, 3, 2, 9] [9, 3, 2, 9]
      [9, 1, 2, 9] [9, 5, 2, 9] [0, 0] (by decide) (by decide) (by decide) (by decide)
      (by decide) (by decide)⟩

end RecordModel

namespace RecordModel

/-! ## Order of string fields -/

theorem numCompare_eq_neg_one_iff (x y : Nat) : numCompare x y = -1 ↔ x < y := by
  unfold numCompare
  split_ifs <;> simp <;> omega

theorem numCompare_eq_one_iff (x y : Nat) : numCompare x y = 1 ↔ y < x := by
  unfold numCompare
  split_ifs <;> simp <;> omega

theorem numCompare_nonneg_iff (x y : Nat) : numCompare x y ≥ 0 ↔ y ≤ x := by
  unfold numCompare
  split_ifs <;> simp <;> omega

theorem numCompare_nonpos_iff (x y : Nat) : numCompare x y ≤ 0 ↔ x ≤ y := by
  unfold numCompare
  split_ifs <;> simp <;> omega

/-- Byte-lexicographic order of two strings of one length is the order of their big-endian
numbers. -/
theorem lexCompare_eq (s : List Byte) : ∀ (t : List Byte), s.length = t.length →
    lexCompare s t = numCompare (beDecode s) (beDecode t) := by
  induction s with
  | nil =>
    intro t ht
    have : t = [] := List.length_eq_zero.1 ht.symm
    subst this
    rfl
  | cons x s ih =>
    intro t ht
    match t, ht with
    | y :: t, ht =>
      have hlen : s.length = t.length := by
        simp only [List.length_cons] at ht
        omega
      have hS := beDecode_lt s
      have hT := beDecode_lt t
      rw [← hlen] at hT
      rw [lexCompare, beDecode_cons, beDecode_cons, ← hlen,
        RM_String.numCompare_cons _ _ _ _ _ hS hT, ih t hlen]

namespace RM_String

theorem compare_eq_lex (f : RM_String) (a b : Mem) (ha : f._offset + f.size ≤ a.length)
    (hb : f._offset + f.size ≤ b.length) :
    f.compare a b = lexCompare (a.read f._offset f.size) (b.read f._offset f.size) := by
  rw [compare_eq f a b ha hb, lexCompare_eq _ _
    (by rw [Mem.read_length a _ _ ha, Mem.read_length b _ _ hb])]

end RM_String

/-- C19: for every string variant and all slots `c`, `l`, `r`, `between(c, l, r)` returns
`-1` exactly when `compare(c, l) = -1`, returns `1` exactly when `compare(c, l) >= 0` and
`compare(c, r) = 1`, and returns `0` otherwise, `compare` being the unsigned
byte-lexicographic comparison; so it returns `0` whenever `l <= c <= r` lexicographically. -/
theorem string_between_by_compare (f : RM_String) (c l r : Mem)
    (hc : f._offset + f.size ≤ c.length) (hl : f._offset + f.size ≤ l.length)
    (hr : f._offset + f.size ≤ r.length) :
    (f.between c l r = -1 ↔ f.compare c l = -1) ∧
    (f.between c l r = 1 ↔ f.compare c l ≥ 0 ∧ f.compare c r = 1) ∧
    (f.between c l r = 0 ↔ ¬ (f.compare c l = -1) ∧ ¬ (f.compare c l ≥ 0 ∧ f.compare c r = 1)) ∧
    f.compare c l = lexCompare (c.read f._offset f.size) (l.read f._offset f.size) ∧
    f.compare c r = lexCompare (c.read f._offset f.size) (r.read f._offset f.size) ∧
    (lexCompare (l.read f._offset f.size) (c.read f._offset f.size) ≤ 0 ∧
      lexCompare (c.read f._offset f.size) (r.read f._offset f.size) ≤ 0 →
      f.between c l r = 0) := by
  have hlenc := Mem.read_length c f._offset f.size hc
  have hlenl := Mem.read_length l f._offset f.size hl
  have hlenr := Mem.read_length r f._offset f.size hr
  have hb : f.between c l r
      = if beDecode (c.read f._offset f.size) < beDecode (l.read f._offset f.size) then -1
        else if beDecode (r.read f._offset f.size) < beDecode (c.read f._offset f.size) then 1
        else 0 := RM_String.between_pointers_eq f c _ l _ r _ hc hl hr
  have x_cl := lexCompare_eq (c.read f._offset f.size) (l.read f._offset f.size)
    (by rw [hlenl, hlenc])
  have x_cr := lexCompare_eq (c.read f._offset f.size) (r.read f._offset f.size)
    (by rw [hlenc, hlenr])
  have x_lc := lexCompare_eq (l.read f._offset f.size) (c.read f._offset f.size)
    (by rw [hlenl, hlenc])
  rw [x_cl, x_cr, x_lc, RM_String.compare_eq f c l hc hl, RM_String.compare_eq f c r hc hr, hb,
    numCompare_eq_neg_one_iff, numCompare_eq_one_iff, numCompare_nonneg_iff,
    numCompare_nonpos_iff, numCompare_nonpos_iff]
  generalize beDecode (c.read f._offset f.size) = C
  generalize beDecode (l.read f._offset f.size) = L
  generalize beDecode (r.read f._offset f.size) = R
  refine ⟨?_, ?_, ?_, rfl, rfl, ?_⟩ <;> split_ifs <;> simp <;> omega

/-- A string field of width 2 at byte 1: `01 80` lies between `01 00` and `01 FF`, and below
`02 00`. -/
theorem string_between_by_compare_witness :
    RM_String.between ⟨1, 2⟩ [9, 1, 128, 9] [9, 1, 0, 9] [9, 1, 255, 9] = 0 ∧
    RM_String.between ⟨1, 2⟩ [9, 1, 128, 9] [9, 2, 0, 9] [9, 2, 255, 9] = -1 :=
  ⟨(string_between_by_compare ⟨1, 2⟩ [9, 1, 128, 9] [9, 1, 0, 9] [9, 1, 255, 9] (by decide)
      (by decide) (by decide)).2.2.2.2.2 (by decide),
    (string_between_by_compare ⟨1, 2⟩ [9, 1, 128, 9] [9, 2, 0, 9] [9, 2, 255, 9] (by decide)
      (by decide) (by decide)).1.2 (by decide)⟩

/-- C20: for every string variant and every slot value `x` that is not all `0xFF`, `inc` moves
`x` to its immediate successor: the big-endian number of the slot grows by one, and no slot
value `y` has `compare(x, y) = -1` and `compare(y, inc x) = -1`. -/
theorem string_inc_is_successor (f : RM_String) (x : Mem)
    (hx : f._offset + f.size ≤ x.length)
    (hns : x.read f._offset f.size ≠ List.replicate f.size (Byte.ofNat 0xFF)) :
    beDecode ((f.inc x).read f._offset f.size) = beDecode (x.read f._offset f.size) + 1 ∧
    ¬ ∃ y : Mem, f._offset + f.size ≤ y.length ∧
      f.compare x y = -1 ∧ f.compare y (f.inc x) = -1 := by
  have hlen := Mem.read_length x f._offset f.size hx
  have hlt := beDecode_lt_ones _ _ hlen hns
  have hinc : beDecode ((f.inc x).read f._offset f.size)
      = beDecode (x.read f._offset f.size) + 1 := by
    rw [RM_String.read_inc f x hx, beDecode_beEncode, Nat.mod_eq_of_lt hlt]
  refine ⟨hinc, ?_⟩
  rintro ⟨y, hy, h1, h2⟩
  rw [RM_String.compare_eq f x y hx hy, numCompare_eq_neg_one_iff] at h1
  rw [RM_String.compare_eq f y _ hy (by rw [RM_String.inc_length f x hx]; exact hx), hinc,
    numCompare_eq_neg_one_iff] at h2
  omega

/-- The string `01 FF` in a field of width 2 at byte 1 becomes `02 00`: 511 becomes 512. -/
theorem string_inc_is_successor_witness :
    beDecode ((RM_String.inc ⟨1, 2⟩ [9, 1, 255, 9]).read 1 2) = 512 ∧
    (RM_String.inc ⟨1, 2⟩ [9, 1, 255, 9]) = [9, 2, 0, 9] :=
  ⟨(string_inc_is_successor ⟨1, 2⟩ [9, 1, 255, 9] (by decide) (by decide)).1, by decide⟩

end RecordModel

namespace RecordModel

/-! ## Failed calls of `set_from_string` -/

/-- A failed `set_from_string` of an unsigned-integer field of any class changes no byte of
the record. -/
theorem uint_from_text_failure_keeps_record (f : RM_UInt) (a : Mem) (s : List Char)
    (h : (f.set_from_string a s).1 ≠ RM_ERR_OK) : (f.set_from_string a s).2 = a := by
  have hset : ∀ v : Nat, (f._set_uint a v).1 ≠ RM_ERR_OK → (f._set_uint a v).2 = a := by
    intro v hv
    unfold RM_UInt._set_uint at hv ⊢
    split_ifs at hv ⊢
    · exact absurd rfl hv
    · rfl
  unfold RM_UInt.set_from_string at h ⊢
  cases hk : f.kind <;> simp only [hk] at h ⊢ <;> split_ifs at h ⊢ <;>
    first | rfl | exact hset _ h

/-- A failed `set_from_string` of a FixedString field changes no byte of the record. -/
theorem fixed_string_failure_keeps_record (f : RM_String) (a : Mem) (s : List Char)
    (h : (RM_STR.set_from_string f a s).1 ≠ RM_ERR_OK) : (RM_STR.set_from_string f a s).2 = a := by
  unfold RM_STR.set_from_string RM_STR.parse_string at h ⊢
  split_ifs at h ⊢
  · rfl
  · exact absurd rfl h

/-- A `set_from_string` of a HexString field that fails for the length of the text changes no
byte of the record. -/
theorem hex_size_failure_keeps_record (f : RM_String) (a : Mem) (s : List Char)
    (h : (RM_HEXSTR.set_from_string f a s).1 = RM_ERR_HEX_INV_SIZE) :
    (RM_HEXSTR.set_from_string f a s).2 = a := by
  unfold RM_HEXSTR.set_from_string RM_HEXSTR.parse_hexstring at h ⊢
  split_ifs at h ⊢ with hlen
  · rfl
  · rw [RM_HEXSTR.parse_hexstring_loop_code] at h
    split_ifs at h <;> exact absurd h (by decide)

/-- C15 (the code at the failing input): a HexString field of width 2 at byte 1 that holds
`03 04` is handed the text `abg`.  `set_from_string` returns `RM_ERR_HEX_INV_DIGIT`, and the
field holds `0A 0B` afterwards; handed the text `g` it holds `00 00` afterwards. -/
theorem hex_from_text_failure_overwrites_slot :
    RM_HEXSTR.set_from_string ⟨1, 2⟩ [9, 3, 4, 9] "abg".toList
      = (RM_ERR_HEX_INV_DIGIT, [9, 10, 11, 9]) ∧
    RM_HEXSTR.set_from_string ⟨1, 2⟩ [9, 3, 4, 9] "g".toList
      = (RM_ERR_HEX_INV_DIGIT, [9, 0, 0, 9]) := by
  decide

/-! ## Addition -/

/-- C16: for every unsigned-integer variant of byte width `w`, with the destination holding
`d` and the source, in another record, holding `s`: after `add(dst, src)` the destination
holds `(d + s) mod 2^(8w)`.  `add` writes through `dst` only, so the source record is the
same value as before and still holds `s`. -/
theorem uint_add_wraps (f : RM_UInt) (dst src : Mem) (d s : Nat)
    (hdst : f._offset + f.size ≤ dst.length) (hd : f.element dst = d)
    (hs : f.element src = s) :
    f.element (f.add dst src) = (d + s) % 2 ^ (8 * f.size) ∧ f.element src = s := by
  unfold RM_UInt.add
  rw [RM_UInt.element_assign f dst _ hdst, Nat.mod_mod, hd, hs]
  exact ⟨rfl, rfl⟩

/-- Two `UInt32` fields holding 5 and 7 add up to 12, and two `UInt8` fields holding 200 and
100 wrap to 44. -/
theorem uint_add_wraps_witness :
    (RM_UINT32 0 0).element ((RM_UINT32 0 0).add [5, 0, 0, 0] [7, 0, 0, 0]) = 12 ∧
    (RM_UINT8 1 0).element ((RM_UINT8 1 0).add [9, 200] [9, 100]) = 44 :=
  ⟨(uint_add_wraps (RM_UINT32 0 0) [5, 0, 0, 0] [7, 0, 0, 0] 5 7 (by decide) (by decide)
      (by decide)).1,
    (uint_add_wraps (RM_UINT8 1 0) [9, 200] [9, 100] 200 100 (by decide) (by decide)
      (by decide)).1⟩

end RecordModel

namespace RecordModel

/-! ## Error codes of `set_from_string` on unsigned integers -/

namespace RM_Conversion

theorem str_to_uint_step_digit (v : Nat) (err : Int) (c : Char) (hc : isDecDigit c = true) :
    str_to_uint_step (v, err) c = ((v * 10 + (c.toNat - 48)) % 2 ^ 64, err) := by
  have hc := (isDecDigit_iff c).1 hc
  simp only [str_to_uint_step, char_zero, char_nine, hc, and_self, if_true]
  rw [Nat.mod_add_mod]

theorem str_to_uint_step_other (v : Nat) (err : Int) (c : Char) (hc : ¬ isDecDigit c = true) :
    str_to_uint_step (v, err) c = (v, RM_ERR_INT_INV) := by
  have hc : ¬ (48 ≤ c.toNat ∧ c.toNat ≤ 57) := fun h => hc ((isDecDigit_iff c).2 h)
  simp only [str_to_uint_step, char_zero, char_nine, hc, if_false]

/-- The error code of the loop of `str_to_uint`. -/
theorem str_to_uint_loop_code (s : List Char) : ∀ (v : Nat) (err : Int),
    (s.foldl str_to_uint_step (v, err)).2
      = if ∀ c ∈ s, isDecDigit c = true then err else RM_ERR_INT_INV := by
  induction s with
  | nil =>
    intro v err
    simp
  | cons c s ih =>
    intro v err
    by_cases hc : isDecDigit c = true
    · rw [List.foldl_cons, str_to_uint_step_digit v err c hc, ih]
      simp [hc]
    · rw [List.foldl_cons, str_to_uint_step_other v err c hc, ih]
      simp [hc]

/-- The value of the loop of `str_to_uint` on a run of digits: their number modulo `2^64`. -/
theorem str_to_uint_loop_value (s : List Char) (hd : ∀ c ∈ s, isDecDigit c = true) :
    ∀ (v : Nat) (err : Int), v < 2 ^ 64 →
      (s.foldl str_to_uint_step (v, err)).1 = (v * 10 ^ s.length + decimalValue s) % 2 ^ 64 := by
  induction s with
  | nil =>
    intro v err hv
    rw [List.foldl_nil, List.length_nil, pow_zero, Nat.mul_one, decimalValue_nil, Nat.add_zero,
      Nat.mod_eq_of_lt hv]
  | cons c s ih =>
    intro v err _
    have hc := hd c (List.mem_cons_self c s)
    rw [List.foldl_cons, str_to_uint_step_digit v err c hc,
      ih (fun x hx => hd x (List.mem_cons_of_mem c hx)) _ _ (Nat.mod_lt _ (by decide))]
    simp only [decimalValue_cons, List.length_cons]
    rw [Nat.add_mod, Nat.mod_mul_mod, ← Nat.add_mod]
    ring_nf

theorem str_to_uint_code (s : List Char) :
    (str_to_uint s).2 = if ∀ c ∈ s, isDecDigit c = true then RM_ERR_OK else RM_ERR_INT_INV :=
  str_to_uint_loop_code s 0 RM_ERR_OK

theorem str_to_uint_value (s : List Char) (hd : ∀ c ∈ s, isDecDigit c = true) :
    (str_to_uint s).1 = decimalValue s % 2 ^ 64 := by
  unfold str_to_uint
  rw [str_to_uint_loop_value s hd 0 RM_ERR_OK (by decide), Nat.zero_mul, Nat.zero_add]

theorem str_to_uint2_step_other (v : Nat) (pd err : Int) (c : Char)
    (hc : ¬ isDecDigit c = true) (hp : c ≠ '.') :
    str_to_uint2_step (v, pd, err) c = (v, pd, RM_ERR_INT_INV) := by
  have hc : ¬ (48 ≤ c.toNat ∧ c.toNat ≤ 57) := fun h => hc ((isDecDigit_iff c).2 h)
  simp only [str_to_uint2_step, char_zero, char_nine, hc, if_false, hp]

theorem str_to_uint2_step_point (v : Nat) (pd err : Int) :
    str_to_uint2_step (v, pd, err) '.'
      = if pd < 0 then (v, 0, err) else (v, pd, RM_ERR_INT_INV) := by
  have h : ¬ ('0'.toNat ≤ '.'.toNat ∧ '.'.toNat ≤ '9'.toNat) := by decide
  simp only [str_to_uint2_step, h, if_false, if_true]

theorem point_is_no_digit : isDecDigit '.' = false := by decide

/-- The error code of the first loop of `str_to_uint2`: `err` stays as it is while the text
holds digits and at most one point in all (`post_digits >= 0` counts as a point read). -/
theorem str_to_uint2_loop_code (s : List Char) : ∀ (v : Nat) (pd err : Int),
    (s.foldl str_to_uint2_step (v, pd, err)).2.2
      = if (∀ c ∈ s, isDecDigit c = true ∨ c = '.')
            ∧ s.count '.' + (if pd < 0 then 0 else 1) ≤ 1
        then err else RM_ERR_INT_INV := by
  induction s with
  | nil =>
    intro v pd err
    by_cases hp : pd < 0 <;> simp [hp]
  | cons c s ih =>
    intro v pd err
    by_cases hc : isDecDigit c = true
    · have hne : c ≠ '.' := by
        intro h
        rw [h, point_is_no_digit] at hc
        exact absurd hc (by decide)
      have hpd : ((if pd ≥ 0 then pd + 1 else pd) < 0) ↔ pd < 0 := by
        split_ifs <;> omega
      rw [List.foldl_cons, str_to_uint2_step_digit v pd err c hc, ih,
        List.count_cons_of_ne (Ne.symm hne)]
      simp only [List.mem_cons, forall_eq_or_imp, hc, true_or, true_and, hpd]
    · by_cases hp : c = '.'
      · subst hp
        rw [List.foldl_cons, str_to_uint2_step_point, List.count_cons_self]
        by_cases hneg : pd < 0
        · rw [if_pos hneg, ih]
          simp only [List.mem_cons, forall_eq_or_imp, or_true, true_and, hneg, if_true]
          have : ¬ ((0 : Int) < 0) := by decide
          simp only [this, if_false, Nat.add_zero]
        · rw [if_neg hneg, ih]
          have hfalse : ¬ (List.count '.' s + 1 + (if pd < 0 then 0 else 1) ≤ 1) := by
            rw [if_neg hneg]; omega
          simp only [hfalse, and_false, if_false, ite_self]
      · rw [List.foldl_cons, str_to_uint2_step_other v pd err c hc hp, ih]
        have hfalse : ¬ (∀ x ∈ c :: s, isDecDigit x = true ∨ x = '.') := by
          intro h
          rcases h c (List.mem_cons_self c s) with h1 | h1
          · exact hc h1
          · exact hp h1
        simp only [hfalse, false_and, if_false, ite_self]

theorem str_to_uint2_step_lt (st : Nat × Int × Int) (c : Char) (h : st.1 < 2 ^ 64) :
    (str_to_uint2_step st c).1 < 2 ^ 64 := by
  unfold str_to_uint2_step
  split_ifs <;> first | exact Nat.mod_lt _ (by decide) | exact h

theorem str_to_uint2_loop_lt (s : List Char) : ∀ (st : Nat × Int × Int), st.1 < 2 ^ 64 →
    (s.foldl str_to_uint2_step st).1 < 2 ^ 64 := by
  induction s with
  | nil =>
    intro st h
    exact h
  | cons c s ih =>
    intro st h
    rw [List.foldl_cons]
    exact ih _ (str_to_uint2_step_lt st c h)

/-- The value `str_to_uint2` returns fits 64 bits. -/
theorem str_to_uint2_lt (s : List Char) (precision : Int) :
    (str_to_uint2 s precision).1 < 2 ^ 64 := by
  have h0 := str_to_uint2_loop_lt s (0, -1, RM_ERR_OK) (by decide)
  unfold str_to_uint2
  simp only
  rw [scale_down_eq, scale_up_eq _ _ h0]
  exact lt_of_le_of_lt (Nat.div_le_self _ _) (Nat.mod_lt _ (by decide))

theorem str_to_uint2_code (s : List Char) (precision : Int) :
    (str_to_uint2 s precision).2
      = if (∀ c ∈ s, isDecDigit c = true ∨ c = '.') ∧ s.count '.' ≤ 1
        then RM_ERR_OK else RM_ERR_INT_INV := by
  have h := str_to_uint2_loop_code s 0 (-1) RM_ERR_OK
  have hneg : ((-1 : Int) < 0) := by decide
  simp only [hneg, if_true, Nat.add_zero] at h
  unfold str_to_uint2
  exact h

end RM_Conversion

end RecordModel

namespace RecordModel

namespace RM_UInt

theorem set_from_string_plain (f : RM_UInt) (a : Mem) (s : List Char)
    (hk : f.kind ≠ UIntKind.TIMESTAMP ∧ f.kind ≠ UIntKind.TIMESTAMP_DESC) :
    f.set_from_string a s
      = if (RM_Conversion.str_to_uint s).2 ≠ 0 then ((RM_Conversion.str_to_uint s).2, a)
        else f._set_uint a (RM_Conversion.str_to_uint s).1 := by
  unfold set_from_string
  cases h : f.kind
  · rfl
  · rfl
  · rfl
  · rfl
  · exact absurd h hk.1
  · exact absurd h hk.2

/-- The code `_set_uint` returns. -/
theorem _set_uint_code (f : RM_UInt) (a : Mem) (v : Nat) :
    (f._set_uint a v).1 = if v ≤ 2 ^ (8 * f.size) - 1 then RM_ERR_OK else RM_ERR_INT_RANGE := by
  by_cases h : v ≤ 2 ^ (8 * f.size) - 1
  · rw [if_pos h, _set_uint_ok f a v h]
  · rw [if_neg h, _set_uint_range f a v (by unfold NT_max; omega)]

end RM_UInt

theorem not_all_digits_iff (s : List Char) :
    (¬ ∀ c ∈ s, isDecDigit c = true) ↔ ∃ c ∈ s, isDecDigit c = false := by
  constructor
  · intro h
    by_contra hne
    apply h
    intro c hc
    by_contra hcf
    exact hne ⟨c, hc, by simpa using hcf⟩
  · rintro ⟨c, hc, hf⟩ hall
    rw [hall c hc] at hf
    exact absurd hf (by decide)

/-- A text fails the test of `str_to_uint2` when it holds a character that is neither a digit
nor a point, or two points. -/
theorem not_timestamp_text_iff (s : List Char) :
    (¬ ((∀ c ∈ s, isDecDigit c = true ∨ c = '.') ∧ s.count '.' ≤ 1))
      ↔ (∃ c ∈ s, isDecDigit c = false ∧ c ≠ '.') ∨ s.count '.' ≥ 2 := by
  constructor
  · intro h
    by_cases hcount : s.count '.' ≥ 2
    · exact Or.inr hcount
    · left
      by_contra hne
      apply h
      refine ⟨fun c hc => ?_, by omega⟩
      by_contra hcf
      rw [not_or] at hcf
      exact hne ⟨c, hc, by simpa using hcf.1, hcf.2⟩
  · rintro (⟨c, hc, hf, hp⟩ | hcount) ⟨hall, hle⟩
    · rcases hall c hc with h1 | h1
      · rw [h1] at hf
        exact absurd hf (by decide)
      · exact hp h1
    · omega

/-- C17 (as stated, refuted): the text `256` has only digits, and `set_from_string` on a
`UInt8` field returns `RM_ERR_INT_RANGE` for it; the text `1.5` has a character outside
`0`..`9`, and `set_from_string` on a Timestamp field returns `RM_ERR_OK` for it. -/
theorem uint_from_text_returns_range_error :
    (∀ c ∈ "256".toList, isDecDigit c = true) ∧
    (RM_UINT8 0 0).set_from_string [0] "256".toList = (RM_ERR_INT_RANGE, [0]) ∧
    (∃ c ∈ "1.5".toList, isDecDigit c = false) ∧
    ((RM_TIMESTAMP 0 0).set_from_string (List.replicate 8 0) "1.5".toList).1 = RM_ERR_OK := by
  decide

/-- C17 (amended): for `UInt8/16/32/64` and every text, `set_from_string` returns
`RM_ERR_INT_INV` exactly when the text holds a character outside `0`..`9`; for a text of
digits it returns `RM_ERR_INT_RANGE` exactly when the value read, the number of the text
modulo `2^64`, is above `2^(8w) - 1`, and `RM_ERR_OK` otherwise.  For the two Timestamp
variants it returns `RM_ERR_INT_INV` exactly when the text holds a character that is neither a
digit nor a point, or more than one point, and `RM_ERR_OK` otherwise.  No variant of width 8
returns `RM_ERR_INT_RANGE`. -/
theorem uint_from_text_error_codes (f : RM_UInt) (a : Mem) (s : List Char) :
    ((f.kind ≠ UIntKind.TIMESTAMP ∧ f.kind ≠ UIntKind.TIMESTAMP_DESC) →
      ((f.set_from_string a s).1 = RM_ERR_INT_INV ↔ ∃ c ∈ s, isDecDigit c = false) ∧
      ((∀ c ∈ s, isDecDigit c = true) →
        ((f.set_from_string a s).1 = RM_ERR_INT_RANGE
          ↔ decimalValue s % 2 ^ 64 > 2 ^ (8 * f.size) - 1) ∧
        ((f.set_from_string a s).1 = RM_ERR_OK
          ↔ decimalValue s % 2 ^ 64 ≤ 2 ^ (8 * f.size) - 1))) ∧
    ((f.kind = UIntKind.TIMESTAMP ∨ f.kind = UIntKind.TIMESTAMP_DESC) →
      ((f.set_from_string a s).1 = RM_ERR_INT_INV
        ↔ (∃ c ∈ s, isDecDigit c = false ∧ c ≠ '.') ∨ s.count '.' ≥ 2) ∧
      ((f.set_from_string a s).1 = RM_ERR_OK
        ↔ ¬ ((∃ c ∈ s, isDecDigit c = false ∧ c ≠ '.') ∨ s.count '.' ≥ 2))) ∧
    (f.size = 8 → (f.set_from_string a s).1 ≠ RM_ERR_INT_RANGE) := by
  have hinv : RM_ERR_INT_INV ≠ 0 := by decide
  have hok : ¬ (RM_ERR_OK ≠ 0) := by decide
  have plain : (f.kind ≠ UIntKind.TIMESTAMP ∧ f.kind ≠ UIntKind.TIMESTAMP_DESC) →
      (f.set_from_string a s).1
        = if ∀ c ∈ s, isDecDigit c = true then
            (if decimalValue s % 2 ^ 64 ≤ 2 ^ (8 * f.size) - 1 then RM_ERR_OK
              else RM_ERR_INT_RANGE)
          else RM_ERR_INT_INV := by
    intro hk
    rw [RM_UInt.set_from_string_plain f a s hk, RM_Conversion.str_to_uint_code]
    by_cases hall : ∀ c ∈ s, isDecDigit c = true
    · rw [if_pos hall, if_pos hall, if_neg hok, RM_UInt._set_uint_code,
        RM_Conversion.str_to_uint_value s hall]
    · rw [if_neg hall, if_neg hall, if_pos hinv]
  have stamp : (f.kind = UIntKind.TIMESTAMP ∨ f.kind = UIntKind.TIMESTAMP_DESC) →
      (f.set_from_string a s).1
        = if (∀ c ∈ s, isDecDigit c = true ∨ c = '.') ∧ s.count '.' ≤ 1 then RM_ERR_OK
          else RM_ERR_INT_INV := by
    intro hk
    have hlt := RM_Conversion.str_to_uint2_lt s 3
    have hmax : (RM_Conversion.str_to_uint2 s 3).1 ≤ f.NT_max := by
      rw [RM_UInt.NT_max_timestamp f hk]
      omega
    rw [RM_UInt.set_from_string_timestamp f a s hk, RM_Conversion.str_to_uint2_code]
    by_cases hgood : (∀ c ∈ s, isDecDigit c = true ∨ c = '.') ∧ s.count '.' ≤ 1
    · rw [if_pos hgood, if_neg hok, RM_UInt._set_uint_ok f a _ hmax]
    · rw [if_neg hgood, if_pos hinv]
  have hOKne : RM_ERR_OK ≠ RM_ERR_INT_INV := by decide
  have hRne : RM_ERR_INT_RANGE ≠ RM_ERR_INT_INV := by decide
  have hORne : RM_ERR_OK ≠ RM_ERR_INT_RANGE := by decide
  refine ⟨fun hk => ?_, fun hk => ?_, fun h8 => ?_⟩
  · rw [plain hk, ← not_all_digits_iff]
    constructor
    · by_cases hall : ∀ c ∈ s, isDecDigit c = true
      · rw [if_pos hall]
        split_ifs
        · exact ⟨fun h => absurd h hOKne, fun h => absurd hall h⟩
        · exact ⟨fun h => absurd h hRne, fun h => absurd hall h⟩
      · rw [if_neg hall]
        exact ⟨fun _ => hall, fun _ => rfl⟩
    · intro hall
      rw [if_pos hall]
      split_ifs with hle
      · exact ⟨⟨fun h => absurd h hORne, fun h => absurd hle (by omega)⟩,
          ⟨fun _ => hle, fun _ => rfl⟩⟩
      · exact ⟨⟨fun _ => by omega, fun _ => rfl⟩,
          ⟨fun h => absurd h.symm hORne, fun h => absurd h hle⟩⟩
  · rw [stamp hk, ← not_timestamp_text_iff, not_not]
    by_cases hgood : (∀ c ∈ s, isDecDigit c = true ∨ c = '.') ∧ s.count '.' ≤ 1
    · rw [if_pos hgood]
      exact ⟨⟨fun h => absurd h hOKne, fun h => absurd hgood h⟩, ⟨fun _ => hgood, fun _ => rfl⟩⟩
    · rw [if_neg hgood]
      exact ⟨⟨fun _ => hgood, fun _ => rfl⟩, ⟨fun h => absurd h.symm hOKne, fun h => absurd h hgood⟩⟩
  · by_cases hk : f.kind = UIntKind.TIMESTAMP ∨ f.kind = UIntKind.TIMESTAMP_DESC
    · rw [stamp hk]
      split_ifs
      · exact hORne
      · exact hRne.symm
    · rw [not_or] at hk
      have hmod : decimalValue s % 2 ^ 64 < 2 ^ 64 := Nat.mod_lt _ (by decide)
      rw [plain hk, h8]
      split_ifs with h1 h2
      · exact hORne
      · exact absurd (by omega) h2
      · exact hRne.symm

/-- A `UInt8` field: `25x` has a bad character, `256` is out of range, `255` is stored; a
Timestamp field refuses a second point. -/
theorem uint_from_text_error_codes_witness :
    ((RM_UINT8 0 0).set_from_string [0] "25x".toList).1 = RM_ERR_INT_INV ∧
    ((RM_UINT8 0 0).set_from_string [0] "256".toList).1 = RM_ERR_INT_RANGE ∧
    ((RM_UINT8 0 0).set_from_string [0] "255".toList).1 = RM_ERR_OK ∧
    ((RM_TIMESTAMP 0 0).set_from_string (List.replicate 8 0) "1..5".toList).1
      = RM_ERR_INT_INV :=
  ⟨((uint_from_text_error_codes (RM_UINT8 0 0) [0] "25x".toList).1 (by decide)).1.2
      ⟨'x', by decide, by decide⟩,
    (((uint_from_text_error_codes (RM_UINT8 0 0) [0] "256".toList).1 (by decide)).2
      (by decide)).1.2 (by decide),
    (((uint_from_text_error_codes (RM_UINT8 0 0) [0] "255".toList).1 (by decide)).2
      (by decide)).2.2 (by decide),
    ((uint_from_text_error_codes (RM_TIMESTAMP 0 0) (List.replicate 8 0)
      "1..5".toList).2.1 (Or.inl rfl)).1.2 (Or.inr (by decide))⟩

end RecordModel

namespace RecordModel

/-! ## Default values -/

theorem leEncode_zero (w : Nat) : leEncode w 0 = List.replicate w (Byte.ofNat 0) := by
  induction w with
  | zero => rfl
  | succ w ih => rw [leEncode, Nat.zero_div, ih, List.replicate_succ]

theorem Mem.write_append (pre rest bs : Mem) (off : Nat) (hpre : pre.length = off) :
    Mem.write (pre ++ rest) off bs = (pre ++ bs) ++ rest.drop bs.length := by
  unfold Mem.write
  subst hpre
  rw [List.take_left, List.drop_append]

namespace RM_Type

/-- A field whose constructor default is 0 (every string field, and an unsigned-integer field
constructed with 0) gets zero bytes written over its slot by `set_default`. -/
theorem set_default_zero (t : RM_Type) (a : Mem)
    (hz : ∀ g, t = RM_Type.uint g → g._default = 0) :
    t.set_default a = a.write t.offset (List.replicate t.size (Byte.ofNat 0)) := by
  cases t with
  | uint g =>
    have h0 := hz g rfl
    simp only [set_default, offset, size, RM_UInt.set_default, RM_UInt.assign, h0, leEncode_zero]
  | str g =>
    rfl

end RM_Type

/-- Calling `set_default` on the fields of a record one after the other, all of constructor
default 0 and laid out without gaps from byte `start` to the end, zero-fills from `start`. -/
theorem set_default_each_zero (fs : List RM_Type) : ∀ (start : Nat) (pre rest : Mem),
    pre.length = start → laidOutFrom fs start = true →
    rest.length = (fs.map RM_Type.size).sum →
    (∀ g, RM_Type.uint g ∈ fs → g._default = 0) →
    set_default_each fs (pre ++ rest) = pre ++ List.replicate rest.length (Byte.ofNat 0) := by
  induction fs with
  | nil =>
    intro start pre rest _ _ hrest _
    have : rest = [] := List.length_eq_zero.1 (by simpa using hrest)
    subst this
    simp [set_default_each]
  | cons t fs ih =>
    intro start pre rest hpre hlay hrest hz
    simp only [laidOutFrom, Bool.and_eq_true, decide_eq_true_eq] at hlay
    simp only [List.map_cons, List.sum_cons] at hrest
    have hzt : ∀ g, t = RM_Type.uint g → g._default = 0 := by
      intro g hg
      exact hz g (by rw [hg]; exact List.mem_cons_self _ _)
    have hstep : t.set_default (pre ++ rest)
        = (pre ++ List.replicate t.size (Byte.ofNat 0)) ++ rest.drop t.size := by
      rw [RM_Type.set_default_zero t _ hzt,
        Mem.write_append pre rest _ t.offset (by rw [hpre, hlay.1]), List.length_replicate]
    have hih := ih (start + t.size) (pre ++ List.replicate t.size (Byte.ofNat 0))
      (rest.drop t.size)
      (by rw [List.length_append, List.length_replicate, hpre]) hlay.2
      (by rw [List.length_drop]; omega)
      (fun g hg => hz g (List.mem_cons_of_mem _ hg))
    have hcount : rest.length = t.size + (rest.drop t.size).length := by
      rw [List.length_drop]; omega
    unfold set_default_each at hih ⊢
    rw [List.foldl_cons, hstep, hih, hcount, List.replicate_add, List.append_assoc]

/-- C18 (as stated, refuted): a `UInt8` field constructed with default 7 holds 7, not 0,
after `set_default`, and the record is not the zero-filled one. -/
theorem set_default_is_not_always_zero :
    (RM_UINT8 0 7).element ((RM_UINT8 0 7).set_default [0]) = 7 ∧
    set_default_each [RM_Type.uint (RM_UINT8 0 7)] [0] ≠ List.replicate 1 (Byte.ofNat 0) := by
  decide

/-- C18 (amended): `set_default` writes the default the field was constructed with.  An
unsigned-integer field constructed with default `d` holds `d mod 2^(8w)` afterwards, so 0
when it was constructed with 0; a string field of width `n` holds `n` bytes `0x00`; and calling
`set_default` on every field of a record whose unsigned-integer fields were all constructed
with default 0 gives the zero-filled record. -/
theorem set_default_writes_constructor_default :
    (∀ (f : RM_UInt) (a : Mem), f._offset + f.size ≤ a.length →
      f.element (f.set_default a) = f._default % 2 ^ (8 * f.size)) ∧
    (∀ (f : RM_String) (a : Mem), f._offset + f.size ≤ a.length →
      (f.set_default a).read f._offset f.size = List.replicate f.size (Byte.ofNat 0)) ∧
    (∀ (fs : List RM_Type) (a : Mem), laidOutFrom fs 0 = true →
      a.length = (fs.map RM_Type.size).sum →
      (∀ g, RM_Type.uint g ∈ fs → g._default = 0) →
      set_default_each fs a = List.replicate a.length (Byte.ofNat 0)) := by
  refine ⟨fun f a ha => ?_, fun f a ha => ?_, fun fs a hlay hlen hz => ?_⟩
  · unfold RM_UInt.set_default
    exact RM_UInt.element_assign f a _ ha
  · exact RM_String.read_memset f a 0 ha
  · have := set_default_each_zero fs 0 [] a rfl hlay hlen hz
    simpa using this

/-- A `UInt16` field constructed with default 258, a string field of width 2, and a record of
a `UInt16`, a string of width 3 and a `UInt8`, all of default 0. -/
theorem set_default_writes_constructor_default_witness :
    (RM_UINT16 1 258).element ((RM_UINT16 1 258).set_default [9, 9, 9, 9]) = 258 ∧
    (RM_String.set_default ⟨1, 2⟩ [9, 9, 9, 9]).read 1 2 = [0, 0] ∧
    set_default_each [RM_Type.uint (RM_UINT16 0 0), RM_Type.str ⟨2, 3⟩,
        RM_Type.uint (RM_UINT8 5 0)] [1, 2, 3, 4, 5, 6]
      = [0, 0, 0, 0, 0, 0] :=
  ⟨set_default_writes_constructor_default.1 (RM_UINT16 1 258) [9, 9, 9, 9] (by decide),
    set_default_writes_constructor_default.2.1 ⟨1, 2⟩ [9, 9, 9, 9] (by decide),
    set_default_writes_constructor_default.2.2 [RM_Type.uint (RM_UINT16 0 0),
      RM_Type.str ⟨2, 3⟩, RM_Type.uint (RM_UINT8 5 0)] [1, 2, 3, 4, 5, 6] (by decide)
      (by decide) (by
        intro g hg
        simp only [List.mem_cons, RM_Type.uint.injEq, List.mem_singleton, reduceCtorEq,
          false_or, or_false, List.not_mem_nil] at hg
        rcases hg with h | h <;> rw [h] <;> rfl)⟩

end RecordModel

namespace RecordModel

/-! ## Accesses of the text parsers -/

theorem Mem.setByte_length (m : Mem) (j v : Nat) : (m.setByte j v).length = m.length := by
  unfold Mem.setByte
  exact List.length_set m j _

theorem Mem.take_setByte (m : Mem) : ∀ (j off v : Nat), off ≤ j →
    (m.setByte j v).take off = m.take off := by
  unfold Mem.setByte
  induction m with
  | nil =>
    intro j off v _
    simp
  | cons b m ih =>
    intro j off v h
    cases off with
    | zero => simp
    | succ off =>
      cases j with
      | zero => omega
      | succ j =>
        simp only [List.set_cons_succ, List.take_succ_cons]
        rw [ih j off v (by omega)]

theorem Mem.drop_setByte (m : Mem) (j e v : Nat) (h : j < e) :
    (m.setByte j v).drop e = m.drop e := by
  unfold Mem.setByte
  exact List.drop_set_of_lt _ m h

namespace RM_HEXSTR

/-- The logged loop computes what the loop of `parse_hexstring` computes. -/
theorem parse_hexstring_loop_traced_fst (vbase : Nat) (i_off : Int) (cs : List Char) :
    ∀ (i : Int) (m : Mem),
      (parse_hexstring_loop_traced vbase i_off cs i m).1 = parse_hexstring_loop vbase i_off cs i m := by
  induction cs with
  | nil =>
    intro i m
    rfl
  | cons c cs ih =>
    intro i m
    unfold parse_hexstring_loop_traced parse_hexstring_loop
    split_ifs
    · rfl
    · exact ih _ _

theorem parse_hexstring_traced_fst (f : RM_String) (m : Mem) (vbase : Nat) (str : List Char) :
    (parse_hexstring_traced f m vbase str).1 = parse_hexstring f m vbase str := by
  unfold parse_hexstring_traced parse_hexstring
  split_ifs
  · rfl
  · exact parse_hexstring_loop_traced_fst _ _ _ _ _

/-- Every access of the loop of `parse_hexstring` is inside the field or inside the text: with
`i_off = 2n - len` and the characters from `i` on still to read, it writes indices in `[0, n)`
and reads indices in `[0, len)`. -/
theorem parse_hexstring_loop_accesses (vbase n len : Nat) (cs : List Char) :
    ∀ (i : Int) (m : Mem), 0 ≤ i → i + cs.length ≤ len → len ≤ 2 * n →
      ∀ x ∈ (parse_hexstring_loop_traced vbase (2 * (n : Int) - len) cs i m).2,
        (∀ k, x = Access.write k → 0 ≤ k ∧ k < n) ∧
        (∀ k, x = Access.read k → 0 ≤ k ∧ k < len) := by
  induction cs with
  | nil =>
    intro i m _ _ _ x hx
    simp [parse_hexstring_loop_traced] at hx
  | cons c cs ih =>
    intro i m hi hlen hn x hx
    simp only [List.length_cons, Nat.cast_add, Nat.cast_one] at hlen
    have hidx : 0 ≤ (i + (2 * (n : Int) - len)).tdiv 2 ∧ (i + (2 * (n : Int) - len)).tdiv 2 < n := by
      rw [Int.tdiv_eq_ediv (by omega) (by omega)]
      omega
    unfold parse_hexstring_loop_traced at hx
    split_ifs at hx
    · simp only [List.mem_singleton] at hx
      subst hx
      refine ⟨fun k hk => (by cases hk), fun k hk => ?_⟩
      cases hk
      omega
    · simp only [List.mem_cons] at hx
      rcases hx with hx | hx | hx
      · subst hx
        refine ⟨fun k hk => (by cases hk), fun k hk => ?_⟩
        cases hk
        omega
      · subst hx
        refine ⟨fun k hk => ?_, fun k hk => by cases hk⟩
        cases hk
        exact hidx
      · exact ih (i + 1) _ (by omega) (by omega) hn x hx

/-- On a text of hex digits the loop of `parse_hexstring` reads `str[i]` and writes
`v[(i + i_off) / 2]` for every `i` up to the length of the text, in this order. -/
theorem parse_hexstring_loop_trace_eq (vbase : Nat) (i_off : Int) (cs : List Char) :
    ∀ (i : Int) (m : Mem), (∀ c ∈ cs, isHexDigit c = true) →
      (parse_hexstring_loop_traced vbase i_off cs i m).2
        = (List.range cs.length).flatMap
            (fun (j : Nat) =>
              [Access.read (i + (j : Int)), Access.write ((i + (j : Int) + i_off).tdiv 2)]) := by
  induction cs with
  | nil =>
    intro i m _
    rfl
  | cons c cs ih =>
    intro i m hhex
    have hc : ¬ from_hex_digit c < 0 := by
      rw [from_hex_digit_neg_iff, hhex c (List.mem_cons_self c cs)]
      simp
    unfold parse_hexstring_loop_traced
    rw [if_neg hc]
    simp only
    rw [ih (i + 1) _ (fun x hx => hhex x (List.mem_cons_of_mem c hx)), List.length_cons,
      List.range_succ_eq_map, List.flatMap_cons, List.flatMap_map]
    simp only [Nat.cast_zero, Int.add_zero, List.cons_append, List.nil_append, Nat.succ_eq_add_one,
      Nat.cast_add, Nat.cast_one]
    congr 2
    apply List.flatMap_congr
    intro j _
    have e : i + 1 + (j : Int) = i + ((j : Int) + 1) := by omega
    rw [e]

/-- The loop of `parse_hexstring` changes no byte outside the field and keeps the length of the
record, whatever the text. -/
theorem parse_hexstring_loop_outside (vbase n len : Nat) (cs : List Char) :
    ∀ (i : Int) (m : Mem), 0 ≤ i → i + cs.length ≤ len → len ≤ 2 * n →
      (parse_hexstring_loop vbase (2 * (n : Int) - len) cs i m).2.length = m.length ∧
      (parse_hexstring_loop vbase (2 * (n : Int) - len) cs i m).2.take vbase = m.take vbase ∧
      (parse_hexstring_loop vbase (2 * (n : Int) - len) cs i m).2.drop (vbase + n)
        = m.drop (vbase + n) := by
  induction cs with
  | nil =>
    intro i m _ _ _
    exact ⟨rfl, rfl, rfl⟩
  | cons c cs ih =>
    intro i m hi hlen hn
    simp only [List.length_cons, Nat.cast_add, Nat.cast_one] at hlen
    have hidx : ((i + (2 * (n : Int) - len)).tdiv 2).toNat < n := by
      rw [Int.tdiv_eq_ediv (by omega) (by omega)]
      omega
    unfold parse_hexstring_loop
    split_ifs
    · exact ⟨rfl, rfl, rfl⟩
    · obtain ⟨h1, h2, h3⟩ := ih (i + 1)
        (m.setByte (vbase + ((i + (2 * (n : Int) - len)).tdiv 2).toNat)
          ((m.byteAt (vbase + ((i + (2 * (n : Int) - len)).tdiv 2).toNat) <<< 4)
            ||| ((from_hex_digit c).toNat % 256)))
        (by omega) (by omega) hn
      rw [h1, h2, h3, Mem.setByte_length, Mem.take_setByte m _ _ _ (by omega),
        Mem.drop_setByte m _ _ _ (by omega)]
      exact ⟨rfl, rfl, rfl⟩

end RM_HEXSTR

namespace RM_STR

/-- The logged loop computes what the loop of `parse_string` computes. -/
theorem parse_string_loop_traced_fst (vbase : Nat) (str : List Char) (n : Nat) :
    ∀ (i : Nat) (m : Mem),
      (parse_string_loop_traced vbase str n i m).1 = parse_string_loop vbase str n i m := by
  induction n with
  | zero =>
    intro i m
    rfl
  | succ n ih =>
    intro i m
    unfold parse_string_loop_traced parse_string_loop
    exact ih _ _

theorem parse_string_traced_fst (f : RM_String) (m : Mem) (vbase : Nat) (str : List Char) :
    (parse_string_traced f m vbase str).1 = parse_string f m vbase str := by
  unfold parse_string_traced parse_string
  split_ifs
  · rfl
  · rw [parse_string_loop_traced_fst]

/-- Every access of the loop of `parse_string` is inside the field or inside the text: run for
`n` iterations from index `i`, it writes indices in `[i, i + n)` and reads indices below the
length of the text. -/
theorem parse_string_loop_accesses (vbase : Nat) (str : List Char) (n : Nat) :
    ∀ (i : Nat) (m : Mem),
      ∀ x ∈ (parse_string_loop_traced vbase str n i m).2,
        (∀ k, x = Access.write k → (i : Int) ≤ k ∧ k < i + n) ∧
        (∀ k, x = Access.read k → 0 ≤ k ∧ k < str.length) := by
  induction n with
  | zero =>
    intro i m x hx
    simp [parse_string_loop_traced] at hx
  | succ n ih =>
    intro i m x hx
    unfold parse_string_loop_traced at hx
    simp only [List.mem_append, List.mem_cons] at hx
    rcases hx with hx | hx | hx
    · split_ifs at hx with hlt
      · simp only [List.mem_singleton] at hx
        subst hx
        refine ⟨fun k hk => (by cases hk), fun k hk => ?_⟩
        cases hk
        omega
      · simp at hx
    · subst hx
      refine ⟨fun k hk => ?_, fun k hk => by cases hk⟩
      cases hk
      omega
    · obtain ⟨hw, hr⟩ := ih (i + 1) _ x hx
      refine ⟨fun k hk => ?_, hr⟩
      have := hw k hk
      push_cast at this ⊢
      omega

end RM_STR

end RecordModel

namespace RecordModel

namespace RM_STR

/-- The loop of `parse_string` changes no byte outside the `n` bytes from index `i` of the
field on, and keeps the length of the record. -/
theorem parse_string_loop_outside (vbase : Nat) (str : List Char) (n : Nat) :
    ∀ (i : Nat) (m : Mem),
      (parse_string_loop vbase str n i m).length = m.length ∧
      (parse_string_loop vbase str n i m).take vbase = m.take vbase ∧
      (parse_string_loop vbase str n i m).drop (vbase + i + n) = m.drop (vbase + i + n) := by
  induction n with
  | zero =>
    intro i m
    exact ⟨rfl, rfl, rfl⟩
  | succ n ih =>
    intro i m
    obtain ⟨h1, h2, h3⟩ := ih (i + 1)
      (m.setByte (vbase + i) (if i < str.length then (str.getD i (Char.ofNat 0)).toNat else 0))
    have e : vbase + (i + 1) + n = vbase + i + (n + 1) := by omega
    rw [e] at h3
    unfold parse_string_loop
    rw [h1, h2, h3, Mem.setByte_length, Mem.take_setByte m _ _ _ (by omega),
      Mem.drop_setByte m _ _ _ (by omega)]
    exact ⟨rfl, rfl, rfl⟩

end RM_STR

theorem bzero_outside (a : Mem) (off n : Nat) (ha : off + n ≤ a.length) :
    (bzero a off n).length = a.length ∧ (bzero a off n).take off = a.take off ∧
    (bzero a off n).drop (off + n) = a.drop (off + n) := by
  have hl : (List.replicate n (Byte.ofNat 0)).length = n := List.length_replicate _ _
  have h1 := Mem.write_length a off (List.replicate n (Byte.ofNat 0)) (by omega)
  have h2 := Mem.take_write a off (List.replicate n (Byte.ofNat 0)) (by omega)
  have h3 := Mem.drop_write a off (List.replicate n (Byte.ofNat 0)) (by omega)
  rw [hl] at h3
  exact ⟨h1, h2, h3⟩

/-- C21: the text parsers of string fields touch no byte outside the field.  `parse_hexstring`
and `parse_string`, run with their accesses logged, compute what `set_from_string` computes;
every index of `v` they write lies in `[0, n)` and every index of the text they read lies
below its length; on a text of at most `2n` hex digits the loop of `parse_hexstring` writes
exactly the indices `(i + 2n - len) / 2` for `i < len`; an over-long text makes them return
their error with no access at all; and after the call the record has its length and every byte
outside the field as before. -/
theorem text_parsers_stay_inside_field (f : RM_String) (a : Mem) (str : List Char)
    (ha : f._offset + f.size ≤ a.length) :
    ((RM_HEXSTR.parse_hexstring_traced f a f._offset str).1 = RM_HEXSTR.set_from_string f a str ∧
      (∀ k, Access.write k ∈ (RM_HEXSTR.parse_hexstring_traced f a f._offset str).2 →
        0 ≤ k ∧ k < f.size) ∧
      (∀ k, Access.read k ∈ (RM_HEXSTR.parse_hexstring_traced f a f._offset str).2 →
        0 ≤ k ∧ k < str.length) ∧
      (str.length ≤ 2 * f.size → (∀ c ∈ str, isHexDigit c = true) →
        (RM_HEXSTR.parse_hexstring_traced f a f._offset str).2
          = (List.range f.size).map (fun (k : Nat) => Access.write (k : Int))
            ++ (List.range str.length).flatMap (fun (i : Nat) =>
                [Access.read (i : Int),
                  Access.write (((i : Int) + (2 * (f.size : Int) - str.length)).tdiv 2)])) ∧
      (str.length > 2 * f.size →
        RM_HEXSTR.parse_hexstring_traced f a f._offset str = ((RM_ERR_HEX_INV_SIZE, a), [])) ∧
      (RM_HEXSTR.set_from_string f a str).2.length = a.length ∧
      (RM_HEXSTR.set_from_string f a str).2.take f._offset = a.take f._offset ∧
      (RM_HEXSTR.set_from_string f a str).2.drop (f._offset + f.size)
        = a.drop (f._offset + f.size)) ∧
    ((RM_STR.parse_string_traced f a f._offset str).1 = RM_STR.set_from_string f a str ∧
      (∀ k, Access.write k ∈ (RM_STR.parse_string_traced f a f._offset str).2 →
        0 ≤ k ∧ k < f.size) ∧
      (∀ k, Access.read k ∈ (RM_STR.parse_string_traced f a f._offset str).2 →
        0 ≤ k ∧ k < str.length) ∧
      (str.length > f.size →
        RM_STR.parse_string_traced f a f._offset str = ((RM_ERR_STR_TOO_LONG, a), [])) ∧
      (RM_STR.set_from_string f a str).2.length = a.length ∧
      (RM_STR.set_from_string f a str).2.take f._offset = a.take f._offset ∧
      (RM_STR.set_from_string f a str).2.drop (f._offset + f.size)
        = a.drop (f._offset + f.size)) := by
  constructor
  · -- HexString
    have hacc : ∀ x ∈ (RM_HEXSTR.parse_hexstring_traced f a f._offset str).2,
        (∀ k, x = Access.write k → 0 ≤ k ∧ k < f.size) ∧
        (∀ k, x = Access.read k → 0 ≤ k ∧ k < str.length) := by
      intro x hx
      unfold RM_HEXSTR.parse_hexstring_traced at hx
      split_ifs at hx with hlong
      · simp at hx
      · rcases List.mem_append.1 hx with hx | hx
        · obtain ⟨j, hj, hjx⟩ := List.mem_map.1 hx
          have hjn : j < f.size := List.mem_range.1 hj
          subst hjx
          refine ⟨fun k hk => ?_, fun k hk => by cases hk⟩
          have hjk : (j : Int) = k := Access.write.inj hk
          omega
        · exact RM_HEXSTR.parse_hexstring_loop_accesses f._offset f.size str.length str 0 _
            (le_refl _) (by omega) (by omega) x hx
    refine ⟨RM_HEXSTR.parse_hexstring_traced_fst f a f._offset str,
      fun k hk => (hacc _ hk).1 k rfl, fun k hk => (hacc _ hk).2 k rfl, ?_, ?_, ?_⟩
    · intro hlen hhex
      have hl : ¬ (str.length : Int) > 2 * (f.size : Int) := by omega
      unfold RM_HEXSTR.parse_hexstring_traced
      rw [if_neg hl]
      simp only
      rw [RM_HEXSTR.parse_hexstring_loop_trace_eq _ _ str 0 _ hhex]
      simp only [Int.zero_add]
    · intro hlong
      have hl : (str.length : Int) > 2 * (f.size : Int) := by omega
      unfold RM_HEXSTR.parse_hexstring_traced
      rw [if_pos hl]
    · unfold RM_HEXSTR.set_from_string RM_HEXSTR.parse_hexstring
      split_ifs with hlong
      · exact ⟨rfl, rfl, rfl⟩
      · obtain ⟨h1, h2, h3⟩ := RM_HEXSTR.parse_hexstring_loop_outside f._offset f.size
          str.length str 0 (bzero a f._offset f.size) (le_refl _) (by omega) (by omega)
        obtain ⟨b1, b2, b3⟩ := bzero_outside a f._offset f.size ha
        rw [h1, h2, h3, b1, b2, b3]
        exact ⟨rfl, rfl, rfl⟩
  · -- FixedString
    have hacc : ∀ x ∈ (RM_STR.parse_string_traced f a f._offset str).2,
        (∀ k, x = Access.write k → 0 ≤ k ∧ k < f.size) ∧
        (∀ k, x = Access.read k → 0 ≤ k ∧ k < str.length) := by
      intro x hx
      unfold RM_STR.parse_string_traced at hx
      split_ifs at hx with hlong
      · simp at hx
      · obtain ⟨hw, hr⟩ := RM_STR.parse_string_loop_accesses f._offset str f.size 0 a x hx
        refine ⟨fun k hk => ?_, hr⟩
        have := hw k hk
        push_cast at this
        omega
    refine ⟨RM_STR.parse_string_traced_fst f a f._offset str,
      fun k hk => (hacc _ hk).1 k rfl, fun k hk => (hacc _ hk).2 k rfl, ?_, ?_⟩
    · intro hlong
      have hl : (str.length : Int) > (f.size : Int) := by omega
      unfold RM_STR.parse_string_traced
      rw [if_pos hl]
    · unfold RM_STR.set_from_string RM_STR.parse_string
      split_ifs with hlong
      · exact ⟨rfl, rfl, rfl⟩
      · obtain ⟨h1, h2, h3⟩ := RM_STR.parse_string_loop_outside f._offset str f.size 0 a
        exact ⟨h1, h2, h3⟩

/-- A HexString and a FixedString of width 2 at byte 1 of a four-byte record, handed the texts
`abc`, `abg` and `abcde`. -/
theorem text_parsers_stay_inside_field_witness :
    (RM_HEXSTR.parse_hexstring_traced ⟨1, 2⟩ [9, 3, 4, 9] 1 "abc".toList).2
      = [Access.write 0, Access.write 1, Access.read 0, Access.write 0, Access.read 1,
          Access.write 1, Access.read 2, Access.write 1] ∧
    (RM_HEXSTR.set_from_string ⟨1, 2⟩ [9, 3, 4, 9] "abg".toList).2.take 1 = [9] ∧
    (RM_HEXSTR.set_from_string ⟨1, 2⟩ [9, 3, 4, 9] "abg".toList).2.drop 3 = [9] ∧
    RM_HEXSTR.parse_hexstring_traced ⟨1, 2⟩ [9, 3, 4, 9] 1 "abcde".toList
      = ((RM_ERR_HEX_INV_SIZE, [9, 3, 4, 9]), []) ∧
    RM_STR.parse_string_traced ⟨1, 2⟩ [9, 3, 4, 9] 1 "abc".toList
      = ((RM_ERR_STR_TOO_LONG, [9, 3, 4, 9]), []) :=
  ⟨(text_parsers_stay_inside_field ⟨1, 2⟩ [9, 3, 4, 9] "abc".toList (by decide)).1.2.2.2.1
      (by decide) (by decide),
    (text_parsers_stay_inside_field ⟨1, 2⟩ [9, 3, 4, 9] "abg".toList (by decide)).1.2.2.2.2.2.2.1,
    (text_parsers_stay_inside_field ⟨1, 2⟩ [9, 3, 4, 9] "abg".toList (by decide)).1.2.2.2.2.2.2.2,
    (text_parsers_stay_inside_field ⟨1, 2⟩ [9, 3, 4, 9] "abcde".toList (by decide)).1.2.2.2.2.1
      (by decide),
    (text_parsers_stay_inside_field ⟨1, 2⟩ [9, 3, 4, 9] "abc".toList (by decide)).2.2.2.2.1
      (by decide)⟩

end RecordModel

namespace RecordModel

/-! ## Texts of digits read into unsigned integers -/

/-- For `UInt8/16/32/64` and a text of digits whose number is below `2^64`, `set_from_string`
succeeds exactly when the number is at most `2^(8w) - 1`, and the field then holds it. -/
theorem uint_from_text_below_2_64 (f : RM_UInt) (a : Mem) (s : List Char)
    (hk : f.kind ≠ UIntKind.TIMESTAMP ∧ f.kind ≠ UIntKind.TIMESTAMP_DESC)
    (ha : f._offset + f.size ≤ a.length)
    (hd : ∀ c ∈ s, isDecDigit c = true) (hv : decimalValue s < 2 ^ 64) :
    ((f.set_from_string a s).1 = RM_ERR_OK ↔ decimalValue s ≤ 2 ^ (8 * f.size) - 1) ∧
    ((f.set_from_string a s).1 = RM_ERR_OK →
      f.element (f.set_from_string a s).2 = decimalValue s) := by
  have hok : ¬ (RM_ERR_OK ≠ 0) := by decide
  have hne : RM_ERR_INT_RANGE ≠ RM_ERR_OK := by decide
  have hval : (RM_Conversion.str_to_uint s).1 = decimalValue s := by
    rw [RM_Conversion.str_to_uint_value s hd, Nat.mod_eq_of_lt hv]
  have hcode : (RM_Conversion.str_to_uint s).2 = RM_ERR_OK := by
    rw [RM_Conversion.str_to_uint_code, if_pos hd]
  rw [RM_UInt.set_from_string_plain f a s hk, hcode, if_neg hok, hval]
  by_cases hle : decimalValue s ≤ 2 ^ (8 * f.size) - 1
  · rw [RM_UInt._set_uint_ok f a _ hle]
    exact ⟨⟨fun _ => hle, fun _ => rfl⟩, fun _ => RM_UInt.element_assign_of_le f a _ ha hle⟩
  · rw [RM_UInt._set_uint_range f a _ (by unfold RM_UInt.NT_max; omega)]
    exact ⟨⟨fun h => absurd h hne, fun h => absurd h hle⟩, fun h => absurd h hne⟩

/-- C22 (the code at the failing input): the text `18446744073709551617` has only digits and
denotes `2^64 + 1`, above 255; `set_from_string` on a `UInt8` field returns `RM_ERR_OK` and
stores 1.  On a `UInt64` field the text `18446744073709551616`, which denotes `2^64`, is
accepted too and stores 0. -/
theorem uint_from_text_wraps_at_2_64 :
    (∀ c ∈ "18446744073709551617".toList, isDecDigit c = true) ∧
    decimalValue "18446744073709551617".toList = 2 ^ 64 + 1 ∧
    (RM_UINT8 0 0).set_from_string [0] "18446744073709551617".toList = (RM_ERR_OK, [1]) ∧
    (RM_UINT8 0 0).element
      ((RM_UINT8 0 0).set_from_string [0] "18446744073709551617".toList).2 = 1 ∧
    ((RM_UINT64 0 0).set_from_string (List.replicate 8 7) "18446744073709551616".toList).1
      = RM_ERR_OK ∧
    (RM_UINT64 0 0).element
      ((RM_UINT64 0 0).set_from_string (List.replicate 8 7) "18446744073709551616".toList).2
      = 0 := by
  decide

end RecordModel
